import Mathlib

/-! # Retrieval subsystem of the personal knowledge base

A shallow embedding of `internal/services/search.go`, of the repository
operations of `internal/db/db.go` and of the list handler of
`internal/api/handlers.go` (with the types of `internal/models/models.go`),
followed by the properties established about them.

Conventions of the embedding:

* a Go `string` or `[]byte` is the list of its bytes (`GoString`), so `len`
  and slicing count bytes, as in Go;
* a Go `int` is an `Int` in the 64-bit range; additions that can overflow are
  wrapped explicitly with `wrapInt64`;
* a run-time panic (slice bounds out of range) and a returned `error` are the
  two constructors of `Fault`, and fallible code returns `Except Fault`;
* a `float32` or `float64` value is a `GoFloat`: NaN, an infinity, or a
  rational; comparisons are the IEEE-754 ones, and the rounding arithmetic
  and the Go library functions the code calls are parameters (`GoRuntime`),
  of which `ieeeRuntime` is the IEEE-754 instance (round to nearest, ties to
  even);
* the SQL operator `LIKE` is SQLite's, on the characters SQLite decodes from
  the bytes of pattern and text.
-/

namespace PKB

/-! ## Values -/

/-- A Go string, as the sequence of its bytes. -/
abbrev GoString := List Nat

/-- The two ways a call can end without a result. -/
inductive Fault where
  | error (msg : String)
  | panic
deriving DecidableEq, Repr

instance {ε α : Type} [DecidableEq ε] [DecidableEq α] : DecidableEq (Except ε α)
  | .ok a, .ok b =>
    if h : a = b then isTrue (by rw [h]) else isFalse (fun e => h (by cases e; rfl))
  | .error a, .error b =>
    if h : a = b then isTrue (by rw [h]) else isFalse (fun e => h (by cases e; rfl))
  | .ok _, .error _ => isFalse (fun e => by cases e)
  | .error _, .ok _ => isFalse (fun e => by cases e)

/-- The values of a Go floating-point number as comparison sees them: NaN, the
two infinities, and the finite values (the two zeros compare equal and are
both `finite 0`). -/
inductive GoFloat where
  | nan
  | negInf
  | finite (q : ℚ)
  | posInf
deriving DecidableEq

namespace GoFloat

/-- Go `x < y` on floats: false as soon as one side is NaN. -/
def lt : GoFloat → GoFloat → Bool
  | nan, _ => false
  | _, nan => false
  | negInf, negInf => false
  | negInf, _ => true
  | _, negInf => false
  | posInf, _ => false
  | finite _, posInf => true
  | finite a, finite b => decide (a < b)

/-- Go `x == y` on floats: NaN is equal to nothing, itself included. -/
def eq : GoFloat → GoFloat → Bool
  | nan, _ => false
  | _, nan => false
  | negInf, negInf => true
  | posInf, posInf => true
  | finite a, finite b => decide (a = b)
  | _, _ => false

/-- Go `x >= y` on floats. -/
def ge (x y : GoFloat) : Bool := lt y x || eq x y

/-- Go `x != x`, the test for NaN. -/
def isNaN : GoFloat → Bool
  | nan => true
  | _ => false

end GoFloat

/-- The fields of `models.Content` that search fills in (`Typ` is the Go field
`Type`). `CreatedAt`,
`UpdatedAt` and `Embedding` are never assigned by the search code (the
timestamps are scanned into discarded locals) and keep their zero value. -/
structure Content where
  ID : Int
  Typ : GoString
  Title : GoString
  Body : GoString
  SourceURL : GoString
  FilePath : GoString
  Tags : List GoString
deriving DecidableEq

/-- The Go struct `models.SearchQuery` (`Typ` is the Go field `Type`). -/
structure SearchQuery where
  Query : GoString
  Typ : GoString
  Tags : List GoString
  Limit : Int
  Offset : Int
  Semantic : Bool
deriving DecidableEq

/-- The Go struct `models.SearchResult`. -/
structure SearchResult where
  Content : Content
  Score : GoFloat
  Snippet : GoString
deriving DecidableEq

/-! ## Machine integers and slicing -/

/-- The value of a Go `int` (64 bits, two's complement) after an arithmetic
result `x` wraps around. -/
def wrapInt64 (x : Int) : Int := (x + 2 ^ 63) % 2 ^ 64 - 2 ^ 63

/-- Membership in the range of a Go `int`. -/
def isInt64 (x : Int) : Prop := -(2 ^ 63) ≤ x ∧ x < 2 ^ 63

instance (x : Int) : Decidable (isInt64 x) :=
  inferInstanceAs (Decidable (-(2 ^ 63) ≤ x ∧ x < 2 ^ 63))

/-- The Go slice expression `s[lo:hi]` on a string or on a slice whose
capacity is not exceeded: it panics unless `0 ≤ lo ≤ hi ≤ len(s)`. -/
def goSlice {α : Type} (s : List α) (lo hi : Int) : Except Fault (List α) :=
  if 0 ≤ lo ∧ lo ≤ hi ∧ hi ≤ (s.length : Int) then
    .ok ((s.drop lo.toNat).take (hi.toNat - lo.toNat))
  else .error .panic

/-! ## Ranking: `sortResultsByScore` -/

/-- The Go statement `rs[i], rs[j] = rs[j], rs[i]`. -/
def swapAt {α : Type} (rs : List α) (i j : Nat) : List α :=
  match rs[i]?, rs[j]? with
  | some a, some b => (rs.set i b).set j a
  | _, _ => rs

/-- The Go condition `results[i].Score < results[j].Score`. -/
def scoreLt (rs : List SearchResult) (i j : Nat) : Bool :=
  match rs[i]?, rs[j]? with
  | some a, some b => a.Score.lt b.Score
  | _, _ => false

/-- The inner loop `for j := ...; j < len(results); j++` of
`sortResultsByScore`, entered with the current `j`; the first argument
bounds the number of iterations (at most `len(results)` are ever run). -/
def sortInner (i : Nat) : Nat → Nat → List SearchResult → List SearchResult
  | 0, _, rs => rs
  | fuel + 1, j, rs =>
    if j < rs.length then
      sortInner i fuel (j + 1) (if scoreLt rs i j then swapAt rs i j else rs)
    else rs

/-- The outer loop `for i := ...; i < len(results); i++` of
`sortResultsByScore`, entered with the current `i`. -/
def sortOuter : Nat → Nat → List SearchResult → List SearchResult
  | 0, _, rs => rs
  | fuel + 1, i, rs =>
    if i < rs.length then
      sortOuter fuel (i + 1) (sortInner i rs.length (i + 1) rs)
    else rs

/-- The Go function `sortResultsByScore`: the slice after the in-place
exchange sort. Each loop runs fewer than `len(results)` iterations, so the
iteration bounds given here are never reached early. -/
def sortResultsByScore (rs : List SearchResult) : List SearchResult :=
  sortOuter rs.length 0 rs

/-- Lines 212-225 of `semanticSearch`: default limit, window bounds, and the
final slice expression. `query.Offset + query.Limit` is a 64-bit addition. -/
def applyWindow (results : List SearchResult) (offset limit : Int) :
    Except Fault (List SearchResult) :=
  let limit := if limit ≤ 0 then 10 else limit
  let start := offset
  let stop := wrapInt64 (offset + limit)
  if start ≥ (results.length : Int) then .ok []
  else
    let stop := if stop > (results.length : Int) then (results.length : Int) else stop
    goSlice results start stop

/-- Lines 209-225 of `semanticSearch`: sort the surviving candidates, then
window them. -/
def rankAndWindow (results : List SearchResult) (offset limit : Int) :
    Except Fault (List SearchResult) :=
  applyWindow (sortResultsByScore results) offset limit

/-- One run of the inner loop of `sortResultsByScore`, seen from the element
`x` at position `i` and the elements `tl` after it: the element left at
position `i` and the elements left after it (proof-side characterisation of
`sortInner`, see `sortInner_decomp`). -/
def bubble : SearchResult → List SearchResult → SearchResult × List SearchResult
  | x, [] => (x, [])
  | x, y :: ys =>
    if x.Score.lt y.Score then ((bubble y ys).1, x :: (bubble y ys).2)
    else ((bubble x ys).1, y :: (bubble x ys).2)

/-- The order the ranking is meant to produce between a result and a later
one: Go `a.Score >= b.Score`. -/
def scoreGe (a b : SearchResult) : Prop := a.Score.ge b.Score = true

instance (a b : SearchResult) : Decidable (scoreGe a b) :=
  inferInstanceAs (Decidable (a.Score.ge b.Score = true))

/-- A result for content `id` carrying only a score (empty text fields). -/
def scored (id : Int) (s : GoFloat) : SearchResult :=
  { Content := { ID := id, Typ := [], Title := [], Body := [], SourceURL := [],
                 FilePath := [], Tags := [] },
    Score := s, Snippet := [] }

/-! ## Strings: UTF-8, `strings.ToLower`, `strings.Index` -/

/-- The rune `utf8.RuneError` (U+FFFD). -/
def RuneError : Nat := 0xFFFD

/-- A UTF-8 continuation byte (`10xxxxxx`). -/
def isCont (b : Nat) : Bool := 0x80 ≤ b && b ≤ 0xBF

/-- Go `utf8.DecodeRuneInString`: the first rune of `s` and its width in
bytes; an invalid or truncated encoding gives `(RuneError, 1)`. -/
def decodeRune : GoString → Nat × Nat
  | [] => (RuneError, 0)
  | b0 :: rest =>
    if b0 < 0x80 then (b0, 1)
    else if b0 < 0xC2 then (RuneError, 1)
    else if b0 < 0xE0 then
      match rest with
      | b1 :: _ =>
        if isCont b1 then ((b0 % 32) * 64 + b1 % 64, 2) else (RuneError, 1)
      | _ => (RuneError, 1)
    else if b0 < 0xF0 then
      let lo := if b0 = 0xE0 then 0xA0 else 0x80
      let hi := if b0 = 0xED then 0x9F else 0xBF
      match rest with
      | b1 :: b2 :: _ =>
        if lo ≤ b1 ∧ b1 ≤ hi ∧ isCont b2 then
          ((b0 % 16) * 4096 + (b1 % 64) * 64 + b2 % 64, 3)
        else (RuneError, 1)
      | _ => (RuneError, 1)
    else if b0 < 0xF5 then
      let lo := if b0 = 0xF0 then 0x90 else 0x80
      let hi := if b0 = 0xF4 then 0x8F else 0xBF
      match rest with
      | b1 :: b2 :: b3 :: _ =>
        if lo ≤ b1 ∧ b1 ≤ hi ∧ isCont b2 ∧ isCont b3 then
          ((b0 % 8) * 262144 + (b1 % 64) * 4096 + (b2 % 64) * 64 + b3 % 64, 4)
        else (RuneError, 1)
      | _ => (RuneError, 1)
    else (RuneError, 1)

/-- The runes a Go `for _, c := range s` loop visits; the first argument
bounds the number of runes (`len(s)` is always enough, every rune taking at
least one byte). -/
def decodeRunes : Nat → GoString → List Nat
  | 0, _ => []
  | fuel + 1, s =>
    match s with
    | [] => []
    | _ :: _ => (decodeRune s).1 :: decodeRunes fuel (s.drop (decodeRune s).2)

/-- Go `utf8.RuneCountInString`: the number of characters (runes) of a
string, an invalid byte counting as one. -/
def runeCount (s : GoString) : Nat := (decodeRunes s.length s).length

/-- Go `utf8.AppendRune`: the UTF-8 encoding of a rune (surrogates and values
above U+10FFFF are written as `RuneError`). -/
def encodeRune (r : Nat) : GoString :=
  if r ≤ 0x7F then [r]
  else if r ≤ 0x7FF then [0xC0 + r / 64, 0x80 + r % 64]
  else if r > 0x10FFFF ∨ (0xD800 ≤ r ∧ r ≤ 0xDFFF) then [0xEF, 0xBF, 0xBD]
  else if r ≤ 0xFFFF then [0xE0 + r / 4096, 0x80 + (r / 64) % 64, 0x80 + r % 64]
  else [0xF0 + r / 262144, 0x80 + (r / 4096) % 64, 0x80 + (r / 64) % 64, 0x80 + r % 64]

/-- The lower case of an ASCII letter `A`-`Z`, any other byte unchanged: the
ASCII path of Go's `strings.ToLower`, and SQLite's case folding for `LIKE`. -/
def asciiFold (c : Nat) : Nat := if 0x41 ≤ c ∧ c ≤ 0x5A then c + 32 else c

/-- Go `strings.ToLower`, over the case table `lowerRune` (Go's
`unicode.ToLower`): an all-ASCII string has its letters `A`-`Z` lowered byte
by byte; any other string is decoded rune by rune (an invalid byte decoding
to `RuneError`), each rune mapped and written back in UTF-8, as
`strings.Map` does. -/
def ToLower (lowerRune : Nat → Nat) (s : GoString) : GoString :=
  if s.all (fun c => c < 0x80) then s.map asciiFold
  else
    (decodeRunes s.length s).flatMap (fun r => encodeRune (lowerRune r))

/-- The entries of Go's `unicode.ToLower` table that are evaluated in this
development: the ASCII letters, U+00C9 (LATIN CAPITAL LETTER E WITH ACUTE,
whose lower case is U+00E9), U+023A (LATIN CAPITAL LETTER A WITH STROKE, two
bytes in UTF-8, whose lower case U+2C65 takes three) and U+212A (KELVIN SIGN,
three bytes, whose lower case `k` takes one). Every other code point is
returned unchanged here, which Go does only for those that have no other
lower case; statements about all inputs therefore take the lower-casing
function as a parameter. -/
def unicodeToLower (r : Nat) : Nat :=
  if 0x41 ≤ r ∧ r ≤ 0x5A then r + 32
  else if r = 0xC9 then 0xE9
  else if r = 0x23A then 0x2C65
  else if r = 0x212A then 0x6B
  else r

/-- The UTF-8 bytes of a string literal. -/
def utf8 (s : String) : GoString := s.toList.flatMap (fun c => encodeRune c.toNat)

/-- The text made of `n` letters U+023A, each the two bytes `C8 BA`. Its lower
case in Go is made of `n` letters U+2C65, each the three bytes `E2 B1 A5`. -/
def strokedA (n : Nat) : GoString := (List.replicate n [0xC8, 0xBA]).flatten

/-- The text made of `n` letters U+00E9 (LATIN SMALL LETTER E WITH ACUTE), each
the two bytes `C3 A9`; the letter is its own lower case. -/
def eAcute (n : Nat) : GoString := (List.replicate n [0xC3, 0xA9]).flatten

/-- The search of `strings.Index` from offset `k` on: the offset of the first
suffix of `s` that `substr` is a prefix of, `-1` when there is none. -/
def indexFrom (substr : GoString) : GoString → Nat → Int
  | [], k => if substr = [] then (k : Int) else -1
  | c :: cs, k => if substr.isPrefixOf (c :: cs) then (k : Int) else indexFrom substr cs (k + 1)

/-- Go `strings.Index(s, substr)`. -/
def stringsIndex (s substr : GoString) : Int := indexFrom substr s 0

/-! ## Snippets: `extractSnippet` -/

/-- The Go string literal `"..."`. -/
def ellipsis : GoString := [0x2E, 0x2E, 0x2E]

/-- The Go function `extractSnippet`, over the function `toLower` that
`strings.ToLower` computes. The match index is taken in the lower-cased text
and the slice bounds are applied to the original text; a slice expression
whose bounds are out of range is a panic. (String lengths are far below
`2^63`, so the additions on `index` do not wrap.) -/
def extractSnippet (toLower : GoString → GoString) (text query : GoString) :
    Except Fault GoString :=
  if query = [] ∨ text = [] then .ok []
  else
    let lowerText := toLower text
    let lowerQuery := toLower query
    let index := stringsIndex lowerText lowerQuery
    if index = -1 then
      if text.length > 150 then do
        let head ← goSlice text 0 150
        pure (head ++ ellipsis)
      else .ok text
    else
      let start := if index - 75 < 0 then 0 else index - 75
      let stop := index + (query.length : Int) + 75
      let stop := if stop > (text.length : Int) then (text.length : Int) else stop
      do
        let snippet ← goSlice text start stop
        let snippet := if start > 0 then ellipsis ++ snippet else snippet
        let snippet := if stop < (text.length : Int) then snippet ++ ellipsis else snippet
        pure snippet

/-! ## Tag filter of semantic mode: `containsAllTags` -/

/-- The Go statement `tagMap[tag] = true` on a `map[string]bool`, the map
being its lookup function (an absent key reads as `false`). -/
def mapSet (m : GoString → Bool) (tag : GoString) : GoString → Bool :=
  fun k => if k = tag then true else m k

/-- The second loop of `containsAllTags`: `false` at the first query tag the
map does not hold, `true` when the loop runs out. -/
def allInMap (tagMap : GoString → Bool) : List GoString → Bool
  | [] => true
  | tag :: rest => if !tagMap tag then false else allInMap tagMap rest

/-- The Go function `containsAllTags`. -/
def containsAllTags (contentTags queryTags : List GoString) : Bool :=
  let tagMap := contentTags.foldl mapSet (fun _ => false)
  allInMap tagMap queryTags

/-! ## Similarity: `cosineSimilarity` -/

/-- What the code takes from the Go runtime and library, as parameters:
`strings.ToLower`, and the rounded floating-point operations (`mul32` is a
`float32` product converted to `float64`, the others are `float64`
operations, `sqrt` is `math.Sqrt`). -/
structure GoRuntime where
  ToLower : GoString → GoString
  mul32 : GoFloat → GoFloat → GoFloat
  add : GoFloat → GoFloat → GoFloat
  mul : GoFloat → GoFloat → GoFloat
  div : GoFloat → GoFloat → GoFloat
  sqrt : GoFloat → GoFloat

/-- The accumulation loop of `cosineSimilarity` over two vectors of the same
length, from given values of `dotProduct`, `normA` and `normB`. -/
def cosineLoop (rt : GoRuntime) :
    List GoFloat → List GoFloat → GoFloat × GoFloat × GoFloat → GoFloat × GoFloat × GoFloat
  | x :: a, y :: b, (dot, nA, nB) =>
    cosineLoop rt a b (rt.add dot (rt.mul32 x y), rt.add nA (rt.mul32 x x),
      rt.add nB (rt.mul32 y y))
  | _, _, acc => acc

/-- The Go function `cosineSimilarity`. -/
def cosineSimilarity (rt : GoRuntime) (a b : List GoFloat) : GoFloat :=
  if a.length ≠ b.length then .finite 0
  else
    let acc := cosineLoop rt a b (.finite 0, .finite 0, .finite 0)
    let dotProduct := acc.1
    let normA := rt.sqrt acc.2.1
    let normB := rt.sqrt acc.2.2
    if normA.eq (.finite 0) || normB.eq (.finite 0) then .finite 0
    else rt.div dotProduct (rt.mul normA normB)

/-- The facts about zero that IEEE-754 arithmetic guarantees and that the
zero cases of `cosineSimilarity` rest on: a product of zeros, a sum of zeros
and the square root of zero are zero. -/
structure GoRuntime.ZeroLaws (rt : GoRuntime) : Prop where
  mul32_zero : rt.mul32 (.finite 0) (.finite 0) = .finite 0
  add_zero : rt.add (.finite 0) (.finite 0) = .finite 0
  sqrt_zero : rt.sqrt (.finite 0) = .finite 0

/-- A vector of Euclidean norm zero: every component is zero. -/
def isZeroVector (v : List GoFloat) : Prop := ∀ x ∈ v, x = GoFloat.finite 0

namespace GoFloat

/-- Addition of floats without rounding. -/
def addExact : GoFloat → GoFloat → GoFloat
  | finite a, finite b => finite (a + b)
  | nan, _ => nan
  | _, nan => nan
  | posInf, negInf => nan
  | negInf, posInf => nan
  | posInf, _ => posInf
  | _, posInf => posInf
  | negInf, _ => negInf
  | _, negInf => negInf

/-- The sign of a float: `1`, `0` or `-1` (`0` for NaN). -/
def sign : GoFloat → Int
  | nan => 0
  | negInf => -1
  | posInf => 1
  | finite a => if a < 0 then -1 else if a = 0 then 0 else 1

/-- Multiplication of floats without rounding. -/
def mulExact : GoFloat → GoFloat → GoFloat
  | finite a, finite b => finite (a * b)
  | nan, _ => nan
  | _, nan => nan
  | x, y =>
    if sign x * sign y = 0 then nan
    else if sign x * sign y = 1 then posInf else negInf

/-- Division of floats without rounding (the two zeros being identified, a
non-zero value divided by zero is given the sign of the dividend). -/
def divExact : GoFloat → GoFloat → GoFloat
  | nan, _ => nan
  | _, nan => nan
  | finite a, finite b =>
    if b = 0 then (if a = 0 then nan else if a < 0 then negInf else posInf)
    else finite (a / b)
  | finite _, _ => finite 0
  | x, finite b => if sign x * (if b < 0 then -1 else 1) = 1 then posInf else negInf
  | _, _ => nan

/-- Square root, rounded down to a multiple of `1 / den`. -/
def sqrtFloor : GoFloat → GoFloat
  | nan => nan
  | negInf => nan
  | posInf => posInf
  | finite a =>
    if a < 0 then nan
    else finite ((Nat.sqrt (a.num.toNat * a.den) : ℚ) / (a.den : ℚ))

end GoFloat

/-- An instance of the runtime parameters: `strings.ToLower` over the case
table `unicodeToLower`, and arithmetic on the rationals without rounding
(the square root rounded down). It meets `GoRuntime.ZeroLaws`. -/
def sampleRuntime : GoRuntime where
  ToLower := ToLower unicodeToLower
  mul32 := GoFloat.mulExact
  add := GoFloat.addExact
  mul := GoFloat.mulExact
  div := GoFloat.divExact
  sqrt := GoFloat.sqrtFloor

/-! ## IEEE-754 arithmetic -/

/-- The power `2 ^ t` of an integer exponent, as a rational. -/
def twoPow (t : Int) : ℚ :=
  if 0 ≤ t then ((2 ^ t.toNat : Nat) : ℚ) else 1 / ((2 ^ (-t).toNat : Nat) : ℚ)

/-- The test `2 ^ c ≤ N / D`, for `D > 0`. -/
def powLe (c : Int) (N D : Nat) : Bool :=
  if 0 ≤ c then decide (D * 2 ^ c.toNat ≤ N) else decide (D ≤ N * 2 ^ (-c).toNat)

/-- The loop of `natLog2` (the first argument bounds the number of
halvings). -/
def log2Loop : Nat → Nat → Nat
  | 0, _ => 0
  | fuel + 1, n => if 2 ≤ n then log2Loop fuel (n / 2) + 1 else 0

/-- The binary logarithm of a positive integer, rounded down: the `k` with
`2 ^ k ≤ n < 2 ^ (k + 1)`. -/
def natLog2 (n : Nat) : Nat := log2Loop n n

/-- The loop of `natSqrt`: from bit `i - 1` down to bit 0, a bit is added to
the root `r` when the square stays within `n`. -/
def sqrtLoop (n : Nat) : Nat → Nat → Nat
  | 0, r => r
  | i + 1, r =>
    if (r + 2 ^ i) * (r + 2 ^ i) ≤ n then sqrtLoop n i (r + 2 ^ i) else sqrtLoop n i r

/-- The integer square root: the `r` with `r * r ≤ n < (r + 1) * (r + 1)`. -/
def natSqrt (n : Nat) : Nat := sqrtLoop n (natLog2 n / 2 + 1) 0

/-- The binary exponent of the positive fraction `N / D`: the integer `e` with
`2 ^ e ≤ N / D < 2 ^ (e + 1)`. -/
def floorLog2 (N D : Nat) : Int :=
  let c : Int := (natLog2 N : Int) - (natLog2 D : Int)
  if powLe c N D then c else c - 1

/-- The integer nearest to the fraction `X / Y`, the even one of the two
when `X / Y` lies halfway between them. -/
def roundHalfEven (X Y : Nat) : Nat :=
  let f := X / Y
  let r := X % Y
  if 2 * r < Y then f else if Y < 2 * r then f + 1 else if f % 2 = 0 then f else f + 1

/-- A binary floating-point format of IEEE-754: the precision `p` in bits and
the exponents `emin` and `emax` of the smallest and largest normal binade. -/
structure FloatFormat where
  p : Nat
  emin : Int
  emax : Int

/-- The format of `float64`. -/
def binary64 : FloatFormat := ⟨53, -1022, 1023⟩

/-- The format of `float32`. -/
def binary32 : FloatFormat := ⟨24, -126, 127⟩

/-- The value of the format nearest to `n * 2 ^ t` for the sign of `q`, an
infinity once the magnitude reaches `2 ^ (emax + 1)`. -/
def packFloat (fmt : FloatFormat) (q : ℚ) (n : Nat) (t : Int) : GoFloat :=
  let mag : ℚ := (n : ℚ) * twoPow t
  if twoPow (fmt.emax + 1) ≤ mag then (if q < 0 then .negInf else .posInf)
  else .finite (if q < 0 then -mag else mag)

/-- IEEE-754 rounding of a real result `q` to the format, in the default mode
(to nearest, ties to even): the magnitude is rounded to a multiple of the unit
in the last place `2 ^ t` of its binade (of the smallest normal binade for a
subnormal result), and a result beyond the largest finite value is an
infinity. -/
def roundTo (fmt : FloatFormat) (q : ℚ) : GoFloat :=
  if q = 0 then .finite 0
  else
    let N := q.num.natAbs
    let D := q.den
    let e := max (floorLog2 N D) fmt.emin
    let t := e - ((fmt.p : Int) - 1)
    let n := if 0 ≤ t then roundHalfEven N (D * 2 ^ t.toNat)
      else roundHalfEven (N * 2 ^ (-t).toNat) D
    packFloat fmt q n t

/-- The correctly rounded square root of a positive rational `q` (IEEE-754
`squareRoot`, to nearest, ties to even): with `2 ^ t` the unit in the last
place of the root, the root of `X / Y = q / 4 ^ t` is rounded to an
integer. -/
def sqrtTo (fmt : FloatFormat) (q : ℚ) : GoFloat :=
  let N := q.num.natAbs
  let D := q.den
  let e := max (floorLog2 N D / 2) fmt.emin
  let t := e - ((fmt.p : Int) - 1)
  let X := if 0 ≤ t then N else N * 4 ^ (-t).toNat
  let Y := if 0 ≤ t then D * 4 ^ t.toNat else D
  let f := natSqrt (X / Y)
  let n := if 4 * X < (2 * f + 1) ^ 2 * Y then f
    else if (2 * f + 1) ^ 2 * Y < 4 * X then f + 1
    else if f % 2 = 0 then f else f + 1
  packFloat fmt q n t

namespace GoFloat

/-- The rounding of an exact result: a finite value is rounded to the format,
NaN and the infinities are kept. -/
def round (fmt : FloatFormat) : GoFloat → GoFloat
  | finite q => roundTo fmt q
  | x => x

/-- Go `math.Sqrt` on `float64`. -/
def sqrt64 : GoFloat → GoFloat
  | nan => nan
  | negInf => nan
  | posInf => posInf
  | finite q => if q < 0 then nan else if q = 0 then finite 0 else sqrtTo binary64 q

end GoFloat

/-- The runtime of Go on IEEE-754 hardware: `float32` products and `float64`
sums, products, quotients and square roots, each the exact result rounded to
nearest, ties to even; `strings.ToLower` over the case table
`unicodeToLower`. The two zeros are one value here; the divisor of
`cosineSimilarity` is a product of square roots and is never the negative
zero, so the sign of a quotient by zero is the one `divExact` gives. -/
def ieeeRuntime : GoRuntime where
  ToLower := ToLower unicodeToLower
  mul32 := fun x y => (GoFloat.mulExact x y).round binary32
  add := fun x y => (GoFloat.addExact x y).round binary64
  mul := fun x y => (GoFloat.mulExact x y).round binary64
  div := fun x y => (GoFloat.divExact x y).round binary64
  sqrt := GoFloat.sqrt64

/-! ## The relational store -/

/-- A row of table `content`. -/
structure ContentRow where
  id : Int
  type : GoString
  title : GoString
  body : GoString
  source_url : GoString
  file_path : GoString
  created_at : GoString
  updated_at : GoString
deriving DecidableEq

/-- A row of table `tags`. -/
structure TagRow where
  id : Int
  name : GoString
deriving DecidableEq

/-- A row of table `content_tags`. -/
structure ContentTagRow where
  content_id : Int
  tag_id : Int
deriving DecidableEq

/-- A row of table `embeddings`. -/
structure EmbeddingRow where
  id : Int
  content_id : Int
  embedding : List Nat
  model : GoString
  dimensions : Int
deriving DecidableEq

/-- Modelled from the spec: the schema file `schema.sql` that `db.go` embeds
is not among the sources; the four tables are those of the persisted schema
the specification lists. A store state is the content of the four tables;
storage-layer failures are not part of the model. -/
structure Store where
  content : List ContentRow
  tags : List TagRow
  content_tags : List ContentTagRow
  embeddings : List EmbeddingRow
deriving DecidableEq

/-- The query of `getContentTags`:
`SELECT t.name FROM tags t JOIN content_tags ct ON t.id = ct.tag_id
WHERE ct.content_id = ?` (rows in the order of a nested scan of `tags` then
`content_tags`; SQL leaves the order open). -/
def getContentTags (st : Store) (contentID : Int) : List GoString :=
  st.tags.flatMap fun t =>
    (st.content_tags.filter fun ct => ct.tag_id = t.id ∧ ct.content_id = contentID).map
      fun _ => t.name

/-- The `models.Content` that the search loops build from a scanned row and
the tags fetched for it. -/
def toContent (st : Store) (c : ContentRow) : Content :=
  { ID := c.id, Typ := c.type, Title := c.title, Body := c.body,
    SourceURL := c.source_url, FilePath := c.file_path, Tags := getContentTags st c.id }

/-- Byte-wise comparison `a ≤ b` of two texts (SQLite's default collation). -/
def bytesLe : GoString → GoString → Bool
  | [], _ => true
  | _ :: _, [] => false
  | a :: as, b :: bs => if a < b then true else if b < a then false else bytesLe as bs

/-- The row order `ORDER BY created_at DESC` puts `a` before `b`. -/
def newerFirst (a b : ContentRow) : Prop := bytesLe b.created_at a.created_at = true

instance : DecidableRel newerFirst :=
  fun a b => inferInstanceAs (Decidable (bytesLe b.created_at a.created_at = true))

/-- SQL `ORDER BY created_at DESC` (rows with equal timestamps keep their
table order; SQL leaves their order open). -/
def orderByCreatedAtDesc (rows : List ContentRow) : List ContentRow :=
  rows.insertionSort newerFirst

/-- SQL `LIMIT limit OFFSET offset` as SQLite evaluates it: a negative offset
counts as zero and a negative limit as no limit. -/
def sqlLimitOffset {α : Type} (rows : List α) (limit offset : Int) : List α :=
  if limit < 0 then rows.drop offset.toNat else (rows.drop offset.toNat).take limit.toNat

/-! ## The SQL operator `LIKE` -/

/-- The byte `%`. -/
def percent : Nat := 0x25

/-- The byte `_`. -/
def underscore : Nat := 0x5F

/-- SQLite's table `sqlite3Utf8Trans1`, on a lead byte `b` from `0xC0` on: the
payload bits of the byte. -/
def utf8Trans1 (b : Nat) : Nat :=
  if b < 0xE0 then b - 0xC0
  else if b < 0xF0 then b - 0xE0
  else if b < 0xF8 then b - 0xF0
  else if b < 0xFC then b - 0xF8
  else if b < 0xFE then b - 0xFC
  else 0

/-- The loop of `sqlite3Utf8Read` over continuation bytes: each adds six bits
to the 32-bit value `c`; the value and the text left. -/
def readContinuation (c : Nat) : GoString → Nat × GoString
  | [] => (c, [])
  | b :: rest =>
    if isCont b then readContinuation ((c * 64 + b % 64) % 2 ^ 32) rest else (c, b :: rest)

/-- The end of `sqlite3Utf8Read`: a value below `0x80` (an overlong form), a
surrogate and the values `0xFFFE` and `0xFFFF` are replaced by `0xFFFD`. -/
def utf8Replace (c : Nat) : Nat :=
  if c < 0x80 ∨ c / 0x800 = 0x1B ∨ c / 2 = 0x7FFF then 0xFFFD else c

/-- SQLite's `Utf8Read` on a text that is not at its end: the character read
and the text left. A byte below `0xC0` is a character by itself; a byte from
`0xC0` on takes the continuation bytes that follow it along. -/
def sqliteUtf8Read (b : Nat) (rest : GoString) : Nat × GoString :=
  if b < 0xC0 then (b, rest)
  else
    let r := readContinuation (utf8Trans1 b) rest
    (utf8Replace r.1, r.2)

/-- The characters SQLite reads from a text, up to its end or to the first
NUL byte, where a C string ends (the first argument bounds the number of
characters, `len(s)` is always enough). -/
def sqliteChars : Nat → GoString → List Nat
  | 0, _ => []
  | fuel + 1, s =>
    match s with
    | [] => []
    | b :: rest =>
      if b = 0 then []
      else (sqliteUtf8Read b rest).1 :: sqliteChars fuel (sqliteUtf8Read b rest).2

/-- The characters of a whole text. -/
def sqliteText (s : GoString) : List Nat := sqliteChars s.length s

/-- The wildcard `%` followed by the matcher `f`: `f` accepts what is left of
the text once zero or more characters are skipped. -/
def likeStar (f : List Nat → Bool) : List Nat → Bool
  | [] => f []
  | c :: cs => f (c :: cs) || likeStar f cs

/-- SQLite's `patternCompare` for `LIKE` without `ESCAPE`, on the characters
of the pattern and of the text: `%` matches any run of characters, `_` any
one character, any other character itself or, for an ASCII letter, its other
case. -/
def likeChars : List Nat → List Nat → Bool
  | [], s => s.isEmpty
  | p :: ps, s =>
    if p = percent then likeStar (likeChars ps) s
    else
      match s with
      | [] => false
      | c :: rest => (p == underscore || asciiFold p == asciiFold c) && likeChars ps rest

/-- The largest length in bytes of a `LIKE` pattern that SQLite accepts
(`SQLITE_MAX_LIKE_PATTERN_LENGTH`, by default). -/
def likePatternLimit : Nat := 50000

/-- SQLite's `text LIKE pattern` without `ESCAPE`, for a pattern of at most
`likePatternLimit` bytes (a longer pattern is the error `LIKE or GLOB pattern
too complex`): pattern and text are read as C strings, character by
character. -/
def likeMatch (pattern text : GoString) : Bool :=
  likeChars (sqliteText pattern) (sqliteText text)

/-- The match predicate of the specification, `text` contains `q` as a
substring, case-folded, the folding being SQLite's (ASCII letters). -/
def containsFold (q text : GoString) : Prop := q.map asciiFold <:+: text.map asciiFold

instance (q text : GoString) : Decidable (containsFold q text) :=
  inferInstanceAs (Decidable (q.map asciiFold <:+: text.map asciiFold))

/-- A Unicode scalar value: a code point up to U+10FFFF that is not a
surrogate. -/
def isScalar (c : Nat) : Prop := c ≤ 0x10FFFF ∧ ¬ (0xD800 ≤ c ∧ c ≤ 0xDFFF)

instance (c : Nat) : Decidable (isScalar c) :=
  inferInstanceAs (Decidable (c ≤ 0x10FFFF ∧ ¬ (0xD800 ≤ c ∧ c ≤ 0xDFFF)))

/-- A text that SQLite reads as what it is: the text is the UTF-8 encoding of
the characters SQLite reads from it, each a Unicode scalar value. These are
the valid UTF-8 texts that hold no NUL byte (where SQLite stops reading) and
neither of the code points U+FFFE and U+FFFF (which SQLite reads as U+FFFD). -/
def plainText (s : GoString) : Prop :=
  s = (sqliteText s).flatMap encodeRune ∧ ∀ c ∈ sqliteText s, isScalar c

instance (s : GoString) : Decidable (plainText s) :=
  inferInstanceAs (Decidable (s = (sqliteText s).flatMap encodeRune ∧ ∀ c ∈ sqliteText s, isScalar c))

/-! ## Keyword mode: `keywordSearch` -/

/-- The tag restriction of keyword mode on one content item, given the tag
names of the item and the required tags: the number of distinct tag names of
the item that are among the required tags equals `len(query.Tags)`
(`HAVING COUNT(DISTINCT t.name) = ?`). -/
def keywordTagRestriction (contentTags queryTags : List GoString) : Bool :=
  decide (((contentTags.filter fun n => n ∈ queryTags).dedup.length : Int)
    = (queryTags.length : Int))

/-- The subquery of `keywordSearch`, as a test on a content id:
`c.id IN (SELECT ct.content_id FROM content_tags ct JOIN tags t ON ct.tag_id
= t.id WHERE t.name IN (...) GROUP BY ct.content_id HAVING COUNT(DISTINCT
t.name) = ?)`. The id has a group when one of its tag names is among the
required ones. -/
def tagSubquery (st : Store) (queryTags : List GoString) (contentID : Int) : Bool :=
  ((getContentTags st contentID).filter fun n => n ∈ queryTags) ≠ [] &&
    keywordTagRestriction (getContentTags st contentID) queryTags

/-- The rows that `rows.Next()` delivers for the SQL statement of
`keywordSearch`. With a pattern of more than `likePatternLimit` bytes the
first evaluation of `LIKE` fails the statement before any row is delivered:
`rows.Next()` returns false, and the error, which `keywordSearch` does not
read from `rows.Err()`, is lost. -/
def keywordRows (st : Store) (query : SearchQuery) : List ContentRow :=
  let pattern := [percent] ++ query.Query ++ [percent]
  if pattern.length > likePatternLimit then []
  else
    let matched := st.content.filter fun c =>
      (likeMatch pattern c.title || likeMatch pattern c.body)
        && (query.Typ = [] || c.type = query.Typ)
        && (query.Tags.length = 0 || tagSubquery st query.Tags c.id)
    let limit := if query.Limit ≤ 0 then 10 else query.Limit
    sqlLimitOffset (orderByCreatedAtDesc matched) limit query.Offset

/-- The result loop of `keywordSearch`: tags and snippet for each row, the
score left at its zero value. -/
def keywordLoop (rt : GoRuntime) (st : Store) (query : SearchQuery) :
    List ContentRow → List SearchResult → Except Fault (List SearchResult)
  | [], results => .ok results
  | c :: rows, results =>
    match extractSnippet rt.ToLower c.body query.Query with
    | .error f => .error f
    | .ok snippet =>
      keywordLoop rt st query rows
        (results ++ [{ Content := toContent st c, Score := .finite 0, Snippet := snippet }])

/-- The external embedding generator and the decoder of stored vectors
(`json.Unmarshal`), as the search service sees them. -/
structure EmbeddingService where
  GenerateEmbedding : GoString → Except String (List GoFloat)
  DeserializeEmbedding : List Nat → Except String (List GoFloat)

/-- The Go struct `SearchService`. -/
structure SearchService where
  db : Store
  embeddingService : EmbeddingService

/-- The Go method `keywordSearch`. -/
def keywordSearch (rt : GoRuntime) (s : SearchService) (query : SearchQuery) :
    Except Fault (List SearchResult) :=
  keywordLoop rt s.db query (keywordRows s.db query) []

/-! ## Semantic mode: `semanticSearch` -/

/-- The rows the SQL statement of `semanticSearch` returns: content joined
with its embeddings, restricted to the type when one is given. -/
def semanticRows (st : Store) (query : SearchQuery) : List (ContentRow × List Nat) :=
  (st.content.flatMap fun c =>
    (st.embeddings.filter fun e => c.id = e.content_id).map fun e => (c, e.embedding)).filter
      fun p => query.Typ = [] || p.1.type = query.Typ

/-- The candidate loop of `semanticSearch` (lines 158-207): decode, score,
fetch tags, filter on tags, attach the snippet. -/
def semanticLoop (rt : GoRuntime) (s : SearchService) (query : SearchQuery)
    (queryEmbedding : List GoFloat) :
    List (ContentRow × List Nat) → List SearchResult → Except Fault (List SearchResult)
  | [], results => .ok results
  | (c, embeddingBytes) :: rows, results =>
    match s.embeddingService.DeserializeEmbedding embeddingBytes with
    | .error _ => .error (.error "failed to deserialize embedding")
    | .ok contentEmbedding =>
      let similarity := cosineSimilarity rt queryEmbedding contentEmbedding
      let content := toContent s.db c
      if query.Tags.length > 0 && !containsAllTags content.Tags query.Tags then
        semanticLoop rt s query queryEmbedding rows results
      else
        match extractSnippet rt.ToLower c.body query.Query with
        | .error f => .error f
        | .ok snippet =>
          semanticLoop rt s query queryEmbedding rows
            (results ++ [{ Content := content, Score := similarity, Snippet := snippet }])

/-- The Go method `semanticSearch`. -/
def semanticSearch (rt : GoRuntime) (s : SearchService) (query : SearchQuery) :
    Except Fault (List SearchResult) :=
  match s.embeddingService.GenerateEmbedding query.Query with
  | .error _ => .error (.error "failed to generate query embedding")
  | .ok queryEmbedding =>
    match semanticLoop rt s query queryEmbedding (semanticRows s.db query) [] with
    | .error f => .error f
    | .ok results => rankAndWindow results query.Offset query.Limit

/-- The Go method `Search`. -/
def Search (rt : GoRuntime) (s : SearchService) (query : SearchQuery) :
    Except Fault (List SearchResult) :=
  if query.Semantic then semanticSearch rt s query else keywordSearch rt s query

/-! ## Sample data -/

/-- The tag `x`. -/
def tagX : GoString := utf8 "x"
/-- The tag `y`. -/
def tagY : GoString := utf8 "y"
/-- The tag `z`. -/
def tagZ : GoString := utf8 "z"

/-- A store with three notes: note 1 tagged `x`, note 2 tagged `x`, `y` and
`z`, note 3 untagged, each with an embedding. -/
def sampleStore : Store where
  content := [
    { id := 1, type := utf8 "note", title := utf8 "First", body := utf8 "alpha beta",
      source_url := [], file_path := [], created_at := utf8 "2024-01-01 10:00:00",
      updated_at := utf8 "2024-01-01 10:00:00" },
    { id := 2, type := utf8 "note", title := utf8 "Second", body := utf8 "Alpha gamma",
      source_url := [], file_path := [], created_at := utf8 "2024-01-02 10:00:00",
      updated_at := utf8 "2024-01-02 10:00:00" },
    { id := 3, type := utf8 "snippet", title := utf8 "Third", body := utf8 "delta",
      source_url := [], file_path := [], created_at := utf8 "2024-01-03 10:00:00",
      updated_at := utf8 "2024-01-03 10:00:00" }]
  tags := [⟨1, tagX⟩, ⟨2, tagY⟩, ⟨3, tagZ⟩]
  content_tags := [⟨1, 1⟩, ⟨2, 1⟩, ⟨2, 2⟩, ⟨2, 3⟩]
  embeddings := [⟨1, 1, [1], utf8 "openai-ada-002", 2⟩, ⟨2, 2, [2], utf8 "openai-ada-002", 2⟩,
    ⟨3, 3, [3], utf8 "openai-ada-002", 2⟩]

/-- An embedding service for `sampleStore`: every query embeds to `(1, 0)`,
and the stored vectors decode to `(1, 0)`, `(0, 1)` and `(0, 0)`. -/
def sampleEmbeddings : EmbeddingService where
  GenerateEmbedding := fun _ => .ok [.finite 1, .finite 0]
  DeserializeEmbedding := fun b =>
    if b = [1] then .ok [.finite 1, .finite 0]
    else if b = [2] then .ok [.finite 0, .finite 1]
    else if b = [3] then .ok [.finite 0, .finite 0]
    else .error "invalid character"

/-- The search service over `sampleStore` and `sampleEmbeddings`. -/
def sampleService : SearchService := ⟨sampleStore, sampleEmbeddings⟩

/-- Lines 296-306 of `extractSnippet`: the bounds `start` and `end` that the
found case computes from the match index, before the slice expression
`text[start:end]`. -/
def snippetBounds (text query : GoString) (index : Int) : Int × Int :=
  let start := if index - 75 < 0 then 0 else index - 75
  let stop := index + (query.length : Int) + 75
  let stop := if stop > (text.length : Int) then (text.length : Int) else stop
  (start, stop)

/-- An embedding service whose generator is unavailable. -/
def failingEmbeddings : EmbeddingService where
  GenerateEmbedding := fun _ => .error "failed to create embedding"
  DeserializeEmbedding := sampleEmbeddings.DeserializeEmbedding

/-! ## The content repository: `db.go` -/

/-- The Go struct `db.Content` (`Typ` is the Go field `Type`). -/
structure DbContent where
  ID : Int
  Typ : GoString
  Title : GoString
  Body : GoString
  SourceURL : GoString
  FilePath : GoString
  CreatedAt : GoString
  UpdatedAt : GoString
  Tags : List GoString
deriving DecidableEq

/-- Modelled from the spec: the constraints of the schema (file `schema.sql`
is not among the sources) that the repository operations rely on. Identifiers
are primary keys, a content/tag pair is linked at most once, links reference
existing content and existing tags, embeddings reference existing content,
and there is at most one embedding per content and model. -/
structure Store.WF (st : Store) : Prop where
  contentIds : (st.content.map fun c => c.id).Nodup
  tagIds : (st.tags.map fun t => t.id).Nodup
  tagNames : (st.tags.map fun t => t.name).Nodup
  links : st.content_tags.Nodup
  linkContent : ∀ ct ∈ st.content_tags, ct.content_id ∈ st.content.map fun c => c.id
  linkTag : ∀ ct ∈ st.content_tags, ct.tag_id ∈ st.tags.map fun t => t.id
  embeddingIds : (st.embeddings.map fun e => e.id).Nodup
  embeddingKeys : (st.embeddings.map fun e => (e.content_id, e.model)).Nodup
  embeddingContent : ∀ e ∈ st.embeddings, e.content_id ∈ st.content.map fun c => c.id

/-- Modelled from the spec: the newly assigned identifier of an inserted row,
as SQLite assigns row ids: `1` in an empty table, otherwise one more than the
largest identifier in the table (identifiers stay far below `2^63`). -/
def nextId : List Int → Int
  | [] => 1
  | a :: rest => rest.foldl max a + 1

/-- The statement `INSERT INTO content (type, title, body, source_url,
file_path) VALUES (?, ?, ?, ?, ?)` followed by `LastInsertId`; both
timestamps default to the current time `now`. -/
def insertContent (now : GoString) (st : Store) (c : DbContent) : Int × Store :=
  let id := nextId (st.content.map fun r => r.id)
  (id, { st with content := st.content ++
    [{ id := id, type := c.Typ, title := c.Title, body := c.Body, source_url := c.SourceURL,
       file_path := c.FilePath, created_at := now, updated_at := now }] })

/-- The statement `INSERT OR IGNORE INTO tags (name) VALUES (?)`: a no-op when
the name is already in the table. -/
def insertOrIgnoreTag (st : Store) (name : GoString) : Store :=
  if name ∈ st.tags.map (fun t => t.name) then st
  else { st with tags := st.tags ++ [{ id := nextId (st.tags.map fun t => t.id), name := name }] }

/-- The query `SELECT id FROM tags WHERE name = ?` read with `Scan`: the id of
the first row, or no row. -/
def selectTagId (st : Store) (name : GoString) : Option Int :=
  (st.tags.find? fun t => t.name = name).map fun t => t.id

/-- The statement `INSERT INTO content_tags (content_id, tag_id) VALUES (?,
?)`: it fails when the pair is already linked and when the content or the tag
does not exist. -/
def insertContentTag (st : Store) (contentID tagID : Int) : Except Fault Store :=
  if (⟨contentID, tagID⟩ : ContentTagRow) ∈ st.content_tags then
    .error (.error "UNIQUE constraint failed: content_tags.content_id, content_tags.tag_id")
  else if contentID ∈ (st.content.map fun c => c.id) ∧ tagID ∈ (st.tags.map fun t => t.id) then
    .ok { st with content_tags := st.content_tags ++ [⟨contentID, tagID⟩] }
  else .error (.error "FOREIGN KEY constraint failed")

/-- The loop `for _, tag := range content.Tags` of `CreateContent` and of
`UpdateContent`: ensure the tag, fetch its id, link it; the first failing
statement ends the loop with its error. -/
def linkTags (contentID : Int) : List GoString → Store → Except Fault Store
  | [], st => .ok st
  | tag :: rest, st =>
    match selectTagId (insertOrIgnoreTag st tag) tag with
    | none => .error (.error "sql: no rows in result set")
    | some tagID =>
      match insertContentTag (insertOrIgnoreTag st tag) contentID tagID with
      | .error e => .error e
      | .ok st2 => linkTags contentID rest st2

/-- The Go method `CreateContent`, at time `now`: the new identifier and the
store after the commit. An error stands for the rollback: the store is then
the one before the call. -/
def CreateContent (now : GoString) (st : Store) (content : DbContent) :
    Except Fault (Int × Store) :=
  match linkTags (insertContent now st content).1 content.Tags
      (insertContent now st content).2 with
  | .error e => .error e
  | .ok st2 => .ok ((insertContent now st content).1, st2)

/-- The `db.Content` scanned from a row, with the tags fetched for it. -/
def toDbContent (st : Store) (c : ContentRow) : DbContent :=
  { ID := c.id, Typ := c.type, Title := c.title, Body := c.body, SourceURL := c.source_url,
    FilePath := c.file_path, CreatedAt := c.created_at, UpdatedAt := c.updated_at,
    Tags := getContentTags st c.id }

/-- The Go method `GetContent`: the row with the given id and its tags, or
the error of `Scan` when there is no such row. -/
def GetContent (st : Store) (id : Int) : Except Fault DbContent :=
  match st.content.find? fun c => c.id = id with
  | none => .error (.error "sql: no rows in result set")
  | some row => .ok (toDbContent st row)

/-- The statement `UPDATE content SET type = ?, title = ?, body = ?,
source_url = ?, file_path = ?, updated_at = CURRENT_TIMESTAMP WHERE id = ?`. -/
def updateContentRow (now : GoString) (st : Store) (content : DbContent) : Store :=
  { st with content := st.content.map (fun r =>
      if r.id = content.ID then
        { r with type := content.Typ, title := content.Title, body := content.Body,
                 source_url := content.SourceURL, file_path := content.FilePath,
                 updated_at := now }
      else r) }

/-- The statement `DELETE FROM content_tags WHERE content_id = ?`. -/
def deleteContentTags (st : Store) (contentID : Int) : Store :=
  { st with content_tags := st.content_tags.filter (fun ct => ct.content_id ≠ contentID) }

/-- The Go method `UpdateContent`, at time `now`: the store after the commit
(an error stands for the rollback). The row with the id of `content` has its
fields replaced, its links are deleted, and the submitted tags are linked. -/
def UpdateContent (now : GoString) (st : Store) (content : DbContent) : Except Fault Store :=
  linkTags content.ID content.Tags
    (deleteContentTags (updateContentRow now st content) content.ID)

/-- The Go method `ListContent` of `db.go`: the limit and the offset go to
`LIMIT ? OFFSET ?` as they are. -/
def ListContent (st : Store) (contentType : GoString) (limit offset : Int) : List DbContent :=
  let rows := if contentType ≠ [] then st.content.filter fun c => c.type = contentType
    else st.content
  (sqlLimitOffset (orderByCreatedAtDesc rows) limit offset).map (toDbContent st)

/-- The condition `content_id = ? AND model = ?` on a row of `embeddings`. -/
def embeddingKey (contentID : Int) (model : GoString) (e : EmbeddingRow) : Bool :=
  e.content_id = contentID ∧ e.model = model

/-- The Go method `StoreEmbedding`: the identifier returned and the store
after the call. An existing row for the content and model is updated in
place; otherwise a row is inserted, which fails when the content does not
exist. -/
def StoreEmbedding (st : Store) (contentID : Int) (embedding : List Nat) (model : GoString)
    (dimensions : Int) : Except Fault (Int × Store) :=
  match st.embeddings.find? (embeddingKey contentID model) with
  | some row =>
    .ok (row.id, { st with embeddings := st.embeddings.map fun e =>
      if e.id = row.id then { e with embedding := embedding, dimensions := dimensions } else e })
  | none =>
    if contentID ∈ (st.content.map fun c => c.id) then
      .ok (nextId (st.embeddings.map fun e => e.id),
        { st with embeddings := st.embeddings ++
          [{ id := nextId (st.embeddings.map fun e => e.id), content_id := contentID,
             embedding := embedding, model := model, dimensions := dimensions }] })
    else .error (.error "FOREIGN KEY constraint failed")

/-- A store with no rows. -/
def emptyStore : Store := { content := [], tags := [], content_tags := [], embeddings := [] }

/-- A note to create or update, carrying the given tags. -/
def noteWith (id : Int) (tags : List GoString) : DbContent :=
  { ID := id, Typ := utf8 "note", Title := utf8 "Title", Body := utf8 "Body", SourceURL := [],
    FilePath := [], CreatedAt := [], UpdatedAt := [], Tags := tags }

/-- The sample store with one more embedding row. -/
def sampleStoreWith (e : EmbeddingRow) : Store :=
  { sampleStore with embeddings := sampleStore.embeddings ++ [e] }

/-! ## The list handler: `Server.ListContent` -/

/-- The outcome of Go `strconv.ParseUint(s, 10, 64)`: a value, or one of the
errors `ErrSyntax` and `ErrRange`. -/
inductive UintParse where
  | malformed
  | outOfRange
  | value (n : Nat)
  deriving DecidableEq, Repr

/-- The digit loop of Go `strconv.ParseUint(s, 10, 64)`, `n` being the value
read so far. Each byte is first checked to be a digit (`ErrSyntax` when it is
not), then the value is checked to stay a `uint64` (`ErrRange` as soon as it
does not, the bytes that follow being left unread). -/
def parseUintLoop : List Nat → Nat → UintParse
  | [], n => .value n
  | c :: cs, n =>
    if 0x30 ≤ c ∧ c ≤ 0x39 then
      if n ≥ (2 ^ 64 - 1) / 10 + 1 then .outOfRange
      else if n * 10 + (c - 0x30) > 2 ^ 64 - 1 then .outOfRange
      else parseUintLoop cs (n * 10 + (c - 0x30))
    else .malformed

/-- The number kept by `n, _ := strconv.Atoi(s)` where `int` has 64 bits: an
optional sign and decimal digits; `0` on a syntax error (`ErrSyntax`), the
nearest bound of `int` when out of range (`ErrRange`), the error being
discarded. (The fast path of `Atoi` for strings of fewer than 19 bytes
computes the same number.) -/
def atoiValue (s : GoString) : Int :=
  let negative := s.head? = some 0x2D
  let digits := if s.head? = some 0x2D ∨ s.head? = some 0x2B then s.tail else s
  if digits = [] then 0
  else
    match parseUintLoop digits 0 with
    | .malformed => 0
    | .outOfRange => if negative then -(2 ^ 63) else 2 ^ 63 - 1
    | .value n =>
      if negative then (if n > 2 ^ 63 then -(2 ^ 63) else -(n : Int))
      else (if n ≥ 2 ^ 63 then 2 ^ 63 - 1 else (n : Int))

/-- The Gin handler `Server.ListContent`, on the query parameters `type`,
`limit` and `offset` of the request (`none` for a parameter that is not in
the URL): `c.Query("type")`, `c.DefaultQuery("limit", "10")` and
`c.DefaultQuery("offset", "0")`, the numbers read with `strconv.Atoi`. -/
def ServerListContent (st : Store) (typeParam limitParam offsetParam : Option GoString) :
    List DbContent :=
  let contentType := typeParam.getD []
  let limit := atoiValue (limitParam.getD (utf8 "10"))
  let offset := atoiValue (offsetParam.getD (utf8 "0"))
  ListContent st contentType limit offset

/-- A store that holds one untagged note with the given title and body. -/
def singleNote (title body : GoString) : Store :=
  let date := utf8 "2024-01-01 10:00:00"
  let row : ContentRow := ⟨1, utf8 "note", title, body, [], [], date, date⟩
  { content := [row], tags := [], content_tags := [], embeddings := [] }

/-- A store of `n` untagged notes with identifiers `1` to `n`, created in that
order. -/
def notesStore (n : Nat) : Store :=
  { content := (List.range n).map fun (i : Nat) =>
      { id := Int.ofNat i + 1, type := utf8 "note", title := utf8 "Note", body := utf8 "text",
        source_url := [], file_path := [], created_at := [i], updated_at := [i] },
    tags := [], content_tags := [], embeddings := [] }

/-! # Properties -/

set_option maxRecDepth 1000000

/-! ## Comparison of floats -/

theorem GoFloat.ge_of_lt {x y : GoFloat} (h : x.lt y = true) : y.ge x = true := by
  simp [GoFloat.ge, h]

theorem GoFloat.ge_of_not_lt {x y : GoFloat} (hx : x.isNaN = false) (hy : y.isNaN = false)
    (h : x.lt y = false) : x.ge y = true := by
  cases x <;> cases y <;> simp_all [GoFloat.ge, GoFloat.lt, GoFloat.eq, GoFloat.isNaN]
  rename_i a b
  rcases lt_trichotomy a b with h1 | h1 | h1
  · exact absurd h1 (not_lt.mpr h)
  · exact Or.inr h1
  · exact Or.inl h1

theorem GoFloat.ge_refl {x : GoFloat} (hx : x.isNaN = false) : x.ge x = true := by
  cases x <;> simp_all [GoFloat.ge, GoFloat.lt, GoFloat.eq, GoFloat.isNaN]

theorem GoFloat.ge_trans {x y z : GoFloat} (h1 : x.ge y = true) (h2 : y.ge z = true) :
    x.ge z = true := by
  cases x <;> cases y <;> cases z <;>
    simp_all [GoFloat.ge, GoFloat.lt, GoFloat.eq, GoFloat.isNaN]
  rename_i a b c
  rcases h1 with h1 | h1 <;> rcases h2 with h2 | h2
  · exact Or.inl (lt_trans h2 h1)
  · exact Or.inl (h2 ▸ h1)
  · exact Or.inl (h1 ▸ h2)
  · exact Or.inr (h1.trans h2)

/-! ## The exchange sort -/

theorem getElem?_at {α : Type} (pre : List α) (x : α) (tl : List α) (n : Nat)
    (h : n = pre.length) : (pre ++ x :: tl)[n]? = some x := by
  subst h
  induction pre with
  | nil => simp
  | cons a pre ih => simpa using ih

theorem set_at {α : Type} (pre : List α) (x y : α) (tl : List α) (n : Nat)
    (h : n = pre.length) : (pre ++ x :: tl).set n y = pre ++ y :: tl := by
  subst h
  induction pre with
  | nil => simp
  | cons a pre ih => simp [ih]

theorem scoreLt_decomp (pre mid ys : List SearchResult) (x y : SearchResult) :
    scoreLt (pre ++ x :: (mid ++ y :: ys)) pre.length (pre.length + 1 + mid.length)
      = x.Score.lt y.Score := by
  have h1 : (pre ++ x :: (mid ++ y :: ys))[pre.length]? = some x :=
    getElem?_at pre x _ _ rfl
  have h2 : (pre ++ x :: (mid ++ y :: ys))[pre.length + 1 + mid.length]? = some y := by
    have e : pre ++ x :: (mid ++ y :: ys) = (pre ++ x :: mid) ++ y :: ys := by simp
    rw [e]
    exact getElem?_at _ y ys _ (by simp; omega)
  simp only [scoreLt, h1, h2]

theorem swapAt_decomp {α : Type} (pre mid ys : List α) (x y : α) :
    swapAt (pre ++ x :: (mid ++ y :: ys)) pre.length (pre.length + 1 + mid.length)
      = pre ++ y :: (mid ++ x :: ys) := by
  have h1 : (pre ++ x :: (mid ++ y :: ys))[pre.length]? = some x :=
    getElem?_at pre x _ _ rfl
  have e : pre ++ x :: (mid ++ y :: ys) = (pre ++ x :: mid) ++ y :: ys := by simp
  have h2 : (pre ++ x :: (mid ++ y :: ys))[pre.length + 1 + mid.length]? = some y := by
    rw [e]
    exact getElem?_at _ y ys _ (by simp; omega)
  simp only [swapAt, h1, h2]
  rw [set_at pre x y _ _ rfl]
  have e2 : pre ++ y :: (mid ++ y :: ys) = (pre ++ y :: mid) ++ y :: ys := by simp
  rw [e2, set_at _ y x ys _ (by simp; omega)]
  simp

/-- The inner loop, run from `j` to the end on a list split at `i` and `j`,
is `bubble` on the element at `i` and the part from `j` on. -/
theorem sortInner_decomp (pre : List SearchResult) :
    ∀ (tl : List SearchResult) (fuel : Nat) (mid : List SearchResult) (x : SearchResult),
      tl.length ≤ fuel →
      sortInner pre.length fuel (pre.length + 1 + mid.length) (pre ++ x :: (mid ++ tl))
        = pre ++ (bubble x tl).1 :: (mid ++ (bubble x tl).2) := by
  intro tl
  induction tl with
  | nil =>
    intro fuel mid x _
    cases fuel with
    | zero => simp [sortInner, bubble]
    | succ f =>
      have : ¬ (pre.length + 1 + mid.length < (pre ++ x :: (mid ++ [])).length) := by
        simp; omega
      simp only [sortInner, this, if_false, bubble]
  | cons y ys ih =>
    intro fuel mid x hf
    cases fuel with
    | zero => simp at hf
    | succ f =>
      have hlen : pre.length + 1 + mid.length < (pre ++ x :: (mid ++ y :: ys)).length := by
        simp; omega
      have hf2 : ys.length ≤ f := by simpa using hf
      simp only [sortInner, hlen, if_true, scoreLt_decomp]
      by_cases hlt : x.Score.lt y.Score = true
      · have e : pre ++ y :: (mid ++ x :: ys) = pre ++ y :: ((mid ++ [x]) ++ ys) := by simp
        have e3 : pre.length + 1 + mid.length + 1 = pre.length + 1 + (mid ++ [x]).length := by
          simp; omega
        simp only [hlt, if_true, swapAt_decomp, bubble]
        rw [e, e3, ih f (mid ++ [x]) y hf2]
        simp
      · have e : pre ++ x :: (mid ++ y :: ys) = pre ++ x :: ((mid ++ [y]) ++ ys) := by simp
        have e3 : pre.length + 1 + mid.length + 1 = pre.length + 1 + (mid ++ [y]).length := by
          simp; omega
        simp only [hlt, Bool.false_eq_true, if_false, bubble]
        rw [e, e3, ih f (mid ++ [y]) x hf2]
        simp

theorem bubble_perm : ∀ (tl : List SearchResult) (x : SearchResult),
    ((bubble x tl).1 :: (bubble x tl).2).Perm (x :: tl) := by
  intro tl
  induction tl with
  | nil => intro x; simp [bubble]
  | cons y ys ih =>
    intro x
    by_cases hlt : x.Score.lt y.Score = true
    · simp only [bubble, hlt, if_true]
      exact ((List.Perm.swap _ _ _).trans ((ih y).cons x))
    · simp only [bubble, hlt, if_false]
      exact ((List.Perm.swap _ _ _).trans ((ih x).cons y)).trans (List.Perm.swap _ _ _)

theorem bubble_length (tl : List SearchResult) (x : SearchResult) :
    (bubble x tl).2.length = tl.length := by
  have := (bubble_perm tl x).length_eq
  simpa using this

/-- Without NaN, the element the inner loop leaves at position `i` is at least
the one it started with. -/
theorem bubble_ge_head : ∀ (tl : List SearchResult) (x : SearchResult),
    (∀ r ∈ x :: tl, r.Score.isNaN = false) → scoreGe (bubble x tl).1 x := by
  intro tl
  induction tl with
  | nil =>
    intro x h
    exact GoFloat.ge_refl (h x (by simp))
  | cons y ys ih =>
    intro x h
    have hx := h x (by simp)
    have hy := h y (by simp)
    have hys : ∀ r ∈ ys, r.Score.isNaN = false := fun r hr => h r (by simp [hr])
    by_cases hlt : x.Score.lt y.Score = true
    · simp only [bubble, hlt, if_true]
      have h1 := ih y (by intro r hr; rcases List.mem_cons.mp hr with e | e
                          · exact e ▸ hy
                          · exact hys r e)
      exact GoFloat.ge_trans h1 (GoFloat.ge_of_lt hlt)
    · simp only [bubble, hlt, if_false]
      exact ih x (by intro r hr; rcases List.mem_cons.mp hr with e | e
                     · exact e ▸ hx
                     · exact hys r e)

/-- Without NaN, the element the inner loop leaves at position `i` is at least
every element it leaves after position `i`. -/
theorem bubble_max : ∀ (tl : List SearchResult) (x : SearchResult),
    (∀ r ∈ x :: tl, r.Score.isNaN = false) →
    ∀ r ∈ (bubble x tl).2, scoreGe (bubble x tl).1 r := by
  intro tl
  induction tl with
  | nil => intro x _ r hr; simp [bubble] at hr
  | cons y ys ih =>
    intro x h
    have hx := h x (by simp)
    have hy := h y (by simp)
    have hys : ∀ r ∈ ys, r.Score.isNaN = false := fun r hr => h r (by simp [hr])
    have hyys : ∀ r ∈ y :: ys, r.Score.isNaN = false := by
      intro r hr; rcases List.mem_cons.mp hr with e | e
      · exact e ▸ hy
      · exact hys r e
    have hxys : ∀ r ∈ x :: ys, r.Score.isNaN = false := by
      intro r hr; rcases List.mem_cons.mp hr with e | e
      · exact e ▸ hx
      · exact hys r e
    by_cases hlt : x.Score.lt y.Score = true
    · simp only [bubble, hlt, if_true]
      intro r hr
      rcases List.mem_cons.mp hr with e | e
      · subst e
        exact GoFloat.ge_trans (bubble_ge_head ys y hyys) (GoFloat.ge_of_lt hlt)
      · exact ih y hyys r e
    · simp only [bubble, hlt, if_false]
      intro r hr
      rcases List.mem_cons.mp hr with e | e
      · subst e
        have hxy : x.Score.ge r.Score = true :=
          GoFloat.ge_of_not_lt hx hy (by simpa using hlt)
        exact GoFloat.ge_trans (bubble_ge_head ys x hxys) hxy
      · exact ih x hxys r e

/-- The outer loop, entered at `i` on a list whose first `i` elements are
`pre`, keeps `pre` and leaves a permutation of the rest, which is in
non-increasing score order when the rest has no NaN score. -/
theorem sortOuter_spec : ∀ (fuel : Nat) (pre rest : List SearchResult),
    rest.length ≤ fuel →
    ∃ s, sortOuter fuel pre.length (pre ++ rest) = pre ++ s ∧ s.Perm rest ∧
      ((∀ r ∈ rest, r.Score.isNaN = false) → s.Pairwise scoreGe) := by
  intro fuel
  induction fuel with
  | zero =>
    intro pre rest h
    have : rest = [] := List.length_eq_zero.mp (Nat.le_zero.mp h)
    subst this
    exact ⟨[], by simp [sortOuter], List.Perm.refl _, fun _ => List.Pairwise.nil⟩
  | succ f ih =>
    intro pre rest h
    cases rest with
    | nil => exact ⟨[], by simp [sortOuter], List.Perm.refl _, fun _ => List.Pairwise.nil⟩
    | cons x tl =>
      have hlen : pre.length < (pre ++ x :: tl).length := by simp
      have hin := sortInner_decomp pre tl (pre ++ x :: tl).length [] x (by simp; omega)
      simp only [List.length_nil, Nat.add_zero, List.nil_append] at hin
      have hf : (bubble x tl).2.length ≤ f := by
        rw [bubble_length]; simpa using h
      obtain ⟨s, hs, hperm, hsorted⟩ := ih (pre ++ [(bubble x tl).1]) (bubble x tl).2 hf
      refine ⟨(bubble x tl).1 :: s, ?_, ?_, ?_⟩
      · simp only [sortOuter, hlen, if_true, hin]
        have e : pre ++ (bubble x tl).1 :: (bubble x tl).2
            = (pre ++ [(bubble x tl).1]) ++ (bubble x tl).2 := by simp
        have e2 : pre.length + 1 = (pre ++ [(bubble x tl).1]).length := by simp
        rw [e, e2, hs]
        simp
      · exact (hperm.cons _).trans (bubble_perm tl x)
      · intro hnan
        have hnan2 : ∀ r ∈ (bubble x tl).2, r.Score.isNaN = false := by
          intro r hr
          exact hnan r ((bubble_perm tl x).subset (List.mem_cons_of_mem _ hr))
        refine List.Pairwise.cons ?_ (hsorted hnan2)
        intro r hr
        exact bubble_max tl x hnan r (hperm.subset hr)

/-- The exchange sort `sortResultsByScore` leaves a permutation of its input,
in non-increasing score order when no score is NaN. -/
theorem sortResultsByScore_spec (rs : List SearchResult) :
    (sortResultsByScore rs).Perm rs ∧
      ((∀ r ∈ rs, r.Score.isNaN = false) → (sortResultsByScore rs).Pairwise scoreGe) := by
  obtain ⟨s, hs, hperm, hsorted⟩ := sortOuter_spec rs.length [] rs (Nat.le_refl _)
  simp only [List.length_nil, List.nil_append] at hs
  unfold sortResultsByScore
  rw [hs]
  exact ⟨hperm, hsorted⟩

/-! ## Windowing -/

theorem wrapInt64_of_isInt64 {x : Int} (h : isInt64 x) : wrapInt64 x = x := by
  unfold isInt64 at h
  unfold wrapInt64
  have h2 : (x + 2 ^ 63) % 2 ^ 64 = x + 2 ^ 63 :=
    Int.emod_eq_of_lt (by omega) (by omega)
  omega

theorem goSlice_sublist {α : Type} {s out : List α} {lo hi : Int}
    (h : goSlice s lo hi = .ok out) : out.Sublist s := by
  unfold goSlice at h
  split at h
  · cases h
    exact (List.take_sublist _ _).trans (List.drop_sublist _ _)
  · cases h

theorem applyWindow_sublist {rs out : List SearchResult} {offset limit : Int}
    (h : applyWindow rs offset limit = .ok out) : out.Sublist rs := by
  unfold applyWindow at h
  simp only at h
  split at h
  · cases h
    exact List.nil_sublist _
  · exact goSlice_sublist h

/-- When the offset is not negative and the 64-bit addition `offset + L` does
not overflow (`L` the limit after defaulting), the window is the slice
`R[offset : min(offset+L, len(R))]`: empty when `offset ≥ len(R)`, at most `L`
elements, starting at position `offset`. -/
theorem applyWindow_of_no_overflow (R : List SearchResult) (offset limit : Int)
    (h0 : 0 ≤ offset) (hov : offset + (if limit ≤ 0 then 10 else limit) < 2 ^ 63) :
    applyWindow R offset limit
      = .ok ((R.drop offset.toNat).take (if limit ≤ 0 then 10 else limit).toNat) := by
  have hL : (0 : Int) < (if limit ≤ 0 then 10 else limit) := by
    split <;> omega
  unfold applyWindow
  simp only
  generalize (if limit ≤ 0 then (10 : Int) else limit) = L at hov hL ⊢
  rw [wrapInt64_of_isInt64 (show isInt64 (offset + L) from ⟨by omega, hov⟩)]
  by_cases h1 : offset ≥ (R.length : Int)
  · have hd : R.drop offset.toNat = [] := List.drop_eq_nil_of_le (by omega)
    simp [h1, hd]
  · have h1' : offset < (R.length : Int) := not_le.mp h1
    simp only [h1, if_false]
    by_cases h2 : offset + L > (R.length : Int)
    · have hc : 0 ≤ offset ∧ offset ≤ (R.length : Int) ∧ (R.length : Int) ≤ (R.length : Int) :=
        ⟨h0, by omega, le_refl _⟩
      simp only [h2, if_true, goSlice, hc, and_self]
      congr 1
      have hlen : (R.drop offset.toNat).length = R.length - offset.toNat := List.length_drop _ _
      rw [List.take_of_length_le (by rw [hlen]; omega),
          List.take_of_length_le (by rw [hlen]; omega)]
    · have hc : 0 ≤ offset ∧ offset ≤ offset + L ∧ offset + L ≤ (R.length : Int) :=
        ⟨h0, by omega, by omega⟩
      simp only [h2, if_false, goSlice, hc, and_self, if_true]
      congr 2
      omega

/-! ## C1: ranked results are in non-increasing score order -/

/-- C1, as stated, fails: with a NaN score among the candidates the ranked
list is not in non-increasing score order (`NaN >= 2` is false). -/
theorem C1_counterexample :
    rankAndWindow [scored 0 .nan, scored 1 (.finite 1), scored 2 (.finite 2)] 0 10
        = .ok [scored 0 .nan, scored 2 (.finite 2), scored 1 (.finite 1)] ∧
      ¬ List.Chain' scoreGe [scored 0 .nan, scored 2 (.finite 2), scored 1 (.finite 1)] :=
  ⟨by decide, fun h => absurd (List.chain'_cons.mp h).1 (by decide)⟩

/-- C1 (amended): when no candidate score is NaN, whatever the ranking and
windowing of semantic search return is in non-increasing score order: each
result's score is `>=` the score of the result after it. -/
theorem C1_ranked_nonincreasing (rs out : List SearchResult) (offset limit : Int)
    (hnan : ∀ r ∈ rs, r.Score.isNaN = false)
    (h : rankAndWindow rs offset limit = .ok out) : List.Chain' scoreGe out := by
  have hs := (sortResultsByScore_spec rs).2 hnan
  exact (hs.sublist (applyWindow_sublist h)).chain'

theorem C1_ranked_nonincreasing_witness :
    List.Chain' scoreGe [scored 0 (.finite 3), scored 2 (.finite 2)] :=
  C1_ranked_nonincreasing
    [scored 0 (.finite 3), scored 1 (.finite 1), scored 2 (.finite 2), scored 3 .posInf]
    [scored 0 (.finite 3), scored 2 (.finite 2)] 1 2 (by decide) (by decide)

/-! ## C2: the window of semantic search -/

/-- C2 at the failing input: with offset 1 and limit `2^63 - 1` the sum
`offset + limit` wraps to `-2^63`, the clamp `end > len(results)` does not
fire, and the slice expression `results[1:-2^63]` panics instead of returning
the elements from position 1 on. -/
theorem C2_window_overflow_panics :
    applyWindow [scored 1 (.finite 2), scored 2 (.finite 1)] 1 (2 ^ 63 - 1)
      = .error .panic := by
  decide

/-! ## Tags -/

theorem foldl_mapSet (C : List GoString) : ∀ (m : GoString → Bool) (k : GoString),
    (C.foldl mapSet m) k = (m k || decide (k ∈ C)) := by
  induction C with
  | nil => intro m k; simp
  | cons c C ih =>
    intro m k
    simp only [List.foldl_cons, ih, mapSet, List.mem_cons]
    by_cases h : k = c <;> simp [h]

theorem allInMap_iff (m : GoString → Bool) (Q : List GoString) :
    allInMap m Q = true ↔ ∀ t ∈ Q, m t = true := by
  induction Q with
  | nil => simp [allInMap]
  | cons q Q ih =>
    by_cases h : m q = true
    · simp [allInMap, h, ih]
    · simp [allInMap, h]

/-- The test `containsAllTags` holds exactly when every query tag is among the
content tags. -/
theorem containsAllTags_iff (C Q : List GoString) :
    containsAllTags C Q = true ↔ ∀ t ∈ Q, t ∈ C := by
  simp [containsAllTags, allInMap_iff, foldl_mapSet]

/-- For a required list without repetition, the tag restriction of keyword
mode holds exactly when the content carries every required tag. -/
theorem keywordTagRestriction_iff_of_nodup (C Q : List GoString) (hQ : Q.Nodup) :
    keywordTagRestriction C Q = true ↔ ∀ t ∈ Q, t ∈ C := by
  have hsub : (C.filter fun n => n ∈ Q).dedup ⊆ Q := by
    intro t ht
    have := List.mem_dedup.mp ht
    simpa using (List.mem_filter.mp this).2
  have hnd : (C.filter fun n => n ∈ Q).dedup.Nodup := List.nodup_dedup _
  have hsp : List.Subperm (C.filter fun n => n ∈ Q).dedup Q := List.subperm_of_subset hnd hsub
  simp only [keywordTagRestriction, decide_eq_true_eq, Nat.cast_inj]
  constructor
  · intro hlen t ht
    have hperm := hsp.perm_of_length_le (le_of_eq hlen.symm)
    have : t ∈ (C.filter fun n => n ∈ Q).dedup := hperm.symm.subset ht
    exact (List.mem_filter.mp (List.mem_dedup.mp this)).1
  · intro hall
    have hsub2 : Q ⊆ (C.filter fun n => n ∈ Q).dedup := by
      intro t ht
      exact List.mem_dedup.mpr (List.mem_filter.mpr ⟨hall t ht, by simpa using ht⟩)
    have hsp2 : List.Subperm Q (C.filter fun n => n ∈ Q).dedup := List.subperm_of_subset hQ hsub2
    exact le_antisymm hsp.length_le hsp2.length_le

/-! ## C5: the tag filter of semantic mode -/

/-- What the candidate loop of semantic search leaves, when it ends without a
fault and a tag is required: the results it started with, then only
candidates carrying every required tag, and every such candidate. -/
theorem semanticLoop_tags (rt : GoRuntime) (s : SearchService) (query : SearchQuery)
    (qe : List GoFloat) (hQ : query.Tags ≠ []) :
    ∀ (rows : List (ContentRow × List Nat)) (acc results : List SearchResult),
      semanticLoop rt s query qe rows acc = .ok results →
      (∀ r ∈ results, r ∈ acc ∨ ∀ t ∈ query.Tags, t ∈ r.Content.Tags) ∧
      (∀ r ∈ acc, r ∈ results) ∧
      (∀ p ∈ rows, (∀ t ∈ query.Tags, t ∈ (toContent s.db p.1).Tags) →
        ∃ r ∈ results, r.Content = toContent s.db p.1) := by
  have hlen : query.Tags.length > 0 := List.length_pos.mpr hQ
  intro rows
  induction rows with
  | nil =>
    intro acc results h
    simp only [semanticLoop, Except.ok.injEq] at h
    subst h
    exact ⟨fun r hr => Or.inl hr, fun r hr => hr, fun p hp => by simp at hp⟩
  | cons p rows ih =>
    intro acc results h
    obtain ⟨c, bytes⟩ := p
    simp only [semanticLoop] at h
    cases hd : s.embeddingService.DeserializeEmbedding bytes with
    | error e => simp [hd] at h
    | ok emb =>
      simp only [hd] at h
      by_cases hall : containsAllTags (toContent s.db c).Tags query.Tags = true
      · have hcond : ¬ ((decide (query.Tags.length > 0) &&
            !containsAllTags (toContent s.db c).Tags query.Tags) = true) := by
          simp [hall]
        simp only [hcond, if_false] at h
        cases hs : extractSnippet rt.ToLower c.body query.Query with
        | error f => simp [hs] at h
        | ok snippet =>
          simp only [hs] at h
          obtain ⟨h1, h2, h3⟩ := ih _ _ h
          refine ⟨?_, ?_, ?_⟩
          · intro r hr
            rcases h1 r hr with hm | hm
            · rcases List.mem_append.mp hm with hm | hm
              · exact Or.inl hm
              · right
                have : r = { Content := toContent s.db c,
                             Score := cosineSimilarity rt qe emb, Snippet := snippet } := by
                  simpa using hm
                subst this
                exact (containsAllTags_iff _ _).mp hall
            · exact Or.inr hm
          · intro r hr
            exact h2 r (List.mem_append.mpr (Or.inl hr))
          · intro p hp htags
            rcases List.mem_cons.mp hp with e | e
            · subst e
              exact ⟨_, h2 _ (List.mem_append.mpr (Or.inr (List.mem_singleton.mpr rfl))), rfl⟩
            · exact h3 p e htags
      · have hcond : (decide (query.Tags.length > 0) &&
            !containsAllTags (toContent s.db c).Tags query.Tags) = true := by
          simp [hall, hlen]
        simp only [hcond, if_true] at h
        obtain ⟨h1, h2, h3⟩ := ih _ _ h
        refine ⟨h1, h2, ?_⟩
        intro p hp htags
        rcases List.mem_cons.mp hp with e | e
        · subst e
          exact absurd ((containsAllTags_iff _ _).mpr htags) hall
        · exact h3 p e htags

/-- C5: `containsAllTags` is true exactly when every query tag occurs among
the content tags; and when semantic search with a non-empty required tag list
returns, every returned result carries all required tags, and every candidate
row carrying all of them is among the results that were ranked (the tag
filter discarded none of them). -/
theorem C5_containsAllTags (C Q : List GoString) (rt : GoRuntime) (s : SearchService)
    (query : SearchQuery) (out : List SearchResult) (hQ : query.Tags ≠ [])
    (h : semanticSearch rt s query = .ok out) :
    (containsAllTags C Q = true ↔ ∀ t ∈ Q, t ∈ C) ∧
    (∀ r ∈ out, ∀ t ∈ query.Tags, t ∈ r.Content.Tags) ∧
    (∃ qe results, s.embeddingService.GenerateEmbedding query.Query = .ok qe ∧
      semanticLoop rt s query qe (semanticRows s.db query) [] = .ok results ∧
      rankAndWindow results query.Offset query.Limit = .ok out ∧
      ∀ p ∈ semanticRows s.db query, (∀ t ∈ query.Tags, t ∈ (toContent s.db p.1).Tags) →
        ∃ r ∈ results, r.Content = toContent s.db p.1) := by
  refine ⟨containsAllTags_iff C Q, ?_⟩
  unfold semanticSearch at h
  cases hg : s.embeddingService.GenerateEmbedding query.Query with
  | error e => simp [hg] at h
  | ok qe =>
    simp only [hg] at h
    cases hl : semanticLoop rt s query qe (semanticRows s.db query) [] with
    | error f => simp [hl] at h
    | ok results =>
      simp only [hl] at h
      obtain ⟨h1, _, h3⟩ := semanticLoop_tags rt s query qe hQ _ _ _ hl
      refine ⟨?_, qe, results, rfl, hl, h, h3⟩
      intro r hr
      have hsub := applyWindow_sublist h
      have hr2 : r ∈ results := (sortResultsByScore_spec results).1.subset (hsub.subset hr)
      rcases h1 r hr2 with hm | hm
      · simp at hm
      · exact hm

theorem C5_containsAllTags_witness :
    (containsAllTags [tagX, tagY, tagZ] [tagX, tagY] = true ↔
        ∀ t ∈ [tagX, tagY], t ∈ [tagX, tagY, tagZ]) ∧
    (∀ r ∈ [({ Content := toContent sampleStore sampleStore.content[0], Score := .finite 1,
               Snippet := utf8 "alpha beta" } : SearchResult)],
      ∀ t ∈ [tagX], t ∈ r.Content.Tags) :=
  have h := C5_containsAllTags [tagX, tagY, tagZ] [tagX, tagY] sampleRuntime sampleService
    ⟨utf8 "alpha", [], [tagX], 1, 0, true⟩
    [{ Content := toContent sampleStore sampleStore.content[0], Score := .finite 1,
       Snippet := utf8 "alpha beta" }] (by decide) (by decide!)
  ⟨h.1, h.2.1⟩

/-! ## C4: the tag restriction of keyword mode -/

/-- C4 at the failing input: for the required list `[x, x]` the restriction of
keyword mode compares one distinct name with `len(Q) = 2` and rejects content
tagged `x`, which `containsAllTags` accepts; keyword search for `alpha` then
returns nothing, although with the list `[x]` it returns notes 2 and 1. -/
theorem C4_repeated_required_tag :
    keywordTagRestriction [tagX] [tagX, tagX] = false ∧
    containsAllTags [tagX] [tagX, tagX] = true ∧
    keywordSearch sampleRuntime sampleService ⟨utf8 "alpha", [], [tagX, tagX], 0, 0, false⟩
      = .ok [] ∧
    (keywordSearch sampleRuntime sampleService ⟨utf8 "alpha", [], [tagX], 0, 0, false⟩).map
      (fun rs => rs.map fun r => r.Content.ID) = .ok [2, 1] := by
  decide

/-- The two modes agree on required lists without repetition: the keyword
restriction is then the test `containsAllTags`. In particular `{x, y}`
rejects content tagged `{x}` and accepts content tagged `{x, y, z}`. -/
theorem keywordTagRestriction_eq_containsAllTags (C Q : List GoString) (hQ : Q.Nodup) :
    keywordTagRestriction C Q = containsAllTags C Q := by
  rw [Bool.eq_iff_iff, keywordTagRestriction_iff_of_nodup C Q hQ, containsAllTags_iff]

theorem keywordTagRestriction_examples :
    keywordTagRestriction [tagX] [tagX, tagY] = false ∧
    keywordTagRestriction [tagX, tagY, tagZ] [tagX, tagY] = true := by
  decide

/-! ## C6: the zero cases of `cosineSimilarity` -/

theorem cosineLoop_normA_zero (rt : GoRuntime) (laws : rt.ZeroLaws) :
    ∀ (a b : List GoFloat) (acc : GoFloat × GoFloat × GoFloat),
      isZeroVector a → acc.2.1 = .finite 0 → (cosineLoop rt a b acc).2.1 = .finite 0 := by
  intro a
  induction a with
  | nil => intro b acc _ h; simpa [cosineLoop] using h
  | cons x a ih =>
    intro b acc hz h
    cases b with
    | nil => simpa [cosineLoop] using h
    | cons y b =>
      obtain ⟨dot, nA, nB⟩ := acc
      simp only at h
      have hx : x = .finite 0 := hz x (by simp)
      simp only [cosineLoop]
      apply ih
      · intro z hzm; exact hz z (by simp [hzm])
      · simp only [h, hx, laws.mul32_zero, laws.add_zero]

theorem cosineLoop_normB_zero (rt : GoRuntime) (laws : rt.ZeroLaws) :
    ∀ (a b : List GoFloat) (acc : GoFloat × GoFloat × GoFloat),
      isZeroVector b → acc.2.2 = .finite 0 → (cosineLoop rt a b acc).2.2 = .finite 0 := by
  intro a
  induction a with
  | nil => intro b acc _ h; simpa [cosineLoop] using h
  | cons x a ih =>
    intro b acc hz h
    cases b with
    | nil => simpa [cosineLoop] using h
    | cons y b =>
      obtain ⟨dot, nA, nB⟩ := acc
      simp only at h
      have hy : y = .finite 0 := hz y (by simp)
      simp only [cosineLoop]
      apply ih
      · intro z hzm; exact hz z (by simp [hzm])
      · simp only [h, hy, laws.mul32_zero, laws.add_zero]

/-- C6: `cosineSimilarity` returns `0` whenever the two vectors differ in
length, or one of them has Euclidean norm zero (all its components are zero;
this covers two empty vectors). The function has no failing path: it is a
total function of its two vectors. The arithmetic is any arithmetic in which
products and sums of zeros and the square root of zero are zero, as in
IEEE-754. -/
theorem C6_cosineSimilarity_zero (rt : GoRuntime) (laws : rt.ZeroLaws) (a b : List GoFloat)
    (h : a.length ≠ b.length ∨ isZeroVector a ∨ isZeroVector b) :
    cosineSimilarity rt a b = .finite 0 := by
  unfold cosineSimilarity
  by_cases hlen : a.length ≠ b.length
  · rw [if_pos hlen]
  · rw [if_neg hlen]
    rcases h with h | h | h
    · exact absurd h hlen
    · have := cosineLoop_normA_zero rt laws a b (.finite 0, .finite 0, .finite 0) h rfl
      simp [this, laws.sqrt_zero, GoFloat.eq]
    · have := cosineLoop_normB_zero rt laws a b (.finite 0, .finite 0, .finite 0) h rfl
      simp [this, laws.sqrt_zero, GoFloat.eq]

theorem sampleRuntime_zeroLaws : sampleRuntime.ZeroLaws :=
  ⟨by simp [sampleRuntime, GoFloat.mulExact], by simp [sampleRuntime, GoFloat.addExact],
   by simp [sampleRuntime, GoFloat.sqrtFloor]⟩

theorem C6_cosineSimilarity_zero_witness :
    cosineSimilarity sampleRuntime [.finite 0, .finite 0] [.finite 3, .finite 4] = .finite 0 :=
  C6_cosineSimilarity_zero sampleRuntime sampleRuntime_zeroLaws
    [.finite 0, .finite 0] [.finite 3, .finite 4] (Or.inr (Or.inl (by
      intro x hx
      simp only [List.mem_cons, List.mem_singleton, List.not_mem_nil, or_false, or_self] at hx
      exact hx)))

/-! ## The quotient returned by `cosineSimilarity` -/

/-- For two vectors of the same length whose computed norms do not compare
equal to zero, `cosineSimilarity` returns the rounded quotient of the
accumulated dot product by the rounded product of the two norms. Which value
that is (for instance whether it is `1` for a vector and itself) depends on
the rounding of each operation, which is a parameter here; the value under
IEEE-754 rounding is the subject of the last section. -/
theorem cosineSimilarity_of_norms_ne_zero (rt : GoRuntime) (a b : List GoFloat)
    (hlen : a.length = b.length)
    (hA : (rt.sqrt (cosineLoop rt a b (.finite 0, .finite 0, .finite 0)).2.1).eq (.finite 0)
      = false)
    (hB : (rt.sqrt (cosineLoop rt a b (.finite 0, .finite 0, .finite 0)).2.2).eq (.finite 0)
      = false) :
    cosineSimilarity rt a b
      = rt.div (cosineLoop rt a b (.finite 0, .finite 0, .finite 0)).1
          (rt.mul (rt.sqrt (cosineLoop rt a b (.finite 0, .finite 0, .finite 0)).2.1)
            (rt.sqrt (cosineLoop rt a b (.finite 0, .finite 0, .finite 0)).2.2)) := by
  unfold cosineSimilarity
  rw [if_neg (not_not.mpr hlen)]
  simp [hA, hB]

/-! ## `strings.Index` -/

theorem indexFrom_eq_neg_one_iff (sub : GoString) :
    ∀ (s : GoString) (k : Nat), indexFrom sub s k = -1 ↔ ¬ sub <:+: s := by
  intro s
  induction s with
  | nil =>
    intro k
    by_cases h : sub = []
    · simp [indexFrom, h]
    · simp [indexFrom, h]
  | cons c cs ih =>
    intro k
    by_cases h : sub.isPrefixOf (c :: cs) = true
    · have hp : sub <+: c :: cs := List.isPrefixOf_iff_prefix.mp h
      simp only [indexFrom, h, if_true]
      constructor
      · intro hk; omega
      · intro hn; exact absurd hp.isInfix hn
    · have hp : ¬ sub <+: c :: cs := fun hp => h (List.isPrefixOf_iff_prefix.mpr hp)
      simp only [indexFrom, h, if_false, Bool.false_eq_true, ih, List.infix_cons_iff, hp, false_or]

/-- The function `strings.Index` returns `-1` exactly when the text does not contain the
substring. -/
theorem stringsIndex_eq_neg_one_iff (s sub : GoString) :
    stringsIndex s sub = -1 ↔ ¬ sub <:+: s :=
  indexFrom_eq_neg_one_iff sub s 0

/-- A result of `strings.Index` other than `-1` is an offset `i` into the
text at which the substring starts, and the first such offset. -/
theorem indexFrom_found (sub : GoString) :
    ∀ (s : GoString) (k : Nat) (r : Int), indexFrom sub s k = r → r ≠ -1 →
      ∃ i : Nat, r = ((k + i : Nat) : Int) ∧ i ≤ s.length ∧ sub <+: s.drop i ∧
        ∀ j < i, ¬ sub <+: s.drop j := by
  intro s
  induction s with
  | nil =>
    intro k r h hr
    by_cases hs : sub = []
    · simp [indexFrom, hs] at h
      exact ⟨0, by simp [h], by simp, by simp [hs], by simp⟩
    · simp [indexFrom, hs] at h
      exact absurd h.symm hr
  | cons c cs ih =>
    intro k r h hr
    by_cases hp : sub.isPrefixOf (c :: cs) = true
    · simp only [indexFrom, hp, if_true] at h
      exact ⟨0, by simp [h], by simp, by simpa using List.isPrefixOf_iff_prefix.mp hp, by simp⟩
    · simp only [indexFrom, hp, if_false, Bool.false_eq_true] at h
      obtain ⟨i, h1, h2, h3, h4⟩ := ih (k + 1) r h hr
      refine ⟨i + 1, by rw [h1]; congr 1; omega, by simp; omega, by simpa using h3, ?_⟩
      intro j hj
      cases j with
      | zero => simpa using fun hpre => hp (List.isPrefixOf_iff_prefix.mpr hpre)
      | succ j => simpa using h4 j (by omega)

theorem stringsIndex_found (s sub : GoString) (r : Int) (h : stringsIndex s sub = r)
    (hr : r ≠ -1) :
    ∃ i : Nat, r = (i : Int) ∧ i ≤ s.length ∧ sub <+: s.drop i ∧
      ∀ j < i, ¬ sub <+: s.drop j := by
  obtain ⟨i, h1, h2, h3, h4⟩ := indexFrom_found sub s 0 r h hr
  exact ⟨i, by simpa using h1, h2, h3, h4⟩

/-! ## Snippets -/

theorem goSlice_ok {α : Type} (s : List α) (lo hi : Nat) (h1 : lo ≤ hi) (h2 : hi ≤ s.length) :
    goSlice s (lo : Int) (hi : Int) = .ok ((s.drop lo).take (hi - lo)) := by
  unfold goSlice
  have hc : (0 : Int) ≤ (lo : Int) ∧ (lo : Int) ≤ (hi : Int) ∧ (hi : Int) ≤ (s.length : Int) :=
    ⟨by omega, by omega, by omega⟩
  simp [hc]

/-- The snippet when the lower-cased query is found in the lower-cased text at
offset `i` and `i` is at most `len(text) + 75`: the window
`text[max(0, i-75) : min(len(text), i+len(query)+75)]`, with `...` before it
when it does not start the text and after it when it does not end the text. -/
theorem extractSnippet_of_found (toLower : GoString → GoString) (text query : GoString)
    (i : Nat) (ht : text ≠ []) (hq : query ≠ [])
    (hi : stringsIndex (toLower text) (toLower query) = (i : Int))
    (hb : i ≤ text.length + 75) :
    extractSnippet toLower text query
      = .ok ((if 0 < i - 75 then ellipsis else []) ++
          (text.drop (i - 75)).take (min text.length (i + query.length + 75) - (i - 75)) ++
          (if min text.length (i + query.length + 75) < text.length then ellipsis else [])) := by
  unfold extractSnippet
  have h0 : ¬ (query = [] ∨ text = []) := by simp [ht, hq]
  have hne : ¬ ((i : Int) = -1) := by omega
  simp only [h0, if_false, hi, hne]
  have hstart : (if (i : Int) - 75 < 0 then (0 : Int) else (i : Int) - 75) = ((i - 75 : Nat) : Int) := by
    split <;> omega
  have hstop : (if (i : Int) + (query.length : Int) + 75 > (text.length : Int)
      then (text.length : Int) else (i : Int) + (query.length : Int) + 75)
      = ((min text.length (i + query.length + 75) : Nat) : Int) := by
    split <;> omega
  rw [hstart, hstop, goSlice_ok text _ _ (by omega) (by omega)]
  have e1 : (((i - 75 : Nat) : Int) > 0) ↔ 0 < i - 75 := by omega
  have e2 : (((min text.length (i + query.length + 75) : Nat) : Int) < (text.length : Int))
      ↔ min text.length (i + query.length + 75) < text.length := by omega
  simp only [bind, Except.bind, pure, Except.pure, e1, e2]
  by_cases c1 : 0 < i - 75 <;> by_cases c2 : min text.length (i + query.length + 75) < text.length <;>
    simp [c1, c2]

/-- With an empty body or an empty query the snippet is empty. -/
theorem extractSnippet_of_empty (toLower : GoString → GoString) (text query : GoString)
    (h : text = [] ∨ query = []) : extractSnippet toLower text query = .ok [] := by
  have h0 : query = [] ∨ text = [] := h.symm
  simp [extractSnippet, h0]

/-- When the lower-cased body does not contain the lower-cased query, the
snippet is the body, cut after 150 bytes and followed by `...` when longer. -/
theorem extractSnippet_of_not_found (toLower : GoString → GoString) (text query : GoString)
    (ht : text ≠ []) (hq : query ≠ []) (hn : ¬ (toLower query <:+: toLower text)) :
    extractSnippet toLower text query
      = .ok (if text.length ≤ 150 then text else text.take 150 ++ ellipsis) := by
  have h0 : ¬ (query = [] ∨ text = []) := by simp [ht, hq]
  have hidx : stringsIndex (toLower text) (toLower query) = -1 :=
    (stringsIndex_eq_neg_one_iff _ _).mpr hn
  simp only [extractSnippet, h0, if_false, hidx, if_true]
  by_cases hl : text.length > 150
  · have hs := goSlice_ok text 0 150 (by omega) (by omega)
    simp only [Nat.cast_zero, Nat.cast_ofNat] at hs
    have hl2 : ¬ text.length ≤ 150 := by omega
    simp [hl, hl2, hs, bind, Except.bind, pure, Except.pure]
  · have hl2 : text.length ≤ 150 := by omega
    simp [hl, hl2]

/-- C9 (amended, lengths counted in bytes, the unit of `len` and of the slice
`text[:150]`): `extractSnippet` returns the empty snippet when the body or the
query is empty; and for a non-empty body in which the non-empty query does not
occur case-insensitively (the lower-cased body does not contain the
lower-cased query), it returns the whole body when the body has at most 150
bytes and otherwise its first 150 bytes followed by `...`. -/
theorem C9_snippet_not_found (toLower : GoString → GoString) (text query : GoString) :
    ((text = [] ∨ query = []) → extractSnippet toLower text query = .ok []) ∧
    (text ≠ [] → query ≠ [] → ¬ (toLower query <:+: toLower text) →
      extractSnippet toLower text query
        = .ok (if text.length ≤ 150 then text else text.take 150 ++ ellipsis)) :=
  ⟨extractSnippet_of_empty toLower text query, extractSnippet_of_not_found toLower text query⟩

theorem C9_snippet_not_found_witness :
    extractSnippet (ToLower unicodeToLower) (utf8 "the quick brown fox") (utf8 "Zebra")
      = .ok (utf8 "the quick brown fox") :=
  (C9_snippet_not_found (ToLower unicodeToLower) (utf8 "the quick brown fox") (utf8 "Zebra")).2
    (by decide) (by decide) (by decide)

/-- C9, as stated in characters, fails. A body of 80 letters U+00E9 has 80
characters and 160 bytes and does not contain the query `q`: the snippet is
not the whole body but its first 150 bytes, 75 letters, followed by `...`. A
body of 151 such letters is cut after 75 letters, not after 150. The cut is
made between bytes and can fall inside a character: after the letter `a` and
80 letters U+00E9 the snippet ends with the lone byte `C3` before `...`. -/
theorem C9_counterexample :
    runeCount (eAcute 80) = 80 ∧ (eAcute 80).length = 160 ∧
    ¬ (ToLower unicodeToLower (utf8 "q") <:+: ToLower unicodeToLower (eAcute 80)) ∧
    extractSnippet (ToLower unicodeToLower) (eAcute 80) (utf8 "q")
      = .ok (eAcute 75 ++ ellipsis) ∧
    extractSnippet (ToLower unicodeToLower) (eAcute 80) (utf8 "q") ≠ .ok (eAcute 80) ∧
    runeCount (eAcute 151) = 151 ∧
    extractSnippet (ToLower unicodeToLower) (eAcute 151) (utf8 "q")
      = .ok (eAcute 75 ++ ellipsis) ∧
    extractSnippet (ToLower unicodeToLower) (utf8 "a" ++ eAcute 80) (utf8 "q")
      = .ok (utf8 "a" ++ eAcute 74 ++ [0xC3] ++ ellipsis) := by
  decide

/-! ## C8: the snippet window -/

/-- C8 at the failing input: the body is 77 letters U+023A followed by `q`
(155 bytes) and the query is `q`. The lower-cased body has the match at offset
231, so the window starts at 156 and is clamped to end at 155, and the slice
expression `text[156:155]` panics: no snippet is returned. -/
theorem C8_snippet_window_panics :
    (strokedA 77 ++ utf8 "q").length = 155 ∧
    stringsIndex (ToLower unicodeToLower (strokedA 77 ++ utf8 "q"))
      (ToLower unicodeToLower (utf8 "q")) = 231 ∧
    extractSnippet (ToLower unicodeToLower) (strokedA 77 ++ utf8 "q") (utf8 "q")
      = .error .panic := by
  decide

/-! ## C10: the snippet and the matched text -/

/-- C10 at the failing input: the body is 76 letters U+023A followed by
`needle` and the query is `needle`, which the body contains. The match is at
offset 228 of the lower-cased body but at offset 152 of the body, the window
`text[153:158]` is cut from the body, and the snippet `...eedle` does not
contain the query. -/
theorem C10_snippet_misses_match :
    (ToLower unicodeToLower (utf8 "needle")
      <:+: ToLower unicodeToLower (strokedA 76 ++ utf8 "needle")) ∧
    extractSnippet (ToLower unicodeToLower) (strokedA 76 ++ utf8 "needle") (utf8 "needle")
      = .ok (utf8 "...eedle") ∧
    ¬ (ToLower unicodeToLower (utf8 "needle") <:+: ToLower unicodeToLower (utf8 "...eedle")) := by
  decide

/-- The example of the specification: body `the quick brown fox`, query
`quick`; the snippet is the whole body, with no leading and no trailing
`...`, and it contains `quick`. -/
theorem extractSnippet_quick_brown_fox :
    extractSnippet (ToLower unicodeToLower) (utf8 "the quick brown fox") (utf8 "quick")
      = .ok (utf8 "the quick brown fox") ∧
    utf8 "quick" <:+: utf8 "the quick brown fox" := by
  decide

/-! ## Snippets of ASCII texts -/

theorem ToLower_of_ascii (tbl : Nat → Nat) (s : GoString) (h : ∀ c ∈ s, c < 0x80) :
    ToLower tbl s = s.map asciiFold := by
  have : s.all (fun c => decide (c < 0x80)) = true := by
    simpa [List.all_eq_true] using h
  simp [ToLower, this]

theorem infix_window {α : Type} (l sub : List α) (i s e : Nat) (hp : sub <+: l.drop i)
    (hs : s ≤ i) (he : i + sub.length ≤ e) : sub <:+: (l.drop s).take (e - s) := by
  obtain ⟨rest, hrest⟩ := hp
  by_cases hsub : sub = []
  · subst hsub; exact List.nil_infix
  · have hi : i ≤ l.length := by
      by_contra hc
      have : l.drop i = [] := List.drop_eq_nil_of_le (by omega)
      rw [this] at hrest
      exact hsub (List.append_eq_nil.mp hrest).1
    have hsplit : l.drop s = (l.drop s).take (i - s) ++ (sub ++ rest) := by
      have h1 := (List.take_append_drop (i - s) (l.drop s)).symm
      rw [List.drop_drop, show s + (i - s) = i by omega, ← hrest] at h1
      exact h1
    have hA : ((l.drop s).take (i - s)).length = i - s := by
      rw [List.length_take, List.length_drop]; omega
    generalize (l.drop s).take (i - s) = A at hsplit hA
    rw [hsplit]
    have h1 : (A ++ (sub ++ rest)).take (e - s)
        = A ++ (sub ++ rest.take (e - s - A.length - sub.length)) := by
      rw [List.take_append_eq_append_take, List.take_of_length_le (by omega),
        List.take_append_eq_append_take, List.take_of_length_le (by omega)]
    rw [h1]
    exact ⟨A, rest.take (e - s - A.length - sub.length), by simp [List.append_assoc]⟩

/-- For an ASCII body and query, where lower-casing keeps every offset, the
snippet is returned and contains the query case-insensitively whenever the
body does. -/
theorem extractSnippet_contains_query_of_ascii (tbl : Nat → Nat) (text query : GoString)
    (ht : text ≠ []) (hq : query ≠ [])
    (hat : ∀ c ∈ text, c < 0x80) (haq : ∀ c ∈ query, c < 0x80)
    (hocc : ToLower tbl query <:+: ToLower tbl text) :
    ∃ snippet, extractSnippet (ToLower tbl) text query = .ok snippet ∧
      ToLower tbl query <:+: ToLower tbl snippet := by
  have hne : stringsIndex (ToLower tbl text) (ToLower tbl query) ≠ -1 := by
    intro h; exact (stringsIndex_eq_neg_one_iff _ _).mp h hocc
  obtain ⟨i, hi, hlen, hpre, _⟩ := stringsIndex_found _ _ _ rfl hne
  have hLt := ToLower_of_ascii tbl text hat
  have hLq := ToLower_of_ascii tbl query haq
  have hlen2 : i ≤ text.length := by simpa [hLt] using hlen
  have hfound := extractSnippet_of_found (ToLower tbl) text query i ht hq hi (by omega)
  refine ⟨_, hfound, ?_⟩
  have hell : ∀ c ∈ ellipsis, c < 0x80 := by decide
  have hP : ∀ c ∈ (if 0 < i - 75 then ellipsis else []), c < 0x80 := by
    intro c hc; split at hc
    · exact hell c hc
    · simp at hc
  have hS : ∀ c ∈ (if min text.length (i + query.length + 75) < text.length then ellipsis
      else []), c < 0x80 := by
    intro c hc; split at hc
    · exact hell c hc
    · simp at hc
  have hW : ∀ c ∈ (text.drop (i - 75)).take (min text.length (i + query.length + 75) - (i - 75)),
      c < 0x80 := fun c hc => hat c (List.mem_of_mem_drop (List.mem_of_mem_take hc))
  have hall : ∀ c ∈ (if 0 < i - 75 then ellipsis else []) ++
      (text.drop (i - 75)).take (min text.length (i + query.length + 75) - (i - 75)) ++
      (if min text.length (i + query.length + 75) < text.length then ellipsis else []),
      c < 0x80 := by
    intro c hc
    rcases List.mem_append.mp hc with hc | hc
    · rcases List.mem_append.mp hc with hc | hc
      · exact hP c hc
      · exact hW c hc
    · exact hS c hc
  rw [ToLower_of_ascii tbl _ hall, hLq]
  rw [hLq, hLt] at hpre
  have hql : i + (query.map asciiFold).length ≤ min text.length (i + query.length + 75) := by
    have := hpre.length_le
    simp only [List.length_drop, List.length_map] at this ⊢
    have hq0 : 0 < query.length := List.length_pos.mpr hq
    omega
  have hwin := infix_window (text.map asciiFold) (query.map asciiFold) i (i - 75)
    (min text.length (i + query.length + 75)) hpre (by omega) hql
  obtain ⟨a, b, hab⟩ := hwin
  refine ⟨(if 0 < i - 75 then ellipsis else []).map asciiFold ++ a,
    b ++ (if min text.length (i + query.length + 75) < text.length then ellipsis
      else []).map asciiFold, ?_⟩
  simp only [List.map_append, List.map_take, List.map_drop, ← hab, List.append_assoc]

/-! ## The characters SQLite reads -/

theorem readContinuation_suffix (c : Nat) (s : GoString) : (readContinuation c s).2 <:+ s := by
  induction s generalizing c with
  | nil => simp [readContinuation]
  | cons b rest ih =>
    simp only [readContinuation]
    split
    · exact (ih _).trans (List.suffix_cons b rest)
    · exact List.suffix_refl _

theorem readContinuation_append (c t : Nat) (tl : GoString) (ht : isCont t = false)
    (s : GoString) :
    readContinuation c (s ++ t :: tl) = ((readContinuation c s).1, (readContinuation c s).2 ++ t :: tl) := by
  induction s generalizing c with
  | nil => simp [readContinuation, ht]
  | cons b rest ih =>
    simp only [List.cons_append, readContinuation]
    split
    · exact ih _
    · simp

theorem sqliteUtf8Read_suffix (b : Nat) (rest : GoString) : (sqliteUtf8Read b rest).2 <:+ rest := by
  unfold sqliteUtf8Read
  split
  · exact List.suffix_refl _
  · exact readContinuation_suffix _ _

theorem sqliteUtf8Read_append (b t : Nat) (tl : GoString) (ht : isCont t = false)
    (rest : GoString) :
    sqliteUtf8Read b (rest ++ t :: tl)
      = ((sqliteUtf8Read b rest).1, (sqliteUtf8Read b rest).2 ++ t :: tl) := by
  unfold sqliteUtf8Read
  split
  · rfl
  · simp only [readContinuation_append _ t tl ht]

theorem utf8Replace_ge (c : Nat) : 0x80 ≤ utf8Replace c := by
  unfold utf8Replace
  split
  · decide
  · rename_i h
    omega

theorem sqliteUtf8Read_char (b : Nat) (rest : GoString) :
    (sqliteUtf8Read b rest).1 = b ∨ 0x80 ≤ (sqliteUtf8Read b rest).1 := by
  unfold sqliteUtf8Read
  split
  · exact Or.inl rfl
  · exact Or.inr (utf8Replace_ge _)

/-- Every character read from a text is a byte of the text or lies outside
ASCII. -/
theorem mem_sqliteChars (n : Nat) : ∀ (s : GoString) (c : Nat),
    c ∈ sqliteChars n s → c ∈ s ∨ 0x80 ≤ c := by
  induction n with
  | zero => intro s c h; simp [sqliteChars] at h
  | succ n ih =>
    intro s c h
    cases s with
    | nil => simp [sqliteChars] at h
    | cons b rest =>
      simp only [sqliteChars] at h
      split at h
      · simp at h
      · rcases List.mem_cons.mp h with h | h
        · rcases sqliteUtf8Read_char b rest with h1 | h1
          · left; rw [h, h1]; simp
          · right; rw [h]; exact h1
        · rcases ih _ c h with h1 | h1
          · left
            exact List.mem_cons_of_mem _ ((sqliteUtf8Read_suffix b rest).subset h1)
          · exact Or.inr h1

theorem sqliteChars_nil (n : Nat) : sqliteChars n [] = [] := by
  cases n <;> rfl

/-- A character that is not a continuation byte, written after a text free of
NUL bytes, is read after the characters of the text. -/
theorem sqliteChars_append (t : Nat) (ht : isCont t = false) (ht0 : t ≠ 0) (ht1 : t < 0xC0) :
    ∀ (n : Nat) (s : GoString), s.length ≤ n → (∀ b ∈ s, b ≠ 0) →
      sqliteChars (n + 1) (s ++ [t]) = sqliteChars n s ++ [t] := by
  intro n
  induction n with
  | zero =>
    intro s hn _
    have : s = [] := List.length_eq_zero.mp (Nat.le_zero.mp hn)
    subst this
    simp [sqliteChars, ht0, sqliteUtf8Read, ht1]
  | succ n ih =>
    intro s hn h0
    cases s with
    | nil => simp [sqliteChars, ht0, sqliteUtf8Read, ht1, sqliteChars_nil]
    | cons b rest =>
      have hb : b ≠ 0 := h0 b (by simp)
      have hsuf := sqliteUtf8Read_suffix b rest
      have hlen : (sqliteUtf8Read b rest).2.length ≤ n := by
        have := hsuf.length_le
        simp at hn
        omega
      have h0' : ∀ x ∈ (sqliteUtf8Read b rest).2, x ≠ 0 :=
        fun x hx => h0 x (List.mem_cons_of_mem _ (hsuf.subset hx))
      have key := ih _ hlen h0'
      simp only [List.cons_append]
      rw [sqliteChars, sqliteChars]
      simp only [hb, if_false, sqliteUtf8Read_append b t [] ht rest, List.cons_append]
      rw [key]

theorem sqliteText_pattern (q : GoString) (h0 : ∀ b ∈ q, b ≠ 0) :
    sqliteText ([percent] ++ q ++ [percent]) = percent :: (sqliteText q ++ [percent]) := by
  have h1 : [percent] ++ q ++ [percent] = percent :: (q ++ [percent]) := by simp
  have h2 := sqliteChars_append percent (by decide) (by decide) (by decide) q.length q
    (Nat.le_refl _) h0
  rw [h1]
  unfold sqliteText
  rw [List.length_cons, sqliteChars]
  have hp : (sqliteUtf8Read percent (q ++ [percent])) = (percent, q ++ [percent]) := by
    simp [sqliteUtf8Read, percent]
  have hp0 : ¬ percent = 0 := by decide
  simp only [hp0, if_false, hp, List.length_append, List.length_singleton, h2]

/-! ## The operator `LIKE` on patterns `%q%` -/

/-- A match of `%` followed by `f` is a match of `f` on a suffix of the text. -/
theorem likeStar_iff (f : List Nat → Bool) (s : List Nat) :
    likeStar f s = true ↔ ∃ t, t <:+ s ∧ f t = true := by
  induction s with
  | nil =>
    simp only [likeStar, List.suffix_nil]
    constructor
    · intro h; exact ⟨[], rfl, h⟩
    · rintro ⟨t, rfl, h⟩; exact h
  | cons c cs ih =>
    simp only [likeStar, Bool.or_eq_true, ih]
    constructor
    · rintro (h | ⟨t, ht, h⟩)
      · exact ⟨c :: cs, List.suffix_refl _, h⟩
      · exact ⟨t, ht.trans (List.suffix_cons c cs), h⟩
    · rintro ⟨t, ht, h⟩
      rcases List.suffix_cons_iff.mp ht with rfl | ht
      · exact Or.inl h
      · exact Or.inr ⟨t, ht, h⟩

/-- The pattern `%` alone matches every text. -/
theorem likeChars_percent (s : List Nat) : likeChars [percent] s = true := by
  simp only [likeChars, if_true]
  exact (likeStar_iff _ s).mpr ⟨[], List.nil_suffix, rfl⟩

/-- A pattern that starts with literal characters `q` (no wildcard among
them) matches a text exactly when the text starts with a case variant of `q`
and the rest of the pattern matches the rest of the text. -/
theorem likeChars_literal (rest : List Nat) :
    ∀ (q s : List Nat), (∀ b ∈ q, b ≠ percent ∧ b ≠ underscore) →
      (likeChars (q ++ rest) s = true ↔
        ∃ s1 s2, s = s1 ++ s2 ∧ s1.map asciiFold = q.map asciiFold ∧
          likeChars rest s2 = true) := by
  intro q
  induction q with
  | nil =>
    intro s _
    constructor
    · intro h; exact ⟨[], s, rfl, rfl, h⟩
    · rintro ⟨s1, s2, hs, h1, h2⟩
      have : s1 = [] := by simpa using h1
      subst this
      simpa [hs] using h2
  | cons p q ih =>
    intro s hw
    have hp := hw p (by simp)
    have hq : ∀ b ∈ q, b ≠ percent ∧ b ≠ underscore := fun b hb => hw b (by simp [hb])
    cases s with
    | nil =>
      have key : likeChars (p :: (q ++ rest)) [] = false := by
        simp [likeChars, hp.1]
      rw [List.cons_append, key]
      constructor
      · intro h; cases h
      · rintro ⟨s1, s2, hs, h1, _⟩
        have : s1 = [] := by
          cases s1 with
          | nil => rfl
          | cons a t => simp at hs
        subst this
        simp at h1
    | cons c cs =>
      have key : likeChars (p :: (q ++ rest)) (c :: cs)
          = ((asciiFold p == asciiFold c) && likeChars (q ++ rest) cs) := by
        have hu : (p == underscore) = false := by simpa using hp.2
        simp [likeChars, hp.1, hu]
      rw [List.cons_append, key, Bool.and_eq_true, beq_iff_eq, ih cs hq]
      constructor
      · rintro ⟨hc, s1, s2, hs, h1, h2⟩
        exact ⟨c :: s1, s2, by simp [hs], by simp [hc, h1], h2⟩
      · rintro ⟨s1, s2, hs, h1, h2⟩
        cases s1 with
        | nil => simp at h1
        | cons a t =>
          simp only [List.cons_append, List.cons.injEq] at hs
          simp only [List.map_cons, List.cons.injEq] at h1
          exact ⟨by rw [hs.1]; exact h1.1.symm, t, s2, hs.2, h1.2, h2⟩

theorem infix_map_iff (q s : List Nat) :
    q.map asciiFold <:+: s.map asciiFold ↔
      ∃ pre s1 post, s = pre ++ s1 ++ post ∧ s1.map asciiFold = q.map asciiFold := by
  constructor
  · rintro ⟨a, b, hab⟩
    refine ⟨s.take a.length, (s.drop a.length).take q.length,
      (s.drop a.length).drop q.length, ?_, ?_⟩
    · simp [List.append_assoc]
    · have h1 : (s.map asciiFold).drop a.length = q.map asciiFold ++ b := by
        rw [← hab]; simp [List.append_assoc]
      have h2 : ((s.map asciiFold).drop a.length).take q.length = q.map asciiFold := by
        rw [h1]; simp
      simpa [List.map_take, List.map_drop] using h2
  · rintro ⟨pre, s1, post, hs, h1⟩
    exact ⟨pre.map asciiFold, post.map asciiFold, by rw [hs, ← h1]; simp⟩

/-- On characters: for `q` without wildcards, the pattern `%q%` matches a
text exactly when the text contains `q` as a run of characters, ASCII letters
compared without case. -/
theorem likeChars_substring (q s : List Nat)
    (hw : ∀ b ∈ q, b ≠ percent ∧ b ≠ underscore) :
    likeChars (percent :: (q ++ [percent])) s = true
      ↔ q.map asciiFold <:+: s.map asciiFold := by
  rw [infix_map_iff]
  simp only [likeChars, if_true]
  rw [likeStar_iff]
  constructor
  · rintro ⟨t, ⟨pre, hpre⟩, hf⟩
    obtain ⟨s1, s2, hs, h1, _⟩ := (likeChars_literal [percent] q t hw).mp hf
    exact ⟨pre, s1, s2, by rw [← hpre, hs, List.append_assoc], h1⟩
  · rintro ⟨pre, s1, post, hs, h1⟩
    refine ⟨s1 ++ post, ⟨pre, by rw [hs, List.append_assoc]⟩, ?_⟩
    exact (likeChars_literal [percent] q _ hw).mpr ⟨s1, post, rfl, h1, likeChars_percent post⟩

/-- For a query `q` that holds no wildcard and no NUL byte, the pattern `%q%`
matches a text exactly when the characters SQLite reads from the text contain
those it reads from `q`, ASCII letters compared without case. -/
theorem likeMatch_chars (q s : GoString)
    (hw : ∀ b ∈ q, b ≠ percent ∧ b ≠ underscore ∧ b ≠ 0) :
    likeMatch ([percent] ++ q ++ [percent]) s = true
      ↔ (sqliteText q).map asciiFold <:+: (sqliteText s).map asciiFold := by
  unfold likeMatch
  rw [sqliteText_pattern q (fun b hb => (hw b hb).2.2)]
  apply likeChars_substring
  intro c hc
  rcases mem_sqliteChars _ _ _ hc with h | h
  · exact ⟨(hw c h).1, (hw c h).2.1⟩
  · constructor
    · intro e; rw [e] at h; revert h; decide
    · intro e; rw [e] at h; revert h; decide

/-! ## UTF-8 encodings and substrings -/

theorem encodeRune_inj_of_append {a b : Nat} (ha : isScalar a) (hb : isScalar b)
    {x y : GoString} (h : encodeRune a ++ x = encodeRune b ++ y) : a = b := by
  obtain ⟨ha1, ha2⟩ := ha
  obtain ⟨hb1, hb2⟩ := hb
  have ha3 : ¬ (a > 0x10FFFF ∨ (0xD800 ≤ a ∧ a ≤ 0xDFFF)) := by omega
  have hb3 : ¬ (b > 0x10FFFF ∨ (0xD800 ≤ b ∧ b ≤ 0xDFFF)) := by omega
  unfold encodeRune at h
  simp only [ha3, hb3, if_false] at h
  split_ifs at h <;> simp only [List.cons_append, List.nil_append, List.cons.injEq] at h <;> omega

theorem encodeRune_shape {c : Nat} (hc : isScalar c) :
    ∃ h tl, encodeRune c = h :: tl ∧ isCont h = false ∧ ∀ y ∈ tl, isCont y = true := by
  obtain ⟨h1, h2⟩ := hc
  have h3 : ¬ (c > 0x10FFFF ∨ (0xD800 ≤ c ∧ c ≤ 0xDFFF)) := by omega
  unfold encodeRune
  simp only [h3, if_false]
  split_ifs
  · refine ⟨_, _, rfl, ?_, by simp⟩
    simp [isCont]; omega
  · refine ⟨_, _, rfl, ?_, ?_⟩
    · simp [isCont]; omega
    · simp [isCont]; omega
  · refine ⟨_, _, rfl, ?_, ?_⟩
    · simp [isCont]; omega
    · simp [isCont]; omega
  · refine ⟨_, _, rfl, ?_, ?_⟩
    · simp [isCont]; omega
    · simp [isCont]; omega

theorem encodeRune_ne_nil (c : Nat) : encodeRune c ≠ [] := by
  unfold encodeRune
  split_ifs <;> simp

/-- Between encodings of scalar values, a prefix of bytes is a prefix of
characters. -/
theorem prefix_of_flatMap_encodeRune : ∀ (q t : List Nat),
    (∀ c ∈ q, isScalar c) → (∀ c ∈ t, isScalar c) →
    q.flatMap encodeRune <+: t.flatMap encodeRune → q <+: t := by
  intro q
  induction q with
  | nil => intro t _ _ _; exact List.nil_prefix
  | cons a q ih =>
    intro t hq ht h
    obtain ⟨r, hr⟩ := h
    cases t with
    | nil =>
      simp only [List.flatMap_cons, List.flatMap_nil, List.append_eq_nil] at hr
      exact absurd hr.1.1 (encodeRune_ne_nil a)
    | cons b t =>
      simp only [List.flatMap_cons, List.append_assoc] at hr
      have hab : a = b := encodeRune_inj_of_append (hq a (by simp)) (ht b (by simp)) hr
      subst hab
      have hr2 := List.append_cancel_left hr
      have := ih t (fun c hc => hq c (by simp [hc])) (fun c hc => ht c (by simp [hc])) ⟨r, hr2⟩
      exact (List.prefix_cons_inj a).mpr this

/-- Between encodings of scalar values, a substring of bytes is a run of
characters: UTF-8 is self-synchronising. -/
theorem infix_of_flatMap_encodeRune (q : List Nat) (hq : ∀ c ∈ q, isScalar c) :
    ∀ t : List Nat, (∀ c ∈ t, isScalar c) →
    q.flatMap encodeRune <:+: t.flatMap encodeRune → q <:+: t := by
  intro t
  induction t with
  | nil =>
    intro _ h
    have h1 : q.flatMap encodeRune = [] := by simpa using h
    cases q with
    | nil => exact List.infix_refl _
    | cons a q =>
      simp only [List.flatMap_cons, List.append_eq_nil] at h1
      exact absurd h1.1 (encodeRune_ne_nil a)
  | cons b t ih =>
    intro ht h
    have ht2 : ∀ c ∈ t, isScalar c := fun c hc => ht c (by simp [hc])
    cases q with
    | nil => exact ⟨[], b :: t, by simp⟩
    | cons a q =>
      obtain ⟨pre, post, hpp⟩ := h
      simp only [List.flatMap_cons, List.append_assoc] at hpp
      rcases List.append_eq_append_iff.mp hpp with ⟨a2, h1, h2⟩ | ⟨c2, h1, h2⟩
      · -- the occurrence starts within the encoding of `b`
        cases pre with
        | nil =>
          have hpre : (a :: q).flatMap encodeRune <+: (b :: t).flatMap encodeRune :=
            ⟨post, by simpa [List.flatMap_cons, List.append_assoc] using hpp⟩
          exact (prefix_of_flatMap_encodeRune _ _ hq ht hpre).isInfix
        | cons x pre =>
          cases a2 with
          | nil =>
            have hin : (a :: q).flatMap encodeRune <:+: t.flatMap encodeRune :=
              ⟨[], post, by simpa [List.flatMap_cons, List.append_assoc] using h2⟩
            exact (ih ht2 hin).trans (List.infix_cons (List.infix_refl t))
          | cons y a2 =>
            exfalso
            obtain ⟨hb, tlb, hbe, _, hbt⟩ := encodeRune_shape (ht b (by simp))
            obtain ⟨ha, tla, hae, hah, _⟩ := encodeRune_shape (hq a (by simp))
            rw [hbe] at h1
            rw [hae] at h2
            simp only [List.cons_append, List.cons.injEq] at h1 h2
            have hy : y ∈ tlb := by rw [h1.2]; simp
            have := hbt y hy
            rw [← h2.1, hah] at this
            cases this
      · have hin : (a :: q).flatMap encodeRune <:+: t.flatMap encodeRune :=
          ⟨c2, post, by simpa [List.flatMap_cons, List.append_assoc] using h2.symm⟩
        exact (ih ht2 hin).trans (List.infix_cons (List.infix_refl t))

theorem asciiFold_lt {c : Nat} (h : c < 0x80) : asciiFold c < 0x80 := by
  unfold asciiFold; split <;> omega

theorem asciiFold_of_ge {c : Nat} (h : 0x80 ≤ c) : asciiFold c = c := by
  unfold asciiFold; split
  · omega
  · rfl

theorem isScalar_asciiFold {c : Nat} (h : isScalar c) : isScalar (asciiFold c) := by
  unfold isScalar at *
  unfold asciiFold; split <;> omega

/-- Folding the ASCII letters of an encoded text is encoding the folded
characters. -/
theorem map_asciiFold_encodeRune (c : Nat) :
    (encodeRune c).map asciiFold = encodeRune (asciiFold c) := by
  by_cases h : c < 0x80
  · have h2 := asciiFold_lt h
    have e1 : encodeRune c = [c] := by simp [encodeRune]; omega
    have e2 : encodeRune (asciiFold c) = [asciiFold c] := by simp [encodeRune]; omega
    rw [e1, e2]; rfl
  · rw [asciiFold_of_ge (by omega)]
    have hall : ∀ b ∈ encodeRune c, 0x80 ≤ b := by
      unfold encodeRune
      split_ifs
      · omega
      all_goals
        intro b hb
        simp only [List.mem_cons, List.mem_singleton, List.not_mem_nil, or_false] at hb
        omega
    have hm : ∀ l : List Nat, (∀ b ∈ l, 0x80 ≤ b) → l.map asciiFold = l := by
      intro l
      induction l with
      | nil => intro _; rfl
      | cons x l ih =>
        intro hl
        rw [List.map_cons, asciiFold_of_ge (hl x (by simp)),
          ih (fun b hb => hl b (by simp [hb]))]
    exact hm _ hall

theorem map_asciiFold_flatMap (x : List Nat) :
    (x.flatMap encodeRune).map asciiFold = (x.map asciiFold).flatMap encodeRune := by
  induction x with
  | nil => rfl
  | cons c x ih =>
    simp only [List.flatMap_cons, List.map_append, List.map_cons, ih, map_asciiFold_encodeRune]

/-- Between texts that SQLite reads as what they are, containing `q` as a run
of characters is containing it as a substring, ASCII letters compared
without case in both. -/
theorem containsFold_iff_chars (q s : GoString) (hq : plainText q) (hs : plainText s) :
    (sqliteText q).map asciiFold <:+: (sqliteText s).map asciiFold ↔ containsFold q s := by
  unfold containsFold
  obtain ⟨hq1, hq2⟩ := hq
  obtain ⟨hs1, hs2⟩ := hs
  have eq : q.map asciiFold = ((sqliteText q).map asciiFold).flatMap encodeRune := by
    rw [← map_asciiFold_flatMap, ← hq1]
  have es : s.map asciiFold = ((sqliteText s).map asciiFold).flatMap encodeRune := by
    rw [← map_asciiFold_flatMap, ← hs1]
  constructor
  · rintro ⟨a, b, hab⟩
    rw [eq, es, ← hab]
    exact ⟨a.flatMap encodeRune, b.flatMap encodeRune, by simp [List.flatMap_append]⟩
  · intro h
    rw [eq, es] at h
    apply infix_of_flatMap_encodeRune _ _ _ _ h
    · intro c hc
      obtain ⟨c0, hc0, rfl⟩ := List.mem_map.mp hc
      exact isScalar_asciiFold (hq2 c0 hc0)
    · intro c hc
      obtain ⟨c0, hc0, rfl⟩ := List.mem_map.mp hc
      exact isScalar_asciiFold (hs2 c0 hc0)

/-- For a query `q` that holds no wildcard and no NUL byte, and texts that
SQLite reads as what they are, the pattern `%q%` matches a text exactly when
the text contains `q` as a substring, ASCII letters compared without case. -/
theorem likeMatch_substring (q s : GoString)
    (hw : ∀ b ∈ q, b ≠ percent ∧ b ≠ underscore ∧ b ≠ 0) (hq : plainText q)
    (hs : plainText s) :
    likeMatch ([percent] ++ q ++ [percent]) s = true ↔ containsFold q s :=
  (likeMatch_chars q s hw).trans (containsFold_iff_chars q s hq hs)

/-! ## C3: keyword search and substrings -/

/-- Snippet extraction returns a snippet whenever lower-casing lengthens the
text by at most 75 bytes. -/
theorem extractSnippet_ok (toLower : GoString → GoString) (text query : GoString)
    (h : (toLower text).length ≤ text.length + 75) :
    ∃ snippet, extractSnippet toLower text query = .ok snippet := by
  by_cases h0 : text = [] ∨ query = []
  · exact ⟨_, extractSnippet_of_empty toLower text query h0⟩
  · have ht : text ≠ [] := fun e => h0 (Or.inl e)
    have hq : query ≠ [] := fun e => h0 (Or.inr e)
    by_cases hidx : stringsIndex (toLower text) (toLower query) = -1
    · exact ⟨_, extractSnippet_of_not_found toLower text query ht hq
        ((stringsIndex_eq_neg_one_iff _ _).mp hidx)⟩
    · obtain ⟨i, hi, hlen, _, _⟩ := stringsIndex_found _ _ _ rfl hidx
      exact ⟨_, extractSnippet_of_found toLower text query i ht hq hi (by omega)⟩

theorem keywordLoop_ok (rt : GoRuntime) (st : Store) (query : SearchQuery) :
    ∀ (rows : List ContentRow) (acc : List SearchResult),
      (∀ c ∈ rows, (rt.ToLower c.body).length ≤ c.body.length + 75) →
      ∃ results, keywordLoop rt st query rows acc = .ok results ∧
        results.map (fun r => r.Content) = acc.map (fun r => r.Content) ++ rows.map (toContent st) := by
  intro rows
  induction rows with
  | nil => intro acc _; exact ⟨acc, rfl, by simp⟩
  | cons c rows ih =>
    intro acc h
    obtain ⟨sn, hsn⟩ := extractSnippet_ok rt.ToLower c.body query.Query (h c (by simp))
    obtain ⟨results, hr, hm⟩ := ih (acc ++ [SearchResult.mk (toContent st c) (.finite 0) sn]) (fun c' hc' => h c' (by simp [hc']))
    exact ⟨results, by simp only [keywordLoop, hsn, hr], by simp [hm]⟩


theorem keywordRows_eq (st : Store) (query : SearchQuery)
    (hty : query.Typ = []) (htags : query.Tags = []) (hoff : query.Offset ≤ 0)
    (hlim : (st.content.length : Int) ≤ (if query.Limit ≤ 0 then 10 else query.Limit))
    (hlen : query.Query.length + 2 ≤ likePatternLimit)
    (hw : ∀ b ∈ query.Query, b ≠ percent ∧ b ≠ underscore ∧ b ≠ 0)
    (hq : plainText query.Query)
    (hst : ∀ c ∈ st.content, plainText c.title ∧ plainText c.body) :
    keywordRows st query = orderByCreatedAtDesc (st.content.filter fun c =>
      decide (containsFold query.Query c.title ∨ containsFold query.Query c.body)) := by
  have hfilter : (st.content.filter fun c =>
      (likeMatch ([percent] ++ query.Query ++ [percent]) c.title ||
        likeMatch ([percent] ++ query.Query ++ [percent]) c.body)
        && (decide (query.Typ = []) || decide (c.type = query.Typ))
        && (decide (query.Tags.length = 0) || tagSubquery st query.Tags c.id))
      = st.content.filter fun c =>
        decide (containsFold query.Query c.title ∨ containsFold query.Query c.body) := by
    apply List.filter_congr
    intro c hc
    rw [Bool.eq_iff_iff]
    simp only [hty, htags, List.length_nil, decide_True, Bool.true_or, Bool.and_true,
      Bool.or_eq_true, decide_eq_true_eq, likeMatch_substring _ _ hw hq (hst c hc).1,
      likeMatch_substring _ _ hw hq (hst c hc).2]
  have hL : (0 : Int) < (if query.Limit ≤ 0 then 10 else query.Limit) := by split <;> omega
  have hpat : ¬ ([percent] ++ query.Query ++ [percent]).length > likePatternLimit := by
    simp only [List.length_append, List.length_singleton]
    omega
  unfold keywordRows
  simp only [hpat, if_false, hfilter]
  generalize (if query.Limit ≤ 0 then (10 : Int) else query.Limit) = L at hlim hL
  have hlen : (orderByCreatedAtDesc (st.content.filter fun c =>
      decide (containsFold query.Query c.title ∨ containsFold query.Query c.body))).length
      ≤ st.content.length := by
    unfold orderByCreatedAtDesc
    rw [List.length_insertionSort]
    exact List.length_filter_le _ _
  unfold sqlLimitOffset
  have h1 : ¬ L < 0 := by omega
  have h2 : query.Offset.toNat = 0 := by omega
  rw [if_neg h1, h2, List.drop_zero, List.take_of_length_le (by omega)]

/-- A pattern of more than `likePatternLimit` bytes finds nothing, whatever
the store holds. -/
theorem keywordSearch_of_long_pattern (rt : GoRuntime) (s : SearchService) (q typ : GoString)
    (tags : List GoString) (limit offset : Int) (semantic : Bool)
    (h : likePatternLimit < q.length + 2) :
    keywordSearch rt s ⟨q, typ, tags, limit, offset, semantic⟩ = .ok [] := by
  have hpat : ([percent] ++ q ++ [percent]).length > likePatternLimit := by
    simp only [List.length_append, List.length_singleton]
    omega
  simp only [keywordSearch, keywordRows, hpat, if_true, keywordLoop]

/-- C3 (amended): let the query `q` hold none of `%`, `_` and the NUL byte and
be of at most 49998 bytes (the pattern `%q%` then has at most the 50000 bytes
SQLite accepts), and let `q` and the stored titles and bodies be texts that
SQLite reads as what they are (valid UTF-8 without NUL, U+FFFE and U+FFFF).
Then the pattern `%q%` matches such a text exactly when the text contains `q`
as a substring with ASCII letters compared without case; and keyword search
with no type filter, no tag filter and a window that covers the whole table,
over a store in which lower-casing lengthens no body by more than 75 bytes,
returns exactly the content whose title or body contains `q` in that sense,
newest first: every such content is returned, and when there is none the
result is empty. -/
theorem C3_keyword_substring (rt : GoRuntime) (s : SearchService) (query : SearchQuery)
    (hty : query.Typ = []) (htags : query.Tags = []) (hoff : query.Offset ≤ 0)
    (hlim : (s.db.content.length : Int) ≤ (if query.Limit ≤ 0 then 10 else query.Limit))
    (hlen : query.Query.length + 2 ≤ likePatternLimit)
    (hw : ∀ b ∈ query.Query, b ≠ percent ∧ b ≠ underscore ∧ b ≠ 0)
    (hq : plainText query.Query)
    (hst : ∀ c ∈ s.db.content, plainText c.title ∧ plainText c.body)
    (hlow : ∀ c ∈ s.db.content, (rt.ToLower c.body).length ≤ c.body.length + 75) :
    (∀ text, plainText text →
      (likeMatch ([percent] ++ query.Query ++ [percent]) text = true ↔
        containsFold query.Query text)) ∧
    ∃ results, keywordSearch rt s query = .ok results ∧
      results.map (fun r => r.Content)
        = (orderByCreatedAtDesc (s.db.content.filter fun c =>
            decide (containsFold query.Query c.title ∨ containsFold query.Query c.body))).map
            (toContent s.db) ∧
      (∀ c ∈ s.db.content, containsFold query.Query c.title ∨ containsFold query.Query c.body →
        ∃ r ∈ results, r.Content = toContent s.db c) ∧
      ((∀ c ∈ s.db.content,
          ¬ containsFold query.Query c.title ∧ ¬ containsFold query.Query c.body) →
        results = []) := by
  refine ⟨fun text ht => likeMatch_substring _ _ hw hq ht, ?_⟩
  have hrows := keywordRows_eq s.db query hty htags hoff hlim hlen hw hq hst
  have hmem : ∀ c, c ∈ keywordRows s.db query ↔
      c ∈ s.db.content ∧ (containsFold query.Query c.title ∨ containsFold query.Query c.body) := by
    intro c
    rw [hrows]
    unfold orderByCreatedAtDesc
    rw [(List.perm_insertionSort _ _).mem_iff, List.mem_filter, decide_eq_true_eq]
  obtain ⟨results, hr, hm⟩ := keywordLoop_ok rt s.db query (keywordRows s.db query) []
    (fun c hc => hlow c ((hmem c).mp hc).1)
  simp only [List.map_nil, List.nil_append] at hm
  refine ⟨results, hr, by rw [hm, hrows], ?_, ?_⟩
  · intro c hc hcont
    have h1 : toContent s.db c ∈ results.map (fun r => r.Content) := by
      rw [hm]; exact List.mem_map_of_mem _ ((hmem c).mpr ⟨hc, hcont⟩)
    obtain ⟨r, hr1, hr2⟩ := List.mem_map.mp h1
    exact ⟨r, hr1, hr2⟩
  · intro hnone
    have hnil : keywordRows s.db query = [] := by
      apply List.eq_nil_iff_forall_not_mem.mpr
      intro c hc
      obtain ⟨h1, h2⟩ := (hmem c).mp hc
      rcases h2 with h2 | h2
      · exact (hnone c h1).1 h2
      · exact (hnone c h1).2 h2
    rw [hnil] at hm
    simpa using hm

/-- C3, as stated, fails in five ways. (1) Wildcards: the query `_` occurs in
no title and no body of the sample store, yet the pattern `%_%` matches every
non-empty text and keyword search returns the three notes. (2) Case: the
query U+00E9 is a case-varied substring of the body U+00C9 (the two have the
same lower case), yet `LIKE` folds ASCII letters only and nothing is
returned. (3) NUL: the query `needle` is a substring of the body `x`, NUL,
`needle`, yet SQLite reads the body up to the NUL byte and nothing is
returned. (4) Length: a query of 49999 letters `a` is a substring of the body
equal to it, yet the pattern has 50001 bytes and nothing is returned.
(5) Characters: the query U+FFFE occurs in neither the title nor the body
U+FFFD of a note, yet SQLite reads both code points as U+FFFD and the note is
returned. -/
theorem C3_counterexample :
    ((∀ c ∈ sampleStore.content,
        ¬ containsFold (utf8 "_") c.title ∧ ¬ containsFold (utf8 "_") c.body) ∧
      (keywordSearch sampleRuntime sampleService ⟨utf8 "_", [], [], 0, 0, false⟩).map
        (fun rs => rs.map fun r => r.Content.ID) = .ok [3, 2, 1] ∧
      likeMatch ([percent] ++ utf8 "_" ++ [percent]) (utf8 "delta") = true ∧
      ¬ containsFold (utf8 "_") (utf8 "delta")) ∧
    (ToLower unicodeToLower [0xC3, 0xA9] <:+: ToLower unicodeToLower [0xC3, 0x89] ∧
      keywordSearch sampleRuntime ⟨singleNote (utf8 "Title") [0xC3, 0x89], sampleEmbeddings⟩
        ⟨[0xC3, 0xA9], [], [], 0, 0, false⟩ = .ok []) ∧
    (containsFold (utf8 "needle") (utf8 "x" ++ [0] ++ utf8 "needle") ∧
      keywordSearch sampleRuntime
        ⟨singleNote (utf8 "Title") (utf8 "x" ++ [0] ++ utf8 "needle"), sampleEmbeddings⟩
        ⟨utf8 "needle", [], [], 0, 0, false⟩ = .ok []) ∧
    (containsFold (List.replicate 49999 0x61) (List.replicate 49999 0x61) ∧
      keywordSearch sampleRuntime
        ⟨singleNote (utf8 "Title") (List.replicate 49999 0x61), sampleEmbeddings⟩
        ⟨List.replicate 49999 0x61, [], [], 0, 0, false⟩ = .ok []) ∧
    (¬ containsFold [0xEF, 0xBF, 0xBE] (utf8 "Title") ∧
      ¬ containsFold [0xEF, 0xBF, 0xBE] [0xEF, 0xBF, 0xBD] ∧
      (keywordSearch sampleRuntime
        ⟨singleNote (utf8 "Title") [0xEF, 0xBF, 0xBD], sampleEmbeddings⟩
        ⟨[0xEF, 0xBF, 0xBE], [], [], 0, 0, false⟩).map
        (fun rs => rs.map fun r => r.Content.ID) = .ok [1]) :=
  ⟨by decide, by decide, by decide,
    ⟨List.infix_refl _,
      keywordSearch_of_long_pattern _ _ _ _ _ _ _ _ (by rw [List.length_replicate]; decide)⟩,
    by decide⟩

theorem C3_keyword_substring_witness :
    ∃ results, keywordSearch sampleRuntime sampleService ⟨utf8 "ALPHA", [], [], 0, 0, false⟩
        = .ok results ∧
      results.map (fun r => r.Content.ID) = [2, 1] := by
  obtain ⟨_, results, h1, h2, _⟩ := C3_keyword_substring sampleRuntime sampleService
    ⟨utf8 "ALPHA", [], [], 0, 0, false⟩ rfl rfl (by decide) (by decide) (by decide)
    (by decide) (by decide) (by decide) (by decide)
  refine ⟨results, h1, ?_⟩
  have h3 := congrArg (List.map fun c => c.ID) h2
  simp only [List.map_map] at h3
  rw [show (fun r : SearchResult => r.Content.ID) = ((fun c : Content => c.ID) ∘ fun r => r.Content)
    from rfl, h3]
  decide

/-! ## C14: the two modes of `Search` -/

/-- C14: when the semantic flag is set and the embedding generator fails on
the query string, `Search` returns an error and no results, whatever the
store holds and whatever keyword mode would have returned; when the flag is
unset, `Search` is keyword search, whose result does not depend on the
embedding service (the generator is never consulted). -/
theorem C14_search_modes (rt : GoRuntime) (s : SearchService) (query : SearchQuery) :
    (query.Semantic = true →
      (∃ e, s.embeddingService.GenerateEmbedding query.Query = .error e) →
      Search rt s query = .error (.error "failed to generate query embedding")) ∧
    (query.Semantic = false →
      Search rt s query = keywordSearch rt s query ∧
      ∀ other : EmbeddingService,
        Search rt ⟨s.db, other⟩ query = Search rt s query) := by
  constructor
  · rintro hsem ⟨e, he⟩
    simp [Search, hsem, semanticSearch, he]
  · intro hsem
    constructor
    · simp [Search, hsem]
    · intro other
      simp [Search, hsem, keywordSearch]

theorem C14_search_modes_witness :
    Search sampleRuntime ⟨sampleStore, failingEmbeddings⟩ ⟨utf8 "alpha", [], [], 0, 0, true⟩
      = .error (.error "failed to generate query embedding") :=
  (C14_search_modes sampleRuntime ⟨sampleStore, failingEmbeddings⟩
    ⟨utf8 "alpha", [], [], 0, 0, true⟩).1 rfl ⟨_, rfl⟩

/-! ## C16: the window on arbitrary offsets and limits -/

/-- C16 at the failing inputs: with a negative offset the test
`start >= len(results)` does not fire and the slice expression
`results[-1:1]` panics; and with offset 1 and limit `2^63 - 1` the sum wraps
and `results[1:-2^63]` panics. -/
theorem C16_window_panics :
    applyWindow [scored 1 (.finite 2)] (-1) 10 = .error .panic ∧
    applyWindow [scored 1 (.finite 2), scored 2 (.finite 1)] 1 (2 ^ 63 - 1) = .error .panic := by
  decide

/-! ## C17: sorting permutes -/

/-- C17: `sortResultsByScore` leaves a permutation of its input: the multiset
of results (content, score and snippet together) is unchanged. -/
theorem C17_sort_perm (rs : List SearchResult) :
    (sortResultsByScore rs).Perm rs ∧
      ((sortResultsByScore rs : List SearchResult) : Multiset SearchResult) = (rs : Multiset SearchResult) :=
  ⟨(sortResultsByScore_spec rs).1, Multiset.coe_eq_coe.mpr (sortResultsByScore_spec rs).1⟩

/-! ## C18: the bounds of the snippet slice -/

/-- In the found case `extractSnippet` slices the original text at the bounds
`snippetBounds` computes from the index found in the lower-cased text. -/
theorem extractSnippet_found_eq (toLower : GoString → GoString) (text query : GoString)
    (ht : text ≠ []) (hq : query ≠ [])
    (hi : stringsIndex (toLower text) (toLower query) ≠ -1) :
    extractSnippet toLower text query
      = (goSlice text
          (snippetBounds text query (stringsIndex (toLower text) (toLower query))).1
          (snippetBounds text query (stringsIndex (toLower text) (toLower query))).2).map
        (fun snippet =>
          (if (snippetBounds text query (stringsIndex (toLower text) (toLower query))).2
              < (text.length : Int)
           then (if (snippetBounds text query (stringsIndex (toLower text) (toLower query))).1 > 0
                 then ellipsis ++ snippet else snippet) ++ ellipsis
           else (if (snippetBounds text query (stringsIndex (toLower text) (toLower query))).1 > 0
                 then ellipsis ++ snippet else snippet))) := by
  have h0 : ¬ (query = [] ∨ text = []) := by simp [ht, hq]
  simp only [extractSnippet, h0, if_false, hi, snippetBounds]
  cases goSlice text _ _ <;> rfl

/-- The bounds are in range exactly when the match index is at most
`len(text) + 75`. -/
theorem snippetBounds_in_range (text query : GoString) (index : Int) (h0 : 0 ≤ index) :
    (0 ≤ (snippetBounds text query index).1 ∧
      (snippetBounds text query index).1 ≤ (snippetBounds text query index).2 ∧
      (snippetBounds text query index).2 ≤ (text.length : Int))
    ↔ index ≤ (text.length : Int) + 75 := by
  simp only [snippetBounds]
  constructor
  · rintro ⟨_, h2, _⟩
    split at h2 <;> split at h2 <;> omega
  · intro h
    refine ⟨by split <;> omega, by split <;> split <;> omega, by split <;> omega⟩

/-- C18 at the failing input: the body is 100 letters U+023A followed by `Zz`
(202 bytes) and the query is `zz`. The match index 300 is found in the
lower-cased body, the bounds computed from it are `start = 225` and
`end = 202`, and the slice expression `text[225:202]` on the original body is
out of range: the call panics. -/
theorem C18_snippet_bounds_out_of_range :
    (strokedA 100 ++ utf8 "Zz").length = 202 ∧
    stringsIndex (ToLower unicodeToLower (strokedA 100 ++ utf8 "Zz"))
      (ToLower unicodeToLower (utf8 "zz")) = 300 ∧
    snippetBounds (strokedA 100 ++ utf8 "Zz") (utf8 "zz") 300 = (225, 202) ∧
    extractSnippet (ToLower unicodeToLower) (strokedA 100 ++ utf8 "Zz") (utf8 "zz")
      = .error .panic := by
  decide

/-! ## The content repository -/

theorem foldl_max_ge : ∀ (rest : List Int) (a : Int),
    a ≤ rest.foldl max a ∧ ∀ x ∈ rest, x ≤ rest.foldl max a := by
  intro rest
  induction rest with
  | nil => intro a; simp
  | cons b rest ih =>
    intro a
    obtain ⟨h1, h2⟩ := ih (max a b)
    simp only [List.foldl_cons]
    refine ⟨le_trans (le_max_left a b) h1, ?_⟩
    intro x hx
    rcases List.mem_cons.mp hx with e | e
    · subst e; exact le_trans (le_max_right a x) h1
    · exact h2 x e

/-- The identifier assigned to a new row is larger than every identifier in
the table. -/
theorem lt_nextId (ids : List Int) : ∀ x ∈ ids, x < nextId ids := by
  intro x hx
  cases ids with
  | nil => simp at hx
  | cons a rest =>
    obtain ⟨h1, h2⟩ := foldl_max_ge rest a
    simp only [nextId]
    rcases List.mem_cons.mp hx with e | e
    · subst e; omega
    · have := h2 x e; omega

theorem nextId_not_mem (ids : List Int) : nextId ids ∉ ids := fun h =>
  lt_irrefl _ (lt_nextId ids _ h)

theorem mem_getContentTags (st : Store) (cid : Int) (n : GoString) :
    n ∈ getContentTags st cid ↔
      ∃ t ∈ st.tags, t.name = n ∧ (⟨cid, t.id⟩ : ContentTagRow) ∈ st.content_tags := by
  simp only [getContentTags, List.mem_flatMap, List.mem_map, List.mem_filter,
    decide_eq_true_eq]
  constructor
  · rintro ⟨t, ht, ct, ⟨hct, h1, h2⟩, hn⟩
    refine ⟨t, ht, hn, ?_⟩
    have : ct = ⟨cid, t.id⟩ := by cases ct; simp_all
    rw [← this]; exact hct
  · rintro ⟨t, ht, hn, hct⟩
    exact ⟨t, ht, ⟨cid, t.id⟩, ⟨hct, rfl, rfl⟩, hn⟩

/-! ### `INSERT OR IGNORE INTO tags` -/

theorem insertOrIgnoreTag_frame (st : Store) (name : GoString) :
    (insertOrIgnoreTag st name).content = st.content ∧
    (insertOrIgnoreTag st name).content_tags = st.content_tags ∧
    (insertOrIgnoreTag st name).embeddings = st.embeddings := by
  unfold insertOrIgnoreTag
  split <;> simp

theorem insertOrIgnoreTag_wf (st : Store) (name : GoString) (h : st.WF) :
    (insertOrIgnoreTag st name).WF := by
  unfold insertOrIgnoreTag
  split
  · exact h
  · rename_i hn
    refine { h with tagIds := ?_, tagNames := ?_, linkTag := ?_ }
    · simp only [List.map_append, List.map_cons, List.map_nil]
      exact List.Nodup.append h.tagIds (List.nodup_singleton _)
        (by simpa [List.Disjoint] using nextId_not_mem (st.tags.map fun t => t.id))
    · simp only [List.map_append, List.map_cons, List.map_nil]
      exact List.Nodup.append h.tagNames (List.nodup_singleton _)
        (by simpa [List.Disjoint] using hn)
    · intro ct hct
      simp only [List.map_append, List.mem_append]
      exact Or.inl (h.linkTag ct hct)

theorem selectTagId_insertOrIgnoreTag (st : Store) (name : GoString) :
    ∃ t ∈ (insertOrIgnoreTag st name).tags, t.name = name ∧
      selectTagId (insertOrIgnoreTag st name) name = some t.id := by
  have hmem : name ∈ (insertOrIgnoreTag st name).tags.map fun t => t.name := by
    unfold insertOrIgnoreTag
    split
    · assumption
    · simp
  unfold selectTagId
  cases hf : (insertOrIgnoreTag st name).tags.find? fun t => t.name = name with
  | none =>
    rw [List.find?_eq_none] at hf
    obtain ⟨t, ht, hn⟩ := List.mem_map.mp hmem
    exact absurd (by simpa using hn) (by simpa using hf t ht)
  | some t =>
    exact ⟨t, List.mem_of_find?_eq_some hf, by simpa using List.find?_some hf, rfl⟩

theorem getContentTags_insertOrIgnoreTag (st : Store) (name : GoString) (h : st.WF)
    (cid : Int) (n : GoString) :
    n ∈ getContentTags (insertOrIgnoreTag st name) cid ↔ n ∈ getContentTags st cid := by
  rw [mem_getContentTags, mem_getContentTags, (insertOrIgnoreTag_frame st name).2.1]
  unfold insertOrIgnoreTag
  split
  · rfl
  · simp only [List.mem_append, List.mem_singleton]
    constructor
    · rintro ⟨t, ht | ht, hn, hct⟩
      · exact ⟨t, ht, hn, hct⟩
      · subst ht
        exact absurd (h.linkTag _ hct) (nextId_not_mem _)
    · rintro ⟨t, ht, hn, hct⟩
      exact ⟨t, Or.inl ht, hn, hct⟩

/-! ### `INSERT INTO content_tags` -/

theorem insertContentTag_ok {st st2 : Store} {cid tid : Int}
    (h : insertContentTag st cid tid = .ok st2) :
    st2 = { st with content_tags := st.content_tags ++ [⟨cid, tid⟩] } ∧
    (⟨cid, tid⟩ : ContentTagRow) ∉ st.content_tags ∧
    cid ∈ (st.content.map fun c => c.id) ∧ tid ∈ (st.tags.map fun t => t.id) := by
  unfold insertContentTag at h
  split at h
  · cases h
  · split at h
    · rename_i h1 h2
      cases h
      exact ⟨rfl, h1, h2.1, h2.2⟩
    · cases h

theorem insertContentTag_of_fresh (st : Store) (cid tid : Int)
    (h1 : (⟨cid, tid⟩ : ContentTagRow) ∉ st.content_tags)
    (h2 : cid ∈ (st.content.map fun c => c.id)) (h3 : tid ∈ (st.tags.map fun t => t.id)) :
    insertContentTag st cid tid
      = .ok { st with content_tags := st.content_tags ++ [⟨cid, tid⟩] } := by
  unfold insertContentTag
  rw [if_neg h1, if_pos ⟨h2, h3⟩]

theorem wf_of_link (st : Store) (cid tid : Int) (h : st.WF)
    (h1 : (⟨cid, tid⟩ : ContentTagRow) ∉ st.content_tags)
    (h2 : cid ∈ (st.content.map fun c => c.id)) (h3 : tid ∈ (st.tags.map fun t => t.id)) :
    ({ st with content_tags := st.content_tags ++ [⟨cid, tid⟩] } : Store).WF := by
  refine { h with links := ?_, linkContent := ?_, linkTag := ?_ }
  · exact List.Nodup.append h.links (List.nodup_singleton _)
      (by
        intro a ha hb
        have : a = ⟨cid, tid⟩ := by simpa using hb
        exact h1 (this ▸ ha))
  · intro ct hct
    rcases List.mem_append.mp hct with e | e
    · exact h.linkContent ct e
    · have : ct = ⟨cid, tid⟩ := by simpa using e
      subst this; exact h2
  · intro ct hct
    rcases List.mem_append.mp hct with e | e
    · exact h.linkTag ct e
    · have : ct = ⟨cid, tid⟩ := by simpa using e
      subst this; exact h3

/-- After a tag row `t` is linked to content `cid`, the tags of `cid` are the
former ones and the name of `t`; the tags of other content are the same. -/
theorem getContentTags_of_link (st : Store) (cid : Int) (t : TagRow) (h : st.WF)
    (ht : t ∈ st.tags) (c : Int) (n : GoString) :
    n ∈ getContentTags { st with content_tags := st.content_tags ++ [⟨cid, t.id⟩] } c ↔
      n ∈ getContentTags st c ∨ (c = cid ∧ n = t.name) := by
  rw [mem_getContentTags, mem_getContentTags]
  simp only [List.mem_append, List.mem_singleton, ContentTagRow.mk.injEq]
  constructor
  · rintro ⟨u, hu, hn, hct | ⟨hc, hid⟩⟩
    · exact Or.inl ⟨u, hu, hn, hct⟩
    · right
      refine ⟨hc, ?_⟩
      have : u = t := by
        have hinj := List.inj_on_of_nodup_map h.tagIds
        exact hinj hu ht hid
      rw [← hn, this]
  · rintro (⟨u, hu, hn, hct⟩ | ⟨hc, hn⟩)
    · exact ⟨u, hu, hn, Or.inl hct⟩
    · exact ⟨t, ht, hn.symm, Or.inr ⟨hc, rfl⟩⟩

/-! ### The tag loop -/

/-- What a run of the tag loop that ends without error leaves: a well-formed
store with the same content and embeddings, in which the tags of the content
are the former ones and the submitted ones, and the tags of any other content
are unchanged. -/
theorem linkTags_spec (cid : Int) :
    ∀ (tags : List GoString) (st st2 : Store), st.WF → linkTags cid tags st = .ok st2 →
      st2.WF ∧ st2.content = st.content ∧ st2.embeddings = st.embeddings ∧
      ∀ c n, n ∈ getContentTags st2 c ↔ n ∈ getContentTags st c ∨ (c = cid ∧ n ∈ tags) := by
  intro tags
  induction tags with
  | nil =>
    intro st st2 hwf h
    simp only [linkTags, Except.ok.injEq] at h
    subst h
    exact ⟨hwf, rfl, rfl, by simp⟩
  | cons tag rest ih =>
    intro st st2 hwf h
    obtain ⟨t, ht, hname, hsel⟩ := selectTagId_insertOrIgnoreTag st tag
    simp only [linkTags, hsel] at h
    cases hins : insertContentTag (insertOrIgnoreTag st tag) cid t.id with
    | error e => simp [hins] at h
    | ok st1 =>
      simp only [hins] at h
      obtain ⟨hst1, hfresh, hc, htid⟩ := insertContentTag_ok hins
      have hwf0 := insertOrIgnoreTag_wf st tag hwf
      have hwf1 : st1.WF := hst1 ▸ wf_of_link _ cid t.id hwf0 hfresh hc htid
      obtain ⟨h1, h2, h3, h4⟩ := ih st1 st2 hwf1 h
      have hfr := insertOrIgnoreTag_frame st tag
      refine ⟨h1, ?_, ?_, ?_⟩
      · rw [h2, hst1]; exact hfr.1
      · rw [h3, hst1]; exact hfr.2.2
      · intro c n
        rw [h4, hst1, getContentTags_of_link _ cid t hwf0 ht,
          getContentTags_insertOrIgnoreTag st tag hwf, hname, List.mem_cons]
        constructor
        · rintro ((h | ⟨h5, h6⟩) | ⟨h5, h6⟩)
          · exact Or.inl h
          · exact Or.inr ⟨h5, Or.inl h6⟩
          · exact Or.inr ⟨h5, Or.inr h6⟩
        · rintro (h | ⟨h5, h6 | h6⟩)
          · exact Or.inl (Or.inl h)
          · exact Or.inl (Or.inr ⟨h5, h6⟩)
          · exact Or.inr ⟨h5, h6⟩

/-- The tag loop ends without error when the content exists and the submitted
tags are pairwise distinct and not yet linked to it. -/
theorem linkTags_ok (cid : Int) :
    ∀ (tags : List GoString) (st : Store), st.WF →
      cid ∈ (st.content.map fun c => c.id) → tags.Nodup →
      (∀ n ∈ tags, n ∉ getContentTags st cid) →
      ∃ st2, linkTags cid tags st = .ok st2 := by
  intro tags
  induction tags with
  | nil => intro st _ _ _ _; exact ⟨st, rfl⟩
  | cons tag rest ih =>
    intro st hwf hc hnd hnew
    obtain ⟨t, ht, hname, hsel⟩ := selectTagId_insertOrIgnoreTag st tag
    have hwf0 := insertOrIgnoreTag_wf st tag hwf
    have hfr := insertOrIgnoreTag_frame st tag
    have hfresh : (⟨cid, t.id⟩ : ContentTagRow) ∉ (insertOrIgnoreTag st tag).content_tags := by
      intro hin
      have : tag ∈ getContentTags (insertOrIgnoreTag st tag) cid :=
        (mem_getContentTags _ _ _).mpr ⟨t, ht, hname, hin⟩
      exact hnew tag (by simp) ((getContentTags_insertOrIgnoreTag st tag hwf cid tag).mp this)
    have hc0 : cid ∈ ((insertOrIgnoreTag st tag).content.map fun c => c.id) := by
      rw [hfr.1]; exact hc
    have htid : t.id ∈ ((insertOrIgnoreTag st tag).tags.map fun t => t.id) :=
      List.mem_map_of_mem _ ht
    have hins := insertContentTag_of_fresh _ cid t.id hfresh hc0 htid
    have hwf1 := wf_of_link _ cid t.id hwf0 hfresh hc0 htid
    obtain ⟨st2, h2⟩ := ih _ hwf1 hc0 (List.nodup_cons.mp hnd).2 (by
      intro n hn hmem
      rw [getContentTags_of_link _ cid t hwf0 ht,
        getContentTags_insertOrIgnoreTag st tag hwf] at hmem
      rcases hmem with h | ⟨_, h⟩
      · exact hnew n (by simp [hn]) h
      · rw [hname] at h
        subst h
        exact (List.nodup_cons.mp hnd).1 hn)
    exact ⟨st2, by simp only [linkTags, hsel, hins, h2]⟩

/-! ### `CreateContent` and `GetContent` -/

theorem insertContent_wf (now : GoString) (st : Store) (c : DbContent) (h : st.WF) :
    (insertContent now st c).2.WF := by
  simp only [insertContent]
  refine { h with contentIds := ?_, linkContent := ?_, embeddingContent := ?_ }
  · simp only [List.map_append, List.map_cons, List.map_nil]
    exact List.Nodup.append h.contentIds (List.nodup_singleton _)
      (by simpa [List.Disjoint] using nextId_not_mem (st.content.map fun c => c.id))
  · intro ct hct
    simp only [List.map_append, List.mem_append]
    exact Or.inl (h.linkContent ct hct)
  · intro e he
    simp only [List.map_append, List.mem_append]
    exact Or.inl (h.embeddingContent e he)

theorem getContentTags_of_no_link (st : Store) (cid : Int)
    (h : ∀ ct ∈ st.content_tags, ct.content_id ≠ cid) (n : GoString) :
    n ∉ getContentTags st cid := by
  rw [mem_getContentTags]
  rintro ⟨t, _, _, hct⟩
  exact h _ hct rfl

theorem find?_append_of_fresh (l : List ContentRow) (row : ContentRow)
    (h : row.id ∉ l.map fun c => c.id) :
    (l ++ [row]).find? (fun c => c.id = row.id) = some row := by
  have hnone : l.find? (fun c => decide (c.id = row.id)) = none := by
    rw [List.find?_eq_none]
    intro c hc hid
    exact h (List.mem_map.mpr ⟨c, hc, by simpa using hid⟩)
  rw [List.find?_append, hnone]
  simp

/-- C11: on a well-formed store, creating content with pairwise distinct tag
names `T` succeeds with an identifier that no content row had, and reading
that identifier back returns a record whose tag names are, as a set, exactly
`T` and whose type, title, body, source URL and file path are the submitted
ones. -/
theorem C11_create_then_get (now : GoString) (st : Store) (content : DbContent)
    (hwf : st.WF) (hT : content.Tags.Nodup) :
    ∃ id st2, CreateContent now st content = .ok (id, st2) ∧
      id ∉ (st.content.map fun c => c.id) ∧
      ∃ r, GetContent st2 id = .ok r ∧ r.ID = id ∧
        (∀ t, t ∈ r.Tags ↔ t ∈ content.Tags) ∧
        r.Typ = content.Typ ∧ r.Title = content.Title ∧ r.Body = content.Body ∧
        r.SourceURL = content.SourceURL ∧ r.FilePath = content.FilePath := by
  have hwf1 := insertContent_wf now st content hwf
  have hfresh := nextId_not_mem (st.content.map fun c => c.id)
  have hid : (insertContent now st content).1 ∈
      ((insertContent now st content).2.content.map fun c => c.id) := by
    simp [insertContent]
  have hnolink : ∀ ct ∈ (insertContent now st content).2.content_tags,
      ct.content_id ≠ (insertContent now st content).1 := by
    intro ct hct heq
    have := hwf.linkContent ct hct
    rw [heq] at this
    exact hfresh this
  obtain ⟨st2, hlink⟩ := linkTags_ok (insertContent now st content).1 content.Tags _ hwf1 hid hT
    (fun n _ => getContentTags_of_no_link _ _ hnolink n)
  obtain ⟨_, hcontent, _, htags⟩ := linkTags_spec _ _ _ _ hwf1 hlink
  refine ⟨(insertContent now st content).1, st2, by simp only [CreateContent, hlink], hfresh, ?_⟩
  have hfind : st2.content.find? (fun c => c.id = (insertContent now st content).1)
      = some ⟨nextId (st.content.map fun (c : ContentRow) => c.id), content.Typ, content.Title, content.Body,
          content.SourceURL, content.FilePath, now, now⟩ := by
    rw [hcontent]
    exact find?_append_of_fresh st.content
      ⟨nextId (st.content.map fun (c : ContentRow) => c.id), content.Typ, content.Title, content.Body,
        content.SourceURL, content.FilePath, now, now⟩ hfresh
  refine ⟨toDbContent st2
      ⟨nextId (st.content.map fun (c : ContentRow) => c.id), content.Typ, content.Title, content.Body,
        content.SourceURL, content.FilePath, now, now⟩,
    by simp only [GetContent, hfind], rfl, ?_, rfl, rfl, rfl, rfl, rfl⟩
  intro t
  simp only [toDbContent]
  rw [htags]
  constructor
  · rintro (h | ⟨_, h⟩)
    · exact absurd h (getContentTags_of_no_link _ _ hnolink t)
    · exact h
  · intro h; exact Or.inr ⟨rfl, h⟩

theorem sampleStore_wf : sampleStore.WF := by
  constructor <;> decide

theorem C11_create_then_get_witness :
    ∃ id st2, CreateContent (utf8 "2024-02-01 00:00:00") sampleStore
        (noteWith 0 [tagX, utf8 "w"]) = .ok (id, st2) ∧
      ∃ r, GetContent st2 id = .ok r ∧ ∀ t, t ∈ r.Tags ↔ t ∈ [tagX, utf8 "w"] := by
  obtain ⟨id, st2, h1, _, r, h2, _, h3, _⟩ := C11_create_then_get (utf8 "2024-02-01 00:00:00")
    sampleStore (noteWith 0 [tagX, utf8 "w"]) sampleStore_wf (by decide)
  exact ⟨id, st2, h1, r, h2, h3⟩

/-! ### `UpdateContent` -/

theorem updateContentRow_ids (now : GoString) (st : Store) (content : DbContent) :
    ((updateContentRow now st content).content.map fun c => c.id)
      = st.content.map fun c => c.id := by
  simp only [updateContentRow, List.map_map]
  apply List.map_congr_left
  intro r _
  simp only [Function.comp]
  split <;> rfl

theorem cleared_wf (now : GoString) (st : Store) (content : DbContent) (h : st.WF) :
    (deleteContentTags (updateContentRow now st content) content.ID).WF := by
  have hids := updateContentRow_ids now st content
  refine { h with contentIds := ?_, links := ?_, linkContent := ?_, linkTag := ?_,
                  embeddingContent := ?_ }
  · simp only [deleteContentTags]; rw [hids]; exact h.contentIds
  · exact h.links.filter _
  · intro ct hct
    simp only [deleteContentTags] at hct ⊢
    rw [hids]
    exact h.linkContent ct (List.mem_of_mem_filter hct)
  · intro ct hct
    exact h.linkTag ct (List.mem_of_mem_filter hct)
  · intro e he
    simp only [deleteContentTags]
    rw [hids]
    exact h.embeddingContent e he

theorem cleared_no_link (now : GoString) (st : Store) (content : DbContent) :
    ∀ ct ∈ (deleteContentTags (updateContentRow now st content) content.ID).content_tags,
      ct.content_id ≠ content.ID := by
  intro ct hct
  simpa using (List.mem_filter.mp hct).2

theorem find?_updated (now : GoString) (st : Store) (content : DbContent)
    (hid : content.ID ∈ st.content.map fun c => c.id) :
    ∃ row, (updateContentRow now st content).content.find? (fun c => c.id = content.ID)
        = some row ∧ row.id = content.ID ∧ row.type = content.Typ ∧ row.title = content.Title ∧
      row.body = content.Body ∧ row.source_url = content.SourceURL ∧
      row.file_path = content.FilePath ∧ row.updated_at = now := by
  have hmem : content.ID ∈ (updateContentRow now st content).content.map fun c => c.id := by
    rw [updateContentRow_ids]; exact hid
  cases hf : (updateContentRow now st content).content.find? (fun c => c.id = content.ID) with
  | none =>
    rw [List.find?_eq_none] at hf
    obtain ⟨c, hc, hcid⟩ := List.mem_map.mp hmem
    exact absurd hcid (by simpa using hf c hc)
  | some row =>
    have hrid : row.id = content.ID := by simpa using List.find?_some hf
    have hin := List.mem_of_find?_eq_some hf
    simp only [updateContentRow, List.mem_map] at hin
    obtain ⟨r, _, hr⟩ := hin
    refine ⟨row, rfl, hrid, ?_⟩
    by_cases hrr : r.id = content.ID
    · rw [if_pos hrr] at hr
      subst hr
      exact ⟨rfl, rfl, rfl, rfl, rfl, rfl⟩
    · rw [if_neg hrr] at hr
      subst hr
      exact absurd hrid hrr

/-- C12: on a well-formed store, for an existing content id, `UpdateContent`
with pairwise distinct tags succeeds, and after any successful
`UpdateContent` the record read back by `GetContent` has exactly the
submitted tags as its tag set (whatever the tags were before) and the
submitted type, title, body, source URL and file path. -/
theorem C12_update_replaces_tags (now : GoString) (st : Store) (content : DbContent)
    (hwf : st.WF) (hid : content.ID ∈ st.content.map fun c => c.id) :
    (content.Tags.Nodup → ∃ st2, UpdateContent now st content = .ok st2) ∧
    ∀ st2, UpdateContent now st content = .ok st2 →
      ∃ r, GetContent st2 content.ID = .ok r ∧ r.ID = content.ID ∧
        (∀ t, t ∈ r.Tags ↔ t ∈ content.Tags) ∧
        r.Typ = content.Typ ∧ r.Title = content.Title ∧ r.Body = content.Body ∧
        r.SourceURL = content.SourceURL ∧ r.FilePath = content.FilePath := by
  have hwf1 := cleared_wf now st content hwf
  have hnolink := cleared_no_link now st content
  have hid1 : content.ID ∈
      ((deleteContentTags (updateContentRow now st content) content.ID).content.map
        fun c => c.id) := by
    simp only [deleteContentTags]; rw [updateContentRow_ids]; exact hid
  constructor
  · intro hT
    exact linkTags_ok content.ID content.Tags _ hwf1 hid1 hT
      (fun n _ => getContentTags_of_no_link _ _ hnolink n)
  · intro st2 h
    obtain ⟨_, hcontent, _, htags⟩ := linkTags_spec _ _ _ _ hwf1 h
    obtain ⟨row, hfind, h1, h2, h3, h4, h5, h6, _⟩ := find?_updated now st content hid
    have hfind2 : st2.content.find? (fun c => c.id = content.ID) = some row := by
      rw [hcontent]; exact hfind
    refine ⟨toDbContent st2 row, by simp only [GetContent, hfind2], h1, ?_, h2, h3, h4, h5, h6⟩
    intro t
    simp only [toDbContent, h1]
    rw [htags]
    constructor
    · rintro (h | ⟨_, h⟩)
      · exact absurd h (getContentTags_of_no_link _ _ hnolink t)
      · exact h
    · intro h; exact Or.inr ⟨rfl, h⟩

/-- The example of the specification: create with tags `{a, b}`, update with
`{b, c}`, read back: the tags are `b` and `c`. -/
theorem create_update_get_example :
    (CreateContent (utf8 "2024-02-01 00:00:00") emptyStore
        (noteWith 0 [utf8 "a", utf8 "b"])).bind (fun created =>
      (UpdateContent (utf8 "2024-02-02 00:00:00") created.2
        (noteWith created.1 [utf8 "b", utf8 "c"])).bind (fun st =>
          (GetContent st created.1).map (fun r => r.Tags)))
      = .ok [utf8 "b", utf8 "c"] := by
  decide

theorem C12_update_replaces_tags_witness :
    ∃ st2, UpdateContent (utf8 "2024-02-02 00:00:00") sampleStore (noteWith 2 [tagY, utf8 "w"])
        = .ok st2 ∧
      ∃ r, GetContent st2 2 = .ok r ∧ ∀ t, t ∈ r.Tags ↔ t ∈ [tagY, utf8 "w"] := by
  have h := C12_update_replaces_tags (utf8 "2024-02-02 00:00:00") sampleStore
    (noteWith 2 [tagY, utf8 "w"]) sampleStore_wf (by decide)
  obtain ⟨st2, h1⟩ := h.1 (by decide)
  obtain ⟨r, h2, _, h3, _⟩ := h.2 st2 h1
  exact ⟨st2, h1, r, h2, h3⟩

/-! ### `StoreEmbedding` -/

/-- One successful call of `StoreEmbedding` on a table with distinct
identifiers and at most one row for the key: afterwards the key has exactly
one row, holding the given vector and dimensions under the returned
identifier; the rows of other keys are untouched; and when the key had a row,
its identifier is the one returned. -/
theorem StoreEmbedding_spec (st st2 : Store) (cid : Int) (b : List Nat) (model : GoString)
    (d id : Int)
    (hids : (st.embeddings.map fun e => e.id).Nodup)
    (hkey : (st.embeddings.filter (embeddingKey cid model)).length ≤ 1)
    (h : StoreEmbedding st cid b model d = .ok (id, st2)) :
    st2.embeddings.filter (embeddingKey cid model) = [⟨id, cid, b, model, d⟩] ∧
    st2.embeddings.filter (fun e => !embeddingKey cid model e)
      = st.embeddings.filter (fun e => !embeddingKey cid model e) ∧
    (st2.embeddings.map fun e => e.id).Nodup ∧
    (∀ row ∈ st.embeddings.filter (embeddingKey cid model), row.id = id) ∧
    st2.content = st.content ∧ st2.tags = st.tags ∧ st2.content_tags = st.content_tags := by
  unfold StoreEmbedding at h
  cases hf : st.embeddings.find? (embeddingKey cid model) with
  | some row =>
    simp only [hf, Except.ok.injEq, Prod.mk.injEq] at h
    obtain ⟨hid, hst⟩ := h
    subst hst
    have hrow_mem : row ∈ st.embeddings := List.mem_of_find?_eq_some hf
    have hrow_key : embeddingKey cid model row = true := List.find?_some hf
    have hrow_filter : row ∈ st.embeddings.filter (embeddingKey cid model) :=
      List.mem_filter.mpr ⟨hrow_mem, hrow_key⟩
    have hfilter : st.embeddings.filter (embeddingKey cid model) = [row] := by
      cases hl : st.embeddings.filter (embeddingKey cid model) with
      | nil => rw [hl] at hrow_filter; simp at hrow_filter
      | cons x xs =>
        rw [hl] at hrow_filter hkey
        have hxs : xs = [] := by
          cases xs with
          | nil => rfl
          | cons y ys => simp at hkey
        subst hxs
        simp at hrow_filter
        rw [hrow_filter]
    have hinj := List.inj_on_of_nodup_map hids
    have hkeyf : ∀ e : EmbeddingRow, embeddingKey cid model
        (if e.id = row.id then { e with embedding := b, dimensions := d } else e)
        = embeddingKey cid model e := by
      intro e; split <;> rfl
    have hck : row.content_id = cid ∧ row.model = model := by
      simpa [embeddingKey] using hrow_key
    refine ⟨?_, ?_, ?_, ?_, rfl, rfl, rfl⟩
    · dsimp only
      rw [List.filter_map]
      have : (embeddingKey cid model ∘ fun e : EmbeddingRow =>
          if e.id = row.id then { e with embedding := b, dimensions := d } else e)
          = embeddingKey cid model := funext hkeyf
      rw [this, hfilter]
      simp only [List.map_cons, List.map_nil, if_true]
      rw [← hid]
      cases row
      simp_all
    · dsimp only
      rw [List.filter_map]
      have : ((fun e => !embeddingKey cid model e) ∘ fun e : EmbeddingRow =>
          if e.id = row.id then { e with embedding := b, dimensions := d } else e)
          = fun e => !embeddingKey cid model e := by
        funext e; simp only [Function.comp, hkeyf]
      rw [this]
      conv_rhs => rw [← List.map_id (st.embeddings.filter fun e => !embeddingKey cid model e)]
      apply List.map_congr_left
      intro e he
      obtain ⟨hem, hek⟩ := List.mem_filter.mp he
      have hne : e.id ≠ row.id := by
        intro heq
        have : e = row := hinj hem hrow_mem heq
        subst this
        simp [hrow_key] at hek
      simp [hne]
    · dsimp only
      rw [List.map_map]
      have : ((fun e : EmbeddingRow => e.id) ∘ fun e : EmbeddingRow =>
          if e.id = row.id then { e with embedding := b, dimensions := d } else e)
          = fun e => e.id := by
        funext e; simp only [Function.comp]; split <;> rfl
      rw [this]; exact hids
    · intro r hr
      rw [hfilter] at hr
      have : r = row := by simpa using hr
      rw [this, hid]
  | none =>
    simp only [hf] at h
    split at h
    · simp only [Except.ok.injEq, Prod.mk.injEq] at h
      obtain ⟨hid, hst⟩ := h
      subst hst
      have hnone : ∀ e ∈ st.embeddings, embeddingKey cid model e = false := by
        intro e he
        have := List.find?_eq_none.mp hf e he
        simpa using this
      have hfilter : st.embeddings.filter (embeddingKey cid model) = [] :=
        List.filter_eq_nil_iff.mpr (fun e he => by simp [hnone e he])
      refine ⟨?_, ?_, ?_, ?_, rfl, rfl, rfl⟩
      · dsimp only
        rw [List.filter_append, hfilter, ← hid]
        simp [embeddingKey]
      · dsimp only
        rw [List.filter_append]
        simp [embeddingKey]
      · dsimp only
        simp only [List.map_append, List.map_cons, List.map_nil]
        exact List.Nodup.append hids (List.nodup_singleton _)
          (by simpa [List.Disjoint] using nextId_not_mem (st.embeddings.map fun e => e.id))
      · intro r hr
        rw [hfilter] at hr
        simp at hr
    · cases h


theorem filter_embeddingKey_length (st : Store) (cid : Int) (model : GoString)
    (hkeys : (st.embeddings.map fun e => (e.content_id, e.model)).Nodup) :
    (st.embeddings.filter (embeddingKey cid model)).length ≤ 1 := by
  have hsub : ((st.embeddings.filter (embeddingKey cid model)).map
      fun e => (e.content_id, e.model)).Nodup :=
    hkeys.sublist ((List.filter_sublist _).map _)
  have hall : ∀ e ∈ st.embeddings.filter (embeddingKey cid model),
      (e.content_id, e.model) = (cid, model) := by
    intro e he
    have := (List.mem_filter.mp he).2
    simp only [embeddingKey, Bool.decide_and, Bool.and_eq_true, decide_eq_true_eq] at this
    rw [this.1, this.2]
  cases hl : st.embeddings.filter (embeddingKey cid model) with
  | nil => simp
  | cons x xs =>
    cases xs with
    | nil => simp
    | cons y ys =>
      rw [hl] at hsub hall
      have hx := hall x (by simp)
      have hy := hall y (by simp)
      simp only [List.map_cons, List.nodup_cons, List.mem_cons] at hsub
      exact absurd (Or.inl (hx.trans hy.symm)) hsub.1

/-- C13: on a store whose embedding rows have distinct identifiers and at
most one row per (content id, model) key, after two successive successful
calls of `StoreEmbedding` for the same key the key has exactly one row, that
row holds the vector bytes and the dimensions of the second call under the
identifier the first call returned, the second call returns that same
identifier, and the rows of other keys are the ones the store had. -/
theorem C13_upsert_twice (st st1 st2 : Store) (cid : Int) (b1 b2 : List Nat)
    (model : GoString) (d1 d2 id1 id2 : Int)
    (hids : (st.embeddings.map fun e => e.id).Nodup)
    (hkeys : (st.embeddings.map fun e => (e.content_id, e.model)).Nodup)
    (h1 : StoreEmbedding st cid b1 model d1 = .ok (id1, st1))
    (h2 : StoreEmbedding st1 cid b2 model d2 = .ok (id2, st2)) :
    st2.embeddings.filter (embeddingKey cid model) = [⟨id1, cid, b2, model, d2⟩] ∧
    id2 = id1 ∧
    st2.embeddings.filter (fun e => !embeddingKey cid model e)
      = st.embeddings.filter (fun e => !embeddingKey cid model e) := by
  obtain ⟨hf1, ho1, hids1, _, _⟩ := StoreEmbedding_spec st st1 cid b1 model d1 id1 hids
    (filter_embeddingKey_length st cid model hkeys) h1
  obtain ⟨hf2, ho2, _, hsame, _⟩ := StoreEmbedding_spec st1 st2 cid b2 model d2 id2 hids1
    (by rw [hf1]; simp) h2
  have hid : id1 = id2 := hsame ⟨id1, cid, b1, model, d1⟩ (by rw [hf1]; simp)
  refine ⟨by rw [hf2, hid], hid.symm, ho2.trans ho1⟩

theorem C13_upsert_twice_witness :
    (sampleStoreWith ⟨4, 1, [8, 9], utf8 "m", 2⟩).embeddings.filter (embeddingKey 1 (utf8 "m"))
        = [⟨4, 1, [8, 9], utf8 "m", 2⟩] ∧
    (4 : Int) = 4 ∧
    (sampleStoreWith ⟨4, 1, [8, 9], utf8 "m", 2⟩).embeddings.filter
        (fun e => !embeddingKey 1 (utf8 "m") e)
      = sampleStore.embeddings.filter (fun e => !embeddingKey 1 (utf8 "m") e) :=
  C13_upsert_twice sampleStore (sampleStoreWith ⟨4, 1, [7], utf8 "m", 1⟩)
    (sampleStoreWith ⟨4, 1, [8, 9], utf8 "m", 2⟩) 1 [7] [8, 9] (utf8 "m") 1 2 4 4
    sampleStore_wf.embeddingIds sampleStore_wf.embeddingKeys (by decide) (by decide)

/-! ## C15: the default limit of listing -/

/-- C15 at the failing inputs: `ListContent` hands the limit to SQL `LIMIT` as
it is, so limit `0` lists nothing and limit `-1` lists every row, where limit
`10` lists the ten newest; the handler supplies `10` only when the parameter
is absent from the request (`?limit=0` reaches the repository as `0`). -/
theorem C15_nonpositive_limit_is_not_ten :
    (ListContent (notesStore 12) [] 0 0).map (fun c => c.ID) = [] ∧
    (ListContent (notesStore 12) [] (-1) 0).map (fun c => c.ID)
      = [12, 11, 10, 9, 8, 7, 6, 5, 4, 3, 2, 1] ∧
    (ListContent (notesStore 12) [] 10 0).map (fun c => c.ID)
      = [12, 11, 10, 9, 8, 7, 6, 5, 4, 3] ∧
    ServerListContent (notesStore 12) none (some (utf8 "0")) none = [] ∧
    ServerListContent (notesStore 12) none none none = ListContent (notesStore 12) [] 10 0 := by
  decide

/-- A request without the `limit` parameter is listed with limit `10`. -/
theorem ServerListContent_of_unset_limit (st : Store)
    (typeParam offsetParam : Option GoString) :
    ServerListContent st typeParam none offsetParam
      = ListContent st (typeParam.getD []) 10 (atoiValue (offsetParam.getD (utf8 "0"))) := by
  have h : atoiValue (utf8 "10") = 10 := by decide
  simp only [ServerListContent, Option.getD_none, h]

/-- The repository lists with the limit it is given: a non-negative limit
keeps that many rows after the offset, a negative one keeps them all. -/
theorem ListContent_length (st : Store) (limit offset : Int) :
    (ListContent st [] limit offset).length
      = if limit < 0 then st.content.length - offset.toNat
        else min limit.toNat (st.content.length - offset.toNat) := by
  simp only [ListContent, ne_eq, not_true_eq_false, if_false, List.length_map, sqlLimitOffset,
    orderByCreatedAtDesc]
  split
  · simp [List.length_insertionSort]
  · simp [List.length_insertionSort]

/-! ## IEEE-754 rounding: the error of one operation -/

theorem log2Loop_spec : ∀ (fuel n : Nat), 1 ≤ n → n ≤ fuel →
    2 ^ log2Loop fuel n ≤ n ∧ n < 2 ^ (log2Loop fuel n + 1) := by
  intro fuel
  induction fuel with
  | zero => intro n h1 h2; omega
  | succ fuel ih =>
    intro n h1 h2
    simp only [log2Loop]
    split
    · rename_i h
      obtain ⟨ih1, ih2⟩ := ih (n / 2) (by omega) (by omega)
      constructor
      · rw [pow_succ]; omega
      · rw [pow_succ]; omega
    · have : n = 1 := by omega
      subst this
      simp

theorem natLog2_spec (n : Nat) (h : 1 ≤ n) :
    2 ^ natLog2 n ≤ n ∧ n < 2 ^ (natLog2 n + 1) :=
  log2Loop_spec n n h (Nat.le_refl n)

theorem sqrtLoop_spec (n : Nat) : ∀ (i r : Nat), r * r ≤ n → n < (r + 2 ^ i) * (r + 2 ^ i) →
    sqrtLoop n i r * sqrtLoop n i r ≤ n ∧ n < (sqrtLoop n i r + 1) * (sqrtLoop n i r + 1) := by
  intro i
  induction i with
  | zero => intro r h1 h2; simpa [sqrtLoop] using ⟨h1, h2⟩
  | succ i ih =>
    intro r h1 h2
    simp only [sqrtLoop]
    split
    · rename_i h
      apply ih _ h
      have : r + 2 ^ i + 2 ^ i = r + 2 ^ (i + 1) := by rw [pow_succ]; omega
      rw [this]; exact h2
    · rename_i h
      exact ih _ h1 (by omega)

theorem natSqrt_spec (n : Nat) :
    natSqrt n * natSqrt n ≤ n ∧ n < (natSqrt n + 1) * (natSqrt n + 1) := by
  unfold natSqrt
  apply sqrtLoop_spec
  · simp
  · simp only [Nat.zero_add]
    rcases Nat.eq_zero_or_pos n with h | h
    · subst h; positivity
    · have h1 := (natLog2_spec n h).2
      have h2 : natLog2 n + 1 ≤ (natLog2 n / 2 + 1) + (natLog2 n / 2 + 1) := by omega
      calc n < 2 ^ (natLog2 n + 1) := h1
        _ ≤ 2 ^ ((natLog2 n / 2 + 1) + (natLog2 n / 2 + 1)) := Nat.pow_le_pow_right (by decide) h2
        _ = 2 ^ (natLog2 n / 2 + 1) * 2 ^ (natLog2 n / 2 + 1) := by rw [pow_add]

theorem twoPow_eq (t : Int) : twoPow t = (2 : ℚ) ^ t := by
  unfold twoPow
  split
  · rename_i h
    obtain ⟨k, rfl⟩ := Int.eq_ofNat_of_zero_le h
    simp
  · rename_i h
    obtain ⟨k, hk⟩ := Int.exists_eq_neg_ofNat (le_of_lt (not_le.mp h))
    subst hk
    simp

theorem twoPow_pos (t : Int) : 0 < twoPow t := by
  rw [twoPow_eq]; positivity

theorem twoPow_add (a b : Int) : twoPow (a + b) = twoPow a * twoPow b := by
  simp only [twoPow_eq]
  exact zpow_add₀ (by norm_num) a b

theorem twoPow_le {a b : Int} (h : a ≤ b) : twoPow a ≤ twoPow b := by
  simp only [twoPow_eq]
  exact zpow_le_zpow_right₀ (by norm_num) h

theorem twoPow_lt_iff {a b : Int} : twoPow a < twoPow b ↔ a < b := by
  simp only [twoPow_eq]
  exact zpow_lt_zpow_iff_right₀ (by norm_num)

theorem twoPow_natCast (k : Nat) : twoPow (k : Int) = ((2 ^ k : Nat) : ℚ) := by
  rw [twoPow_eq]; simp

theorem powLe_iff (c : Int) (N D : Nat) (hD : 0 < D) :
    powLe c N D = true ↔ twoPow c ≤ (N : ℚ) / D := by
  have hD' : (0 : ℚ) < D := by exact_mod_cast hD
  unfold powLe
  split
  · rename_i h
    obtain ⟨k, rfl⟩ := Int.eq_ofNat_of_zero_le h
    rw [twoPow_natCast, le_div_iff₀ hD', decide_eq_true_iff]
    simp only [Int.toNat_ofNat]
    constructor
    · intro h1; rw [mul_comm]; exact_mod_cast h1
    · intro h1; rw [mul_comm] at h1; exact_mod_cast h1
  · rename_i h
    obtain ⟨k, hk⟩ := Int.exists_eq_neg_ofNat (le_of_lt (not_le.mp h))
    subst hk
    have h2 : twoPow (-(k : Int)) = 1 / ((2 ^ k : Nat) : ℚ) := by
      rw [twoPow_eq]; simp
    have hp : (0 : ℚ) < ((2 ^ k : Nat) : ℚ) := by positivity
    rw [h2, decide_eq_true_iff, div_le_div_iff₀ hp hD']
    simp only [neg_neg, Int.toNat_ofNat, one_mul]
    constructor
    · intro h1; exact_mod_cast h1
    · intro h1; exact_mod_cast h1

/-- The binary exponent `e` of a positive fraction: `2 ^ e ≤ N / D < 2 ^ (e + 1)`. -/
theorem floorLog2_spec (N D : Nat) (hN : 0 < N) (hD : 0 < D) :
    twoPow (floorLog2 N D) ≤ (N : ℚ) / D ∧ (N : ℚ) / D < twoPow (floorLog2 N D + 1) := by
  have hD' : (0 : ℚ) < D := by exact_mod_cast hD
  obtain ⟨hN1, hN2⟩ := natLog2_spec N hN
  obtain ⟨hD1, hD2⟩ := natLog2_spec D hD
  have hN1' : twoPow (natLog2 N : Int) ≤ (N : ℚ) := by rw [twoPow_natCast]; exact_mod_cast hN1
  have hN2' : (N : ℚ) < twoPow ((natLog2 N : Int) + 1) := by
    have : ((natLog2 N : Int) + 1) = ((natLog2 N + 1 : Nat) : Int) := by push_cast; ring
    rw [this, twoPow_natCast]; exact_mod_cast hN2
  have hD1' : twoPow (natLog2 D : Int) ≤ (D : ℚ) := by rw [twoPow_natCast]; exact_mod_cast hD1
  have hD2' : (D : ℚ) < twoPow ((natLog2 D : Int) + 1) := by
    have : ((natLog2 D : Int) + 1) = ((natLog2 D + 1 : Nat) : Int) := by push_cast; ring
    rw [this, twoPow_natCast]; exact_mod_cast hD2
  have hup : (N : ℚ) / D < twoPow ((natLog2 N : Int) - (natLog2 D : Int) + 1) := by
    rw [div_lt_iff₀ hD']
    calc (N : ℚ) < twoPow ((natLog2 N : Int) + 1) := hN2'
      _ = twoPow ((natLog2 N : Int) - (natLog2 D : Int) + 1) * twoPow (natLog2 D : Int) := by
          rw [← twoPow_add]; congr 1; ring
      _ ≤ twoPow ((natLog2 N : Int) - (natLog2 D : Int) + 1) * D :=
          mul_le_mul_of_nonneg_left hD1' (le_of_lt (twoPow_pos _))
  have hlo : twoPow ((natLog2 N : Int) - (natLog2 D : Int) - 1) ≤ (N : ℚ) / D := by
    rw [le_div_iff₀ hD']
    calc twoPow ((natLog2 N : Int) - (natLog2 D : Int) - 1) * D
        ≤ twoPow ((natLog2 N : Int) - (natLog2 D : Int) - 1) * twoPow ((natLog2 D : Int) + 1) :=
          mul_le_mul_of_nonneg_left (le_of_lt hD2') (le_of_lt (twoPow_pos _))
      _ = twoPow (natLog2 N : Int) := by rw [← twoPow_add]; congr 1; ring
      _ ≤ N := hN1'
  unfold floorLog2
  simp only
  split
  · rename_i h
    exact ⟨(powLe_iff _ N D hD).mp h, hup⟩
  · rename_i h
    have h2 : ¬ twoPow ((natLog2 N : Int) - (natLog2 D : Int)) ≤ (N : ℚ) / D :=
      fun h3 => h ((powLe_iff _ N D hD).mpr h3)
    refine ⟨hlo, ?_⟩
    have : (natLog2 N : Int) - (natLog2 D : Int) - 1 + 1 = (natLog2 N : Int) - (natLog2 D : Int) := by
      ring
    rw [this]
    exact not_le.mp h2

/-- The integer that `roundHalfEven` gives is within one half of the
fraction. -/
theorem roundHalfEven_spec (X Y : Nat) (hY : 0 < Y) :
    2 * X ≤ 2 * (roundHalfEven X Y * Y) + Y ∧ 2 * (roundHalfEven X Y * Y) ≤ 2 * X + Y := by
  have h1 := Nat.div_add_mod X Y
  have h2 := Nat.mod_lt X hY
  have h3 : (X / Y + 1) * Y = Y * (X / Y) + Y := by ring
  have h4 : X / Y * Y = Y * (X / Y) := by ring
  unfold roundHalfEven
  simp only
  split_ifs <;> (try rw [h3]) <;> (try rw [h4]) <;> omega

theorem roundHalfEven_spec_rat (X Y : Nat) (hY : 0 < Y) :
    (X : ℚ) / Y - 1 / 2 ≤ roundHalfEven X Y ∧ (roundHalfEven X Y : ℚ) ≤ (X : ℚ) / Y + 1 / 2 := by
  obtain ⟨h1, h2⟩ := roundHalfEven_spec X Y hY
  have hY' : (0 : ℚ) < Y := by exact_mod_cast hY
  have h1' : (2 : ℚ) * X ≤ 2 * (roundHalfEven X Y * Y) + Y := by exact_mod_cast h1
  have h2' : (2 : ℚ) * (roundHalfEven X Y * Y) ≤ 2 * X + Y := by exact_mod_cast h2
  constructor
  · rw [sub_le_iff_le_add, div_le_iff₀ hY']
    nlinarith
  · have : (X : ℚ) / Y + 1 / 2 = (2 * X + Y) / (2 * Y) := by field_simp; ring
    rw [this, le_div_iff₀ (by positivity)]
    nlinarith

theorem rat_natAbs_div_den (q : ℚ) (hq : 0 < q) :
    0 < q.num.natAbs ∧ 0 < q.den ∧ ((q.num.natAbs : ℚ) / (q.den : ℚ)) = q := by
  have hnum : 0 < q.num := Rat.num_pos.mpr hq
  refine ⟨Int.natAbs_pos.mpr (ne_of_gt hnum), q.den_pos, ?_⟩
  have h1 : ((q.num.natAbs : ℕ) : ℤ) = q.num := Int.natAbs_of_nonneg (le_of_lt hnum)
  rw [← Int.cast_natCast, h1]
  exact Rat.num_div_den q

/-- The integer chosen for the magnitude `N / D` at the unit `2 ^ t` is
within one half of `(N / D) / 2 ^ t`. -/
theorem round_scaled_spec (N D : Nat) (hD : 0 < D) (t : Int) :
    ((N : ℚ) / D) / twoPow t - 1 / 2
        ≤ ((if 0 ≤ t then roundHalfEven N (D * 2 ^ t.toNat)
            else roundHalfEven (N * 2 ^ (-t).toNat) D : Nat) : ℚ) ∧
    (((if 0 ≤ t then roundHalfEven N (D * 2 ^ t.toNat)
            else roundHalfEven (N * 2 ^ (-t).toNat) D : Nat) : ℚ))
        ≤ ((N : ℚ) / D) / twoPow t + 1 / 2 := by
  have hD' : (0 : ℚ) < D := by exact_mod_cast hD
  split
  · rename_i h
    obtain ⟨k, rfl⟩ := Int.eq_ofNat_of_zero_le h
    have hY : 0 < D * 2 ^ k := Nat.mul_pos hD (by positivity)
    have e : ((N : ℚ) / D) / twoPow (k : Int) = (N : ℚ) / ((D * 2 ^ k : Nat) : ℚ) := by
      rw [twoPow_natCast]; push_cast; rw [div_div]
    rw [e]
    simp only [Int.toNat_ofNat]
    exact roundHalfEven_spec_rat N (D * 2 ^ k) hY
  · rename_i h
    obtain ⟨k, hk⟩ := Int.exists_eq_neg_ofNat (le_of_lt (not_le.mp h))
    subst hk
    have e : ((N : ℚ) / D) / twoPow (-(k : Int)) = ((N * 2 ^ k : Nat) : ℚ) / (D : ℚ) := by
      rw [twoPow_eq]; push_cast
      rw [zpow_neg, zpow_natCast]
      field_simp
    rw [e]
    simp only [neg_neg, Int.toNat_ofNat]
    exact roundHalfEven_spec_rat (N * 2 ^ k) D hD

/-- The standard model of `float64` rounding, away from overflow and
underflow: a positive real between `2 ^ -1022` and `2 ^ 1023` is rounded to a
finite value with a relative error of at most `2 ^ -53`. -/
theorem roundTo_binary64_spec (q : ℚ) (hq : 0 < q) (hlo : twoPow (-1022) ≤ q)
    (hhi : q ≤ twoPow 1023) :
    ∃ q', roundTo binary64 q = .finite q' ∧
      q * (1 - 1 / 2 ^ 53) ≤ q' ∧ q' ≤ q * (1 + 1 / 2 ^ 53) := by
  obtain ⟨hN, hD, hND⟩ := rat_natAbs_div_den q hq
  obtain ⟨he1, he2⟩ := floorLog2_spec _ _ hN hD
  rw [hND] at he1 he2
  have he0 : (-1022 : Int) ≤ floorLog2 q.num.natAbs q.den := by
    have : twoPow (-1022) < twoPow (floorLog2 q.num.natAbs q.den + 1) := lt_of_le_of_lt hlo he2
    have := twoPow_lt_iff.mp this
    omega
  obtain ⟨hr1, hr2⟩ := round_scaled_spec q.num.natAbs q.den hD
    (floorLog2 q.num.natAbs q.den - 52)
  rw [hND] at hr1 hr2
  have hne : q ≠ 0 := ne_of_gt hq
  have hneg : ¬ q < 0 := not_lt.mpr (le_of_lt hq)
  have hmax : max (floorLog2 q.num.natAbs q.den) (-1022) = floorLog2 q.num.natAbs q.den :=
    max_eq_left he0
  unfold roundTo
  simp only [hne, if_false, binary64, hmax, Nat.cast_ofNat, packFloat, hneg]
  have h53 : ((53 : Int) - 1) = 52 := by norm_num
  simp only [h53]
  generalize ((if 0 ≤ floorLog2 q.num.natAbs q.den - 52
      then roundHalfEven q.num.natAbs (q.den * 2 ^ (floorLog2 q.num.natAbs q.den - 52).toNat)
      else roundHalfEven (q.num.natAbs * 2 ^ (-(floorLog2 q.num.natAbs q.den - 52)).toNat) q.den
      : Nat)) = n at hr1 hr2 ⊢
  generalize floorLog2 q.num.natAbs q.den = e at *
  have ht : twoPow (e - 52) = twoPow e * (1 / 2 ^ 52) := by
    have : e - 52 = e + (-52) := by ring
    have h52 : twoPow (-52) = 1 / 2 ^ 52 := by rw [twoPow_eq]; norm_num
    rw [this, twoPow_add, h52]
  have htp := twoPow_pos (e - 52)
  have hte := twoPow_pos e
  -- the magnitude is within half a unit in the last place of `q`
  have hm1 : q - twoPow (e - 52) / 2 ≤ (n : ℚ) * twoPow (e - 52) := by
    have := mul_le_mul_of_nonneg_right hr1 (le_of_lt htp)
    have e1 : (q / twoPow (e - 52) - 1 / 2) * twoPow (e - 52) = q - twoPow (e - 52) / 2 := by
      field_simp
      ring
    linarith
  have hm2 : (n : ℚ) * twoPow (e - 52) ≤ q + twoPow (e - 52) / 2 := by
    have := mul_le_mul_of_nonneg_right hr2 (le_of_lt htp)
    have e1 : (q / twoPow (e - 52) + 1 / 2) * twoPow (e - 52) = q + twoPow (e - 52) / 2 := by
      field_simp
      ring
    linarith
  have hu : twoPow (e - 52) / 2 ≤ q * (1 / 2 ^ 53) := by
    rw [ht]
    have : twoPow e * (1 / 2 ^ 52) / 2 = twoPow e * (1 / 2 ^ 53) := by ring
    rw [this]
    exact mul_le_mul_of_nonneg_right he1 (by positivity)
  have hover : ¬ twoPow (1023 + 1) ≤ (n : ℚ) * twoPow (e - 52) := by
    have h1 : twoPow (1023 + 1) = 2 * twoPow 1023 := by
      have h21 : twoPow 1 = 2 := by rw [twoPow_eq]; norm_num
      rw [twoPow_add, h21, mul_comm]
    rw [h1, not_le]
    have h2 : q * (1 / 2 ^ 53) ≤ q := by
      have : (1 : ℚ) / 2 ^ 53 ≤ 1 := by norm_num
      nlinarith
    linarith
  simp only [hover, if_false]
  exact ⟨_, rfl, by linarith, by linarith⟩

/-- The integer root of a fraction lies between the squares around it. -/
theorem natSqrt_div_spec (X Y : Nat) (hY : 0 < Y) :
    ((natSqrt (X / Y) : ℚ)) ^ 2 ≤ (X : ℚ) / Y ∧
      (X : ℚ) / Y < ((natSqrt (X / Y) : ℚ) + 1) ^ 2 := by
  obtain ⟨h1, h2⟩ := natSqrt_spec (X / Y)
  have hY' : (0 : ℚ) < Y := by exact_mod_cast hY
  have h1' : natSqrt (X / Y) * natSqrt (X / Y) * Y ≤ X := (Nat.le_div_iff_mul_le hY).mp h1
  have h2' : X < (natSqrt (X / Y) + 1) * (natSqrt (X / Y) + 1) * Y :=
    (Nat.div_lt_iff_lt_mul hY).mp h2
  constructor
  · rw [le_div_iff₀ hY']
    have : ((natSqrt (X / Y) * natSqrt (X / Y) * Y : Nat) : ℚ) ≤ (X : ℚ) := by exact_mod_cast h1'
    push_cast at this
    nlinarith
  · rw [div_lt_iff₀ hY']
    have : (X : ℚ) < (((natSqrt (X / Y) + 1) * (natSqrt (X / Y) + 1) * Y : Nat) : ℚ) := by
      exact_mod_cast h2'
    push_cast at this
    nlinarith

/-- The integer chosen for the root of `X / Y` is within one half of the
root: the fraction lies between the squares of `n - 1/2` and `n + 1/2`. -/
theorem sqrt_choice_spec (X Y f : Nat) (hY : 0 < Y) (hf : 1 ≤ f)
    (h1 : (f : ℚ) ^ 2 ≤ (X : ℚ) / Y) (h2 : (X : ℚ) / Y < ((f : ℚ) + 1) ^ 2) :
    f ≤ (if 4 * X < (2 * f + 1) ^ 2 * Y then f
          else if (2 * f + 1) ^ 2 * Y < 4 * X then f + 1
          else if f % 2 = 0 then f else f + 1) ∧
    (((if 4 * X < (2 * f + 1) ^ 2 * Y then f
          else if (2 * f + 1) ^ 2 * Y < 4 * X then f + 1
          else if f % 2 = 0 then f else f + 1 : Nat) : ℚ) - 1 / 2) ^ 2 ≤ (X : ℚ) / Y ∧
    (X : ℚ) / Y ≤ (((if 4 * X < (2 * f + 1) ^ 2 * Y then f
          else if (2 * f + 1) ^ 2 * Y < 4 * X then f + 1
          else if f % 2 = 0 then f else f + 1 : Nat) : ℚ) + 1 / 2) ^ 2 := by
  have hY' : (0 : ℚ) < Y := by exact_mod_cast hY
  have hf' : (1 : ℚ) ≤ f := by exact_mod_cast hf
  rw [le_div_iff₀ hY'] at h1
  rw [div_lt_iff₀ hY'] at h2
  have key : ∀ a b : Nat, a < b ↔ (a : ℚ) < b := fun a b => Nat.cast_lt.symm
  split_ifs with c1 c2 c3
  · have c1' := (key _ _).mp c1
    push_cast at c1'
    refine ⟨le_refl _, ?_, ?_⟩
    · rw [le_div_iff₀ hY']; nlinarith
    · rw [div_le_iff₀ hY']; nlinarith
  · have c2' := (key _ _).mp c2
    push_cast at c2'
    refine ⟨Nat.le_succ _, ?_, ?_⟩
    · rw [le_div_iff₀ hY']; push_cast; nlinarith
    · rw [div_le_iff₀ hY']; push_cast; nlinarith
  · have c1' : ((2 * f + 1) ^ 2 * Y : ℚ) ≤ 4 * X := by
      have := not_lt.mp c1
      exact_mod_cast this
    have c2' : (4 * X : ℚ) ≤ (2 * f + 1) ^ 2 * Y := by
      have := not_lt.mp c2
      exact_mod_cast this
    refine ⟨le_refl _, ?_, ?_⟩
    · rw [le_div_iff₀ hY']; nlinarith
    · rw [div_le_iff₀ hY']; nlinarith
  · have c1' : ((2 * f + 1) ^ 2 * Y : ℚ) ≤ 4 * X := by
      have := not_lt.mp c1
      exact_mod_cast this
    have c2' : (4 * X : ℚ) ≤ (2 * f + 1) ^ 2 * Y := by
      have := not_lt.mp c2
      exact_mod_cast this
    refine ⟨Nat.le_succ _, ?_, ?_⟩
    · rw [le_div_iff₀ hY']; push_cast; nlinarith
    · rw [div_le_iff₀ hY']; push_cast; nlinarith

/-- The fraction whose root is rounded is `q / 4 ^ t`. -/
theorem sqrt_scaled_eq (N D : Nat) (hD : 0 < D) (t : Int) :
    0 < (if 0 ≤ t then D * 4 ^ t.toNat else D) ∧
    (((if 0 ≤ t then N else N * 4 ^ (-t).toNat : Nat) : ℚ)
      / ((if 0 ≤ t then D * 4 ^ t.toNat else D : Nat) : ℚ))
      = ((N : ℚ) / D) / (twoPow t) ^ 2 := by
  have hD' : (0 : ℚ) < D := by exact_mod_cast hD
  split
  · rename_i h
    obtain ⟨k, rfl⟩ := Int.eq_ofNat_of_zero_le h
    refine ⟨Nat.mul_pos hD (by positivity), ?_⟩
    rw [twoPow_natCast]
    simp only [Int.toNat_ofNat]
    push_cast
    have : (4 : ℚ) ^ k = (2 ^ k) ^ 2 := by rw [← pow_mul, mul_comm, pow_mul]; norm_num
    rw [this, div_div]
  · rename_i h
    obtain ⟨k, hk⟩ := Int.exists_eq_neg_ofNat (le_of_lt (not_le.mp h))
    subst hk
    refine ⟨hD, ?_⟩
    rw [twoPow_eq]
    simp only [neg_neg, Int.toNat_ofNat]
    push_cast
    have : (4 : ℚ) ^ k = (2 ^ k) ^ 2 := by rw [← pow_mul, mul_comm, pow_mul]; norm_num
    rw [this, zpow_neg, zpow_natCast]
    field_simp

theorem twoPow_le_iff {a b : Int} : twoPow a ≤ twoPow b ↔ a ≤ b := by
  constructor
  · intro h
    by_contra hc
    exact absurd (twoPow_lt_iff.mpr (not_le.mp hc)) (not_lt.mpr h)
  · exact twoPow_le

theorem twoPow_sq (t : Int) : (twoPow t) ^ 2 = twoPow (2 * t) := by
  rw [two_mul, twoPow_add, sq]

/-- The correctly rounded square root of a positive real between `2 ^ -1000`
and `2 ^ 1000` is a positive finite value `r` with a relative error of at
most `2 ^ -53`: the real lies between the squares of `r (1 - 2 ^ -53)` and
`r (1 + 2 ^ -53)`. -/
theorem sqrtTo_binary64_spec (s : ℚ) (hs : 0 < s) (hlo : twoPow (-1000) ≤ s)
    (hhi : s ≤ twoPow 1000) :
    ∃ r, sqrtTo binary64 s = .finite r ∧ 0 < r ∧
      r ^ 2 * (1 - 1 / 2 ^ 53) ^ 2 ≤ s ∧ s ≤ r ^ 2 * (1 + 1 / 2 ^ 53) ^ 2 := by
  obtain ⟨hN, hD, hND⟩ := rat_natAbs_div_den s hs
  obtain ⟨he1, he2⟩ := floorLog2_spec _ _ hN hD
  rw [hND] at he1 he2
  have hea1 : (-1000 : Int) ≤ floorLog2 s.num.natAbs s.den := by
    have := twoPow_lt_iff.mp (lt_of_le_of_lt hlo he2)
    omega
  have hea2 : floorLog2 s.num.natAbs s.den ≤ 1000 := twoPow_le_iff.mp (le_trans he1 hhi)
  have hmax : max (floorLog2 s.num.natAbs s.den / 2) (-1022)
      = floorLog2 s.num.natAbs s.den / 2 := max_eq_left (by omega)
  obtain ⟨hY, hXY⟩ := sqrt_scaled_eq s.num.natAbs s.den hD (floorLog2 s.num.natAbs s.den / 2 - 52)
  rw [hND] at hXY
  have hneg : ¬ s < 0 := not_lt.mpr (le_of_lt hs)
  have h53 : ((53 : Int) - 1) = 52 := by norm_num
  unfold sqrtTo
  simp only [binary64, hmax, Nat.cast_ofNat, packFloat, hneg, h53, if_false]
  generalize floorLog2 s.num.natAbs s.den = ea at *
  generalize (if 0 ≤ ea / 2 - 52 then s.num.natAbs else s.num.natAbs * 4 ^ (-(ea / 2 - 52)).toNat)
    = X at *
  generalize (if 0 ≤ ea / 2 - 52 then s.den * 4 ^ (ea / 2 - 52).toNat else s.den) = Y at *
  obtain ⟨hf1, hf2⟩ := natSqrt_div_spec X Y hY
  have hw := twoPow_pos (ea / 2 - 52)
  have hw2 : (0 : ℚ) < (twoPow (ea / 2 - 52)) ^ 2 := by positivity
  -- the scaled fraction is at least `2 ^ 104`
  have hrho : twoPow 104 ≤ (X : ℚ) / Y := by
    rw [hXY, le_div_iff₀ hw2, twoPow_sq, ← twoPow_add]
    exact le_trans (twoPow_le (by omega)) he1
  have h104 : twoPow 104 = ((2 : ℚ) ^ 52) ^ 2 := by rw [twoPow_eq]; norm_num
  -- hence the integer root is at least `2 ^ 52`
  have hfge : 2 ^ 52 ≤ natSqrt (X / Y) := by
    have h1 : ((2 : ℚ) ^ 52) ^ 2 < ((natSqrt (X / Y) : ℚ) + 1) ^ 2 := by
      rw [← h104]; exact lt_of_le_of_lt hrho hf2
    have h2 : (2 : ℚ) ^ 52 < (natSqrt (X / Y) : ℚ) + 1 := by
      by_contra hc
      have hc' := not_lt.mp hc
      have h0 : (0 : ℚ) ≤ (natSqrt (X / Y) : ℚ) + 1 := by positivity
      have := pow_le_pow_left₀ h0 hc' 2
      linarith
    have h3 : (2 ^ 52 : Nat) < natSqrt (X / Y) + 1 := by exact_mod_cast h2
    omega
  obtain ⟨hn0, hn1, hn2⟩ := sqrt_choice_spec X Y (natSqrt (X / Y)) hY
    (le_trans (by norm_num) hfge) hf1 hf2
  generalize (if 4 * X < (2 * natSqrt (X / Y) + 1) ^ 2 * Y then natSqrt (X / Y)
      else if (2 * natSqrt (X / Y) + 1) ^ 2 * Y < 4 * X then natSqrt (X / Y) + 1
      else if natSqrt (X / Y) % 2 = 0 then natSqrt (X / Y) else natSqrt (X / Y) + 1) = n at *
  have hn : (2 : ℚ) ^ 52 ≤ (n : ℚ) := by
    have : (2 ^ 52 : Nat) ≤ n := le_trans hfge hn0
    exact_mod_cast this
  rw [hXY] at hn1 hn2
  rw [le_div_iff₀ hw2] at hn1
  rw [div_le_iff₀ hw2] at hn2
  -- relative bounds
  have hu1 : (n : ℚ) * (1 - 1 / 2 ^ 53) ≤ (n : ℚ) - 1 / 2 := by
    have : (n : ℚ) * (1 / 2 ^ 53) ≥ 1 / 2 := by
      have : (2 : ℚ) ^ 52 * (1 / 2 ^ 53) = 1 / 2 := by norm_num
      nlinarith
    linarith
  have hu2 : (n : ℚ) + 1 / 2 ≤ (n : ℚ) * (1 + 1 / 2 ^ 53) := by
    have : (n : ℚ) * (1 / 2 ^ 53) ≥ 1 / 2 := by
      have : (2 : ℚ) ^ 52 * (1 / 2 ^ 53) = 1 / 2 := by norm_num
      nlinarith
    linarith
  have hn_pos : (0 : ℚ) < n := lt_of_lt_of_le (by positivity) hn
  have hu0 : (0 : ℚ) ≤ (n : ℚ) * (1 - 1 / 2 ^ 53) := by
    apply mul_nonneg (le_of_lt hn_pos); norm_num
  have hlow : ((n : ℚ) * twoPow (ea / 2 - 52)) ^ 2 * (1 - 1 / 2 ^ 53) ^ 2 ≤ s := by
    have h1 := pow_le_pow_left₀ hu0 hu1 2
    have h2 := mul_le_mul_of_nonneg_right h1 (le_of_lt hw2)
    calc ((n : ℚ) * twoPow (ea / 2 - 52)) ^ 2 * (1 - 1 / 2 ^ 53) ^ 2
        = ((n : ℚ) * (1 - 1 / 2 ^ 53)) ^ 2 * twoPow (ea / 2 - 52) ^ 2 := by ring
      _ ≤ ((n : ℚ) - 1 / 2) ^ 2 * twoPow (ea / 2 - 52) ^ 2 := h2
      _ ≤ s := hn1
  have hupp : s ≤ ((n : ℚ) * twoPow (ea / 2 - 52)) ^ 2 * (1 + 1 / 2 ^ 53) ^ 2 := by
    have h0 : (0 : ℚ) ≤ (n : ℚ) + 1 / 2 := by positivity
    have h1 := pow_le_pow_left₀ h0 hu2 2
    have h2 := mul_le_mul_of_nonneg_right h1 (le_of_lt hw2)
    calc s ≤ ((n : ℚ) + 1 / 2) ^ 2 * twoPow (ea / 2 - 52) ^ 2 := hn2
      _ ≤ ((n : ℚ) * (1 + 1 / 2 ^ 53)) ^ 2 * twoPow (ea / 2 - 52) ^ 2 := h2
      _ = ((n : ℚ) * twoPow (ea / 2 - 52)) ^ 2 * (1 + 1 / 2 ^ 53) ^ 2 := by ring
  have hrpos : (0 : ℚ) < (n : ℚ) * twoPow (ea / 2 - 52) := mul_pos hn_pos hw
  -- no overflow
  have hover : ¬ twoPow (1023 + 1) ≤ (n : ℚ) * twoPow (ea / 2 - 52) := by
    intro hc
    have h1 : twoPow (1023 + 1) ^ 2 ≤ ((n : ℚ) * twoPow (ea / 2 - 52)) ^ 2 :=
      pow_le_pow_left₀ (le_of_lt (twoPow_pos _)) hc 2
    have h2 : (1 : ℚ) / 4 ≤ (1 - 1 / 2 ^ 53) ^ 2 := by norm_num
    have h3 : twoPow (1023 + 1) ^ 2 * (1 / 4) ≤ twoPow 1000 := by
      calc twoPow (1023 + 1) ^ 2 * (1 / 4)
          ≤ ((n : ℚ) * twoPow (ea / 2 - 52)) ^ 2 * (1 - 1 / 2 ^ 53) ^ 2 :=
            mul_le_mul h1 h2 (by norm_num) (by positivity)
        _ ≤ s := hlow
        _ ≤ twoPow 1000 := hhi
    have h4 : twoPow (1023 + 1) ^ 2 * (1 / 4) = twoPow 2046 := by
      have h5 : (1 : ℚ) / 4 = twoPow (-2) := by rw [twoPow_eq]; norm_num
      rw [twoPow_sq, h5, ← twoPow_add]
      norm_num
    rw [h4] at h3
    have := twoPow_le_iff.mp h3
    omega
  simp only [hover, if_false]
  exact ⟨_, rfl, hrpos, hlow, hupp⟩


/-! ## C7: the similarity of a vector with itself -/

/-- For a vector and itself the three accumulators of `cosineSimilarity`
hold the same value. -/
theorem cosineLoop_self (rt : GoRuntime) : ∀ (v : List GoFloat) (x : GoFloat),
    (cosineLoop rt v v (x, x, x)).2.1 = (cosineLoop rt v v (x, x, x)).1 ∧
    (cosineLoop rt v v (x, x, x)).2.2 = (cosineLoop rt v v (x, x, x)).1 := by
  intro v
  induction v with
  | nil => intro x; exact ⟨rfl, rfl⟩
  | cons y v ih => intro x; simp only [cosineLoop]; exact ih _

theorem ieeeRuntime_zeroLaws : ieeeRuntime.ZeroLaws :=
  ⟨by simp [ieeeRuntime, GoFloat.mulExact, GoFloat.round, roundTo],
   by simp [ieeeRuntime, GoFloat.addExact, GoFloat.round, roundTo],
   by simp [ieeeRuntime, GoFloat.sqrt64]⟩

/-- In IEEE-754 arithmetic the quotient of a squared norm `s` by the square
of its rounded root is within `2 ^ -50` of `1`, when `s` is between
`2 ^ -1000` and `2 ^ 1000`: three roundings, of the root, of its square and of
the quotient, each with a relative error of at most `2 ^ -53`. -/
theorem ieee_self_quotient (s : ℚ) (hlo' : twoPow (-1000) ≤ s) (hhi' : s ≤ twoPow 1000) :
    ∃ r c, ieeeRuntime.sqrt (.finite s) = .finite r ∧ r ≠ 0 ∧
      ieeeRuntime.div (.finite s) (ieeeRuntime.mul (.finite r) (.finite r)) = .finite c ∧
      |c - 1| ≤ 1 / 2 ^ 50 := by
  have hs : 0 < s := lt_of_lt_of_le (twoPow_pos _) hlo'
  obtain ⟨r, hr, hrpos, hr1, hr2⟩ := sqrtTo_binary64_spec s hs hlo' hhi'
  have hr2pos : 0 < r ^ 2 := pow_pos hrpos 2
  have hu1 : (1 : ℚ) / 4 ≤ (1 - 1 / 2 ^ 53) ^ 2 := by norm_num
  have hu2 : (1 + 1 / 2 ^ 53 : ℚ) ^ 2 ≤ 4 := by norm_num
  -- the square of the root is far from overflow and underflow
  have hsq1 : s ≤ r ^ 2 * 4 := le_trans hr2 (mul_le_mul_of_nonneg_left hu2 (le_of_lt hr2pos))
  have hsq2 : r ^ 2 * (1 / 4) ≤ s :=
    le_trans (mul_le_mul_of_nonneg_left hu1 (le_of_lt hr2pos)) hr1
  have h1022 : twoPow (-1022) ≤ r * r := by
    have h : twoPow (-1022) * 4 ≤ twoPow (-1000) := by
      have h4 : (4 : ℚ) = twoPow 2 := by rw [twoPow_eq]; norm_num
      rw [h4, ← twoPow_add]; exact twoPow_le (by norm_num)
    nlinarith
  have h1023 : r * r ≤ twoPow 1023 := by
    have h : twoPow 1000 * 4 ≤ twoPow 1023 := by
      have h4 : (4 : ℚ) = twoPow 2 := by rw [twoPow_eq]; norm_num
      rw [h4, ← twoPow_add]; exact twoPow_le (by norm_num)
    nlinarith
  obtain ⟨p, hp, hp1, hp2⟩ := roundTo_binary64_spec (r * r) (mul_pos hrpos hrpos) h1022 h1023
  have hppos : 0 < p := by
    have : (0 : ℚ) < r * r * (1 - 1 / 2 ^ 53) := mul_pos (mul_pos hrpos hrpos) (by norm_num)
    linarith
  -- the quotient before rounding
  have hq1 : (1 - 1 / 2 ^ 53 : ℚ) ^ 2 / (1 + 1 / 2 ^ 53) ≤ s / p := by
    rw [div_le_div_iff₀ (by norm_num) hppos]
    have e1 : (0 : ℚ) ≤ (1 - 1 / 2 ^ 53) ^ 2 := by positivity
    have e2 : (0 : ℚ) ≤ 1 + 1 / 2 ^ 53 := by norm_num
    calc (1 - 1 / 2 ^ 53 : ℚ) ^ 2 * p ≤ (1 - 1 / 2 ^ 53) ^ 2 * (r * r * (1 + 1 / 2 ^ 53)) :=
          mul_le_mul_of_nonneg_left hp2 e1
      _ = r ^ 2 * (1 - 1 / 2 ^ 53) ^ 2 * (1 + 1 / 2 ^ 53) := by ring
      _ ≤ s * (1 + 1 / 2 ^ 53) := mul_le_mul_of_nonneg_right hr1 e2
  have hq2 : s / p ≤ (1 + 1 / 2 ^ 53 : ℚ) ^ 2 / (1 - 1 / 2 ^ 53) := by
    rw [div_le_div_iff₀ hppos (by norm_num)]
    have e1 : (0 : ℚ) ≤ (1 + 1 / 2 ^ 53) ^ 2 := by positivity
    have e2 : (0 : ℚ) ≤ 1 - 1 / 2 ^ 53 := by norm_num
    calc s * (1 - 1 / 2 ^ 53) ≤ r ^ 2 * (1 + 1 / 2 ^ 53) ^ 2 * (1 - 1 / 2 ^ 53) :=
          mul_le_mul_of_nonneg_right hr2 e2
      _ = (1 + 1 / 2 ^ 53) ^ 2 * (r * r * (1 - 1 / 2 ^ 53)) := by ring
      _ ≤ (1 + 1 / 2 ^ 53) ^ 2 * p := mul_le_mul_of_nonneg_left hp1 e1
  have hqpos : 0 < s / p := div_pos hs hppos
  have hqlo : twoPow (-1022) ≤ s / p := by
    have h : twoPow (-1022) ≤ (1 - 1 / 2 ^ 53 : ℚ) ^ 2 / (1 + 1 / 2 ^ 53) := by
      have : twoPow (-1022) ≤ twoPow (-3) := twoPow_le (by norm_num)
      have h3 : twoPow (-3) = 1 / 8 := by rw [twoPow_eq]; norm_num
      rw [h3] at this
      refine le_trans this ?_
      norm_num
    exact le_trans h hq1
  have hqhi : s / p ≤ twoPow 1023 := by
    have h : (1 + 1 / 2 ^ 53 : ℚ) ^ 2 / (1 - 1 / 2 ^ 53) ≤ twoPow 1023 := by
      have : twoPow 3 ≤ twoPow 1023 := twoPow_le (by norm_num)
      have h3 : twoPow 3 = 8 := by rw [twoPow_eq]; norm_num
      rw [h3] at this
      refine le_trans ?_ this
      norm_num
    exact le_trans hq2 h
  obtain ⟨c, hc, hc1, hc2⟩ := roundTo_binary64_spec (s / p) hqpos hqlo hqhi
  have hsqrt : ieeeRuntime.sqrt (.finite s) = .finite r := by
    simp only [ieeeRuntime, GoFloat.sqrt64, not_lt.mpr (le_of_lt hs), ne_of_gt hs, if_false, hr]
  have hmul : ieeeRuntime.mul (.finite r) (.finite r) = .finite p := by
    simp only [ieeeRuntime, GoFloat.mulExact, GoFloat.round, hp]
  have hdiv : ieeeRuntime.div (.finite s) (.finite p) = .finite c := by
    simp only [ieeeRuntime, GoFloat.divExact, ne_of_gt hppos, if_false, GoFloat.round, hc]
  refine ⟨r, c, hsqrt, ne_of_gt hrpos, by rw [hmul, hdiv], ?_⟩
  rw [abs_le]
  constructor
  · have h : (1 : ℚ) - 1 / 2 ^ 50 ≤
        (1 - 1 / 2 ^ 53) ^ 2 / (1 + 1 / 2 ^ 53) * (1 - 1 / 2 ^ 53) := by norm_num
    have := mul_le_mul_of_nonneg_right hq1 (show (0 : ℚ) ≤ 1 - 1 / 2 ^ 53 by norm_num)
    linarith
  · have h : (1 + 1 / 2 ^ 53 : ℚ) ^ 2 / (1 - 1 / 2 ^ 53) * (1 + 1 / 2 ^ 53) ≤ 1 + 1 / 2 ^ 50 := by
      norm_num
    have := mul_le_mul_of_nonneg_right hq2 (show (0 : ℚ) ≤ 1 + 1 / 2 ^ 53 by norm_num)
    linarith

/-- C7, as stated, fails in IEEE-754 arithmetic. (1) The vector `(1, 1)` has a
non-zero norm, yet its similarity with itself is `1 - 2 ^ -52`, not `1`: the
squared norm is `2`, its rounded root squared is `2 + 2 ^ -51`, and the
rounded quotient is the `float64` just below one; in real arithmetic
`dot / (norm * norm)` is `1`. (2) For the vector `(2 ^ 100)` the `float32`
product overflows and the result is NaN. (3) For the vector `(2 ^ -100)` the
`float32` product underflows to zero and the result is `0`. (4) The vectors
`(1, 1, 1, 1)` and `(2 ^ 60, 1, -2 ^ 60, -1)` are orthogonal, their dot
product is `0`, yet the sum `2 ^ 60 + 1` is rounded to `2 ^ 60`, the
accumulated dot product is `-1` and the similarity is not `0`. -/
theorem C7_counterexample :
    (cosineSimilarity ieeeRuntime [.finite 1, .finite 1] [.finite 1, .finite 1]
        = .finite (1 - 1 / 2 ^ 52) ∧
      cosineSimilarity ieeeRuntime [.finite 1, .finite 1] [.finite 1, .finite 1] ≠ .finite 1) ∧
    cosineSimilarity ieeeRuntime [.finite (2 ^ 100)] [.finite (2 ^ 100)] = .nan ∧
    cosineSimilarity ieeeRuntime [.finite (1 / 2 ^ 100)] [.finite (1 / 2 ^ 100)] = .finite 0 ∧
    ((1 : ℚ) * 2 ^ 60 + 1 * 1 + 1 * (-(2 ^ 60)) + 1 * (-1) = 0 ∧
      (cosineLoop ieeeRuntime [.finite 1, .finite 1, .finite 1, .finite 1]
        [.finite (2 ^ 60), .finite 1, .finite (-(2 ^ 60)), .finite (-1)]
        (.finite 0, .finite 0, .finite 0)).1 = .finite (-1) ∧
      cosineSimilarity ieeeRuntime [.finite 1, .finite 1, .finite 1, .finite 1]
        [.finite (2 ^ 60), .finite 1, .finite (-(2 ^ 60)), .finite (-1)] ≠ .finite 0) := by
  decide!

/-- C7 (amended), in IEEE-754 arithmetic (`float32` products, `float64` sums,
square roots, product and quotient, each rounded to nearest). (1) For every
vector `v` whose accumulated squared norm `s` is a finite `float64` between
`2 ^ -1000` and `2 ^ 1000`, `cosineSimilarity(v, v)` is a finite value within
`2 ^ -50` of `1`. (2) For every pair `a`, `b` of the same length whose
computed norms do not compare equal to zero, `cosineSimilarity(a, b)` is the
rounded quotient of the accumulated dot product by the rounded product of the
computed norms. (3) When moreover the accumulated dot product is `0` and the
product of the norms is a finite non-zero value, the similarity is `0`. -/
theorem C7_cosineSimilarity_rounded (v a b : List GoFloat) :
    (∀ s : ℚ, (cosineLoop ieeeRuntime v v (.finite 0, .finite 0, .finite 0)).1 = .finite s →
      twoPow (-1000) ≤ s → s ≤ twoPow 1000 →
      ∃ c, cosineSimilarity ieeeRuntime v v = .finite c ∧ |c - 1| ≤ 1 / 2 ^ 50) ∧
    (a.length = b.length →
      (ieeeRuntime.sqrt (cosineLoop ieeeRuntime a b (.finite 0, .finite 0, .finite 0)).2.1).eq
        (.finite 0) = false →
      (ieeeRuntime.sqrt (cosineLoop ieeeRuntime a b (.finite 0, .finite 0, .finite 0)).2.2).eq
        (.finite 0) = false →
      cosineSimilarity ieeeRuntime a b
        = ieeeRuntime.div (cosineLoop ieeeRuntime a b (.finite 0, .finite 0, .finite 0)).1
            (ieeeRuntime.mul
              (ieeeRuntime.sqrt (cosineLoop ieeeRuntime a b (.finite 0, .finite 0, .finite 0)).2.1)
              (ieeeRuntime.sqrt
                (cosineLoop ieeeRuntime a b (.finite 0, .finite 0, .finite 0)).2.2)) ∧
      ((cosineLoop ieeeRuntime a b (.finite 0, .finite 0, .finite 0)).1 = .finite 0 →
        ∀ y : ℚ, y ≠ 0 →
          ieeeRuntime.mul
            (ieeeRuntime.sqrt (cosineLoop ieeeRuntime a b (.finite 0, .finite 0, .finite 0)).2.1)
            (ieeeRuntime.sqrt (cosineLoop ieeeRuntime a b (.finite 0, .finite 0, .finite 0)).2.2)
            = .finite y →
          cosineSimilarity ieeeRuntime a b = .finite 0)) := by
  constructor
  · intro s hs hlo hhi
    obtain ⟨h1, h2⟩ := cosineLoop_self ieeeRuntime v (.finite 0)
    obtain ⟨r, c, hr, hr0, hc, hb⟩ := ieee_self_quotient s hlo hhi
    refine ⟨c, ?_, hb⟩
    have hA : (ieeeRuntime.sqrt
        (cosineLoop ieeeRuntime v v (.finite 0, .finite 0, .finite 0)).2.1).eq (.finite 0)
        = false := by
      rw [h1, hs, hr]; simp [GoFloat.eq, hr0]
    have hB : (ieeeRuntime.sqrt
        (cosineLoop ieeeRuntime v v (.finite 0, .finite 0, .finite 0)).2.2).eq (.finite 0)
        = false := by
      rw [h2, hs, hr]; simp [GoFloat.eq, hr0]
    rw [cosineSimilarity_of_norms_ne_zero ieeeRuntime v v rfl hA hB, h1, h2, hs, hr, hc]
  · intro hlen hA hB
    have hq := cosineSimilarity_of_norms_ne_zero ieeeRuntime a b hlen hA hB
    refine ⟨hq, ?_⟩
    intro hdot y hy hprod
    rw [hq, hdot, hprod]
    simp [ieeeRuntime, GoFloat.divExact, hy, GoFloat.round, roundTo]

theorem C7_cosineSimilarity_rounded_witness :
    ∃ c, cosineSimilarity ieeeRuntime [.finite 1, .finite 1] [.finite 1, .finite 1] = .finite c ∧
      |c - 1| ≤ 1 / 2 ^ 50 :=
  (C7_cosineSimilarity_rounded [.finite 1, .finite 1] [] []).1 2
    (by decide!) (by decide!) (by decide!)

end PKB
